import Mathlib

/-!
# shellgibi: command parser and process orchestrator

A shallow embedding of `parse_command`, `process_command`, `process_command_child`,
`execute_command`, `execv_command`, `execvp_command`, `combine_path`,
`load_all_available_commands` and `shellgibi_autocomplete` from `src/shellgibi.c`, and
the properties of the parsing-and-execution pipeline proved about them.

C strings are lists of characters (the bytes before the terminating NUL, so a
`CStr` never holds a NUL itself).  A pointer that may be `NULL` is an `Option`.
Undefined behaviour of the C program (dereferencing `NULL`, writing past
`temp_buf`, reading past the end of the line buffer) is an explicit `Fault`.

`strtok` tokenizes the line buffer destructively and keeps a saved pointer between
calls.  The text from the saved pointer to the end of the line is never modified, so
the state of the tokenizer is that remaining text; `parse_command` hands it back to
its caller, whose loop goes on with it after the recursive call of the pipe branch.

`process_command` is followed in the shell process as the status it returns and the list
of what it does there (`shell_event`); the process it creates with `fork` is followed
through `process_command_child` and `execute_command` to the call that ends it
(`process_end`).  Where the source sizes a block itself, the size is followed:
`combine_path_result` is `combine_path` writing to an array of a given size, `full_path`
is the array as `execv_command` and `load_all_available_commands` declare it, and the
`psvis` block cuts `args` to the number of bytes it passes to `realloc`.  A write past the
end of such a block is a `Fault`, as in the parser.

Files are told apart by `file_id`, not by path: `file_system.lookup` gives the file that
`fopen` opens for a path, or `none` where `fopen` returns `NULL`.

The definitions come first: the embedding of the source, then the notions the
properties are stated with (`tokens`, `chain`, ...).  The theorems follow:
`parse_command_eq` reads the parser over the token list of the line, and the
properties are derived from it.
-/

set_option autoImplicit false

namespace Shellgibi

/-- A C string: the characters before the terminator. -/
abbrev CStr := List Char

/-- The horizontal tab, the second character of `splitters`. -/
def TAB : Char := Char.ofNat 9

/-- The double quote character. -/
def DQUOTE : Char := Char.ofNat 34

/-- The single quote character. -/
def SQUOTE : Char := Char.ofNat 39

/-- Ways in which the C code leaves defined behaviour, plus fuel exhaustion of the model. -/
inductive Fault where
  | null_deref
  | buffer_overflow
  | out_of_bounds
  | out_of_fuel
  deriving DecidableEq, Repr

/-- The three redirect slots `char *redirects[3]`: input, truncate, append. -/
structure redirects_t where
  r0 : Option CStr
  r1 : Option CStr
  r2 : Option CStr
  deriving DecidableEq, Repr

/-- Reading `redirects[i]`. -/
def redirects_t.get (r : redirects_t) : Nat → Option CStr
  | 0 => r.r0
  | 1 => r.r1
  | 2 => r.r2
  | _ => none

/-- Assigning `redirects[i] = v` (a fresh, non-NULL string). -/
def redirects_t.set (r : redirects_t) (i : Nat) (v : CStr) : redirects_t :=
  match i with
  | 0 => { r with r0 := some v }
  | 1 => { r with r1 := some v }
  | 2 => { r with r2 := some v }
  | _ => r

/-- The record `struct command_t`: one pipeline stage and the link to the next. -/
structure command_t where
  name : CStr
  background : Bool
  arg_count : Nat
  args : List CStr
  redirects : redirects_t
  next : Option command_t

/-- A stage after `memset(command, 0, sizeof(struct command_t))`. -/
def command_zero : command_t :=
  { name := [], background := false, arg_count := 0, args := [],
    redirects := ⟨none, none, none⟩, next := none }

/-- The test `strchr(splitters, c) != NULL` for `splitters = " \t"` and a character `c` of a string. -/
def is_splitter (c : Char) : Bool := c == ' ' || c == TAB

/-- The loop `while (len > 0 && strchr(splitters, buf[0]) != NULL) { buf++; len--; }`. -/
def trim_left (buf : CStr) : CStr := buf.dropWhile is_splitter

/-- The loop `while (len > 0 && strchr(splitters, buf[len - 1]) != NULL) buf[--len] = 0;`. -/
def trim_right (buf : CStr) : CStr := buf.rdropWhile is_splitter

/-- What one call of `strtok` yields: the token (`none` for `NULL`), the text that
started at the token's end before it was terminated, and the text at the saved
pointer for the next call. -/
structure strtok_result where
  token : Option CStr
  stop : CStr
  save : CStr

/-- One call `strtok(s, splitters)` on the text `s` (for `strtok(NULL, ..)`, `s` is
the text at the saved pointer): skip leading splitters; no character left gives
`NULL`; otherwise the token runs to the next splitter, which is overwritten by a
terminator and the saved pointer moves past it, or to the end of the text, where
the saved pointer stays. -/
def strtok (s : CStr) : strtok_result :=
  match s.dropWhile is_splitter with
  | [] => { token := none, stop := [], save := [] }
  | c :: cs =>
    let e := (c :: cs).dropWhile (fun x => !is_splitter x)
    { token := some ((c :: cs).takeWhile (fun x => !is_splitter x)), stop := e, save := e.tail }

/-- The size of `char temp_buf[1024]`. -/
def TEMP_BUF_SIZE : Nat := 1024

/-- The locals of `parse_command` that live across loop iterations. -/
structure parse_state where
  command : command_t
  arg_index : Nat

/-- The redirection test of the loop body: the slot index and the position of `arg`
after the optional `arg++`, or `none` when `redirect_index` stays `-1`. -/
def redirect_of (arg : CStr) : Option (Nat × CStr) :=
  let r : Option (Nat × CStr) := if arg.head? = some '<' then some (0, arg) else none
  if arg.head? = some '>' then
    if arg.length > 1 ∧ arg.tail.head? = some '>' then some (2, arg.tail)
    else some (1, arg)
  else r

/-- The test `len > 2 && ((arg[0] == '"' && arg[len - 1] == '"') || (arg[0] == '\'' && arg[len - 1] == '\''))`. -/
def quote_wrapped (arg : CStr) : Bool :=
  decide (arg.length > 2) &&
    ((arg.head? == some DQUOTE && arg.getLast? == some DQUOTE) ||
     (arg.head? == some SQUOTE && arg.getLast? == some SQUOTE))

/-- The loop body of `parse_command` for a trimmed, non-empty token that is not `|`:
the background token is skipped, a redirection fills its slot, anything else is
appended to `args` (without its quotes when it is quote wrapped). -/
def parse_arg (st : parse_state) (arg : CStr) : parse_state :=
  if arg = ['&'] then st
  else
    match redirect_of arg with
    | some (redirect_index, arg1) =>
      { st with command :=
          { st.command with redirects := st.command.redirects.set redirect_index arg1.tail } }
    | none =>
      let arg1 := if quote_wrapped arg then arg.dropLast.tail else arg
      { command := { st.command with args := st.command.args ++ [arg1] },
        arg_index := st.arg_index + 1 }

/-- The `while (1)` loop of `parse_command`.  `recur` is the recursive call
`parse_command(pch + index, c)` on a zeroed stage; `save` is the text at the saved
pointer of `strtok`.  The result carries the saved pointer's text at loop exit. -/
def parse_loop (recur : CStr → Except Fault (command_t × CStr)) :
    Nat → parse_state → CStr → Except Fault (parse_state × CStr)
  | 0, _, _ => .error .out_of_fuel
  | fuel + 1, st, save =>
    let r := strtok save
    match r.token with
    | none => .ok (st, r.save)
    | some pch =>
      -- strcpy(arg, pch) into temp_buf
      if TEMP_BUF_SIZE < pch.length + 1 then .error .buffer_overflow
      else if pch.length = 0 then parse_loop recur fuel st r.save
      else
        let arg := trim_right (trim_left pch)
        if arg.length = 0 then parse_loop recur fuel st r.save
        else if arg = ['|'] then
          match r.stop with
          | [] => .error .out_of_bounds -- pch[l] = ' ' replaces the line's terminator
          | _ :: after =>
            -- the text at pch once its terminator is a blank again
            let restored := pch ++ ' ' :: after
            let sub := (restored.drop 1).dropWhile (fun x => x == ' ' || x == TAB)
            match recur sub with
            | .error f => .error f
            | .ok (c, save1) =>
              parse_loop recur fuel { st with command := { st.command with next := some c } } save1
        else parse_loop recur fuel (parse_arg st arg) r.save

/-- The function `parse_command(buf, command)`, with `fuel` bounding the loop
iterations and the recursion depth.  Beside the filled stage it returns the text
left at the saved pointer of `strtok`, which the caller's loop goes on with. -/
def parse_command_fuel : Nat → CStr → command_t → Except Fault (command_t × CStr)
  | 0, _, _ => .error .out_of_fuel
  | fuel + 1, buf, command =>
    let buf := trim_right (trim_left buf)
    let command :=
      if buf.length > 0 ∧ buf.getLast? = some '&' then { command with background := true }
      else command
    let r := strtok buf
    match r.token with
    | none => .error .null_deref -- strlen(pch) with pch == NULL
    | some pch =>
      let command := { command with name := pch, args := [] }
      match parse_loop (fun b => parse_command_fuel fuel b command_zero) fuel ⟨command, 0⟩ r.save with
      | .error f => .error f
      | .ok (st, save) => .ok ({ st.command with arg_count := st.arg_index }, save)

/-- The call `parse_command(buf, command)` as `prompt` makes it: on the stage that
`main` has zeroed, with fuel that is always enough (see `parse_command_fuel_eq`). -/
def parse_command (buf : CStr) : Except Fault command_t :=
  (parse_command_fuel (buf.length + 1) buf command_zero).map Prod.fst


/-- The whitespace-split tokens of a line: its maximal runs of non-splitter characters, in order. -/
def tokens : CStr → List CStr
  | [] => []
  | c :: cs =>
    if is_splitter c then tokens cs
    else
      match cs with
      | [] => [[c]]
      | d :: _ =>
        if is_splitter d then [c] :: tokens cs
        else
          match tokens cs with
          | [] => [[c]]
          | t :: ts => (c :: t) :: ts

/-- A text that does not end in a splitter (the state of the line after `trim_right`). -/
def no_trailing_ws (s : CStr) : Prop := ∀ c, s.getLast? = some c → is_splitter c = false

/-- Whether the last token ends in `&`: the last character of the trimmed line. -/
def ends_amp (toks : List CStr) : Bool := toks.getLast?.bind List.getLast? == some '&'

/-- The stage as `parse_command` has it when its loop starts: background set when the
trimmed line ends in `&`, the name copied, `args` freshly allocated, `arg_index = 0`. -/
def stage_start (command : command_t) (amp : Bool) (name : CStr) : parse_state :=
  ⟨{ (if amp then { command with background := true } else command) with
      name := name, args := [] }, 0⟩

/-- The closing assignment `command->arg_count = arg_index`. -/
def stage_finish (st : parse_state) : command_t := { st.command with arg_count := st.arg_index }

/-- The loop of `parse_command` read over the list of tokens still to come, instead of
over the buffer: `parse_loop_eq` proves the two agree. -/
def tokens_loop : parse_state → List CStr → Except Fault parse_state
  | st, [] => .ok st
  | st, t :: ts =>
    if TEMP_BUF_SIZE < t.length + 1 then .error .buffer_overflow
    else if t = ['|'] then
      match ts with
      | [] => .error .out_of_bounds
      | n :: ts1 =>
        match tokens_loop (stage_start command_zero (ends_amp (n :: ts1)) n) ts1 with
        | .error f => .error f
        | .ok st1 => .ok { st with command := { st.command with next := some (stage_finish st1) } }
    else tokens_loop (parse_arg st t) ts

/-- The function `parse_command` read over the tokens of its line: `parse_command_fuel_eq`
proves the two agree. -/
def parse_tokens (command : command_t) : List CStr → Except Fault command_t
  | [] => .error .null_deref
  | name :: ts =>
    (tokens_loop (stage_start command (ends_amp (name :: ts)) name) ts).map stage_finish


/-- Where `process_command_child` binds the standard output of the stage's process. -/
inductive stdout_target where
  | unchanged
  | trunc_file (path : CStr)
  | append_file (path : CStr)
  | pipe
  | temp_file
  deriving DecidableEq, Repr

/-- The counter `num_redirects_from_stdout` of `process_command_child`: one for a set
truncate redirect, one for a set append redirect, one for a next stage. -/
def num_redirects_from_stdout (command : command_t) : Nat :=
  (if (command.redirects.get 1).isSome then 1 else 0) +
  (if (command.redirects.get 2).isSome then 1 else 0) +
  (if command.next.isSome then 1 else 0)

/-- The flag `stdout_redirected_to_multiple_files = num_redirects_from_stdout > 1`. -/
def stdout_redirected_to_multiple_files (command : command_t) : Bool :=
  decide (num_redirects_from_stdout command > 1)

/-- The `if` / `else if` chain of `process_command_child` that binds standard output:
`freopen(.., "w", stdout)`, `freopen(.., "a", stdout)`, `dup2` of the pipe's write end,
the temporary file of the fan-out path, or nothing at all. -/
def child_stdout (command : command_t) : stdout_target :=
  if !stdout_redirected_to_multiple_files command && (command.redirects.get 1).isSome then
    .trunc_file ((command.redirects.get 1).getD [])
  else if !stdout_redirected_to_multiple_files command && (command.redirects.get 2).isSome then
    .append_file ((command.redirects.get 2).getD [])
  else if !stdout_redirected_to_multiple_files command && command.next.isSome then .pipe
  else if stdout_redirected_to_multiple_files command then .temp_file
  else .unchanged

/-- A byte of a file or of a pipe. -/
abbrev Byte := Nat

/-- A file, as the file system tells files apart: two paths that name the same file,
such as `f` and `./f`, have the same `file_id`. -/
abbrev file_id := Nat

/-- The file system as `fopen` sees it.  `lookup` gives the file that `fopen(path, "w")`
or `fopen(path, "a")` opens, creating it if need be, or `none` where that `fopen` fails
and returns `NULL` (a directory, a missing directory, no permission); `bytes` gives the
bytes of each file, or `none` where the file does not exist yet. -/
structure file_system where
  lookup : CStr → Option file_id
  bytes : file_id → Option (List Byte)

/-- The file system with the bytes of `file` replaced. -/
def fs_set (fs : file_system) (file : file_id) (data : List Byte) : file_system :=
  { fs with bytes := fun q => if q = file then some data else fs.bytes q }

/-- The bytes of the file that a path names, if it names one that exists. -/
def file_system.read (fs : file_system) (path : CStr) : Option (List Byte) :=
  (fs.lookup path).bind fs.bytes

/-- A stream open for writing: its file, whether every write goes to the end of the
file (mode `"a"`), and the file offset of the next write otherwise. -/
structure out_stream where
  file : file_id
  append : Bool
  offset : Nat
  deriving DecidableEq, Repr

/-- The call `fopen(path, "w")`: the file is created or cut to length zero; `none` for
`NULL`, which `fopen` returns for the empty path and wherever the file system lets it
open no file. -/
def fopen_w (fs : file_system) (path : CStr) : file_system × Option out_stream :=
  if path = [] then (fs, none)
  else
    match fs.lookup path with
    | none => (fs, none)
    | some file => (fs_set fs file [], some ⟨file, false, 0⟩)

/-- The call `fopen(path, "a")`: the file is created if there is none, its bytes stay;
`none` for `NULL`, as for `fopen_w`. -/
def fopen_a (fs : file_system) (path : CStr) : file_system × Option out_stream :=
  if path = [] then (fs, none)
  else
    match fs.lookup path with
    | none => (fs, none)
    | some file => (fs_set fs file ((fs.bytes file).getD []), some ⟨file, true, 0⟩)

/-- The bytes of a file after `data` is written at `offset` (a gap is filled with zeros). -/
def write_at (old data : List Byte) (offset : Nat) : List Byte :=
  old.take offset ++ List.replicate (offset - old.length) 0 ++ data ++
    old.drop (offset + data.length)

/-- The call `write(fileno(fp), data, n)` on a regular file, written in full: at the
end of the file for an append stream, at the stream's offset otherwise. -/
def fs_write (fs : file_system) (fp : out_stream) (data : List Byte) :
    file_system × out_stream :=
  if fp.append then (fs_set fs fp.file ((fs.bytes fp.file).getD [] ++ data), fp)
  else
    (fs_set fs fp.file (write_at ((fs.bytes fp.file).getD []) data fp.offset),
      { fp with offset := fp.offset + data.length })

/-- A guarded write of the copy loop, `if (set) write(fileno(fp), ..)`: `fileno(NULL)` is a fault. -/
def write_if (set : Bool) (fs : file_system) (fp : Option out_stream) (data : List Byte) :
    Except Fault (file_system × Option out_stream) :=
  if set then
    match fp with
    | none => .error .null_deref
    | some s => .ok ((fs_write fs s data).1, some (fs_write fs s data).2)
  else .ok (fs, fp)

/-- The state of the copy phase: the unread rest of the temporary file, `char buffer[BUFSIZ]`,
the files, the two streams, and the bytes written so far to `child_to_parent_pipe[1]`. -/
structure copy_state where
  temp_rest : List Byte
  buffer : List Byte
  fs : file_system
  trunc_fp : Option out_stream
  append_fp : Option out_stream
  pipe : List Byte

/-- The loop `while ((chars_read = read(fileno(temp_fp), &buffer, sizeof(buffer))) > 0)`
of the fan-out path, for the platform's `BUFSIZ` and `sizeof(size_t)`.  Each round reads
up to `BUFSIZ` bytes into the front of `buffer`, writes `chars_read` bytes of it to the
truncate and append streams when their redirect is set, and `sizeof(chars_read)` bytes
of it to the pipe when there is a next stage. -/
def copy_loop (BUFSIZ SIZEOF_SIZE_T : Nat) (command : command_t) :
    Nat → copy_state → Except Fault copy_state
  | 0, _ => .error .out_of_fuel
  | fuel + 1, s =>
    let chunk := s.temp_rest.take BUFSIZ
    let chars_read := chunk.length
    if chars_read > 0 then
      let buffer := chunk ++ s.buffer.drop chars_read
      match write_if (command.redirects.get 1).isSome s.fs s.trunc_fp (buffer.take chars_read) with
      | .error f => .error f
      | .ok (fs1, trunc_fp) =>
        match write_if (command.redirects.get 2).isSome fs1 s.append_fp (buffer.take chars_read) with
        | .error f => .error f
        | .ok (fs2, append_fp) =>
          let pipe := if command.next.isSome then s.pipe ++ buffer.take SIZEOF_SIZE_T else s.pipe
          copy_loop BUFSIZ SIZEOF_SIZE_T command fuel
            { temp_rest := s.temp_rest.drop chars_read, buffer := buffer, fs := fs2,
              trunc_fp := trunc_fp, append_fp := append_fp, pipe := pipe }
    else .ok s

/-- The copy phase of the fan-out path of `process_command_child`, after `waitpid`:
`captured` is what the stage wrote to the temporary file (a file of its own under its
`tmpnam` name, which no redirect names and which both processes can open), `buffer0` the
initial bytes of `buffer`, `pipe0` the bytes already in the pipe.
The streams are opened, the loop runs, the streams are closed (`fclose(NULL)` is a
fault) and the temporary file is removed. -/
def fanout_copy (BUFSIZ SIZEOF_SIZE_T : Nat) (command : command_t) (captured buffer0 : List Byte)
    (fs : file_system) (pipe0 : List Byte) : Except Fault copy_state :=
  let o1 : file_system × Option out_stream :=
    match command.redirects.get 1 with
    | some p => fopen_w fs p
    | none => (fs, none)
  let o2 : file_system × Option out_stream :=
    match command.redirects.get 2 with
    | some q => fopen_a o1.1 q
    | none => (o1.1, none)
  match copy_loop BUFSIZ SIZEOF_SIZE_T command (captured.length + 1)
      { temp_rest := captured, buffer := buffer0, fs := o2.1, trunc_fp := o1.2,
        append_fp := o2.2, pipe := pipe0 } with
  | .error f => .error f
  | .ok s =>
    if (command.redirects.get 1).isSome ∧ s.trunc_fp = none then .error .null_deref
    else if (command.redirects.get 2).isSome ∧ s.append_fp = none then .error .null_deref
    else .ok s

/-- The fault of a run that ended in one. -/
def fault_of {α : Type} : Except Fault α → Option Fault
  | .error f => some f
  | .ok _ => none

/-- How the child process leaves `process_command_child`: through
`return execute_command(command)` with its standard output bound as given, or, on the
fan-out path, through `return SUCCESS` after the copy phase. -/
inductive child_result where
  | executes (stdout : stdout_target)
  | copied (s : copy_state)

/-- The function `process_command_child` in the child process.  On the fan-out path the
child forks a grandchild that runs the command with its standard output on the temporary
file, waits for it (`captured` is what it wrote there) and runs the copy phase; on every
other path the child binds standard output and runs the command itself. -/
def process_command_child (BUFSIZ SIZEOF_SIZE_T : Nat) (command : command_t)
    (captured buffer0 : List Byte) (fs : file_system) (pipe0 : List Byte) :
    Except Fault child_result :=
  match child_stdout command with
  | .temp_file =>
    match fanout_copy BUFSIZ SIZEOF_SIZE_T command captured buffer0 fs pipe0 with
    | .error f => .error f
    | .ok s => .ok (.copied s)
  | t => .ok (.executes t)


/-- A file system for the examples: the paths `f` and `./f` name one file, `g` names
another, `fopen` fails on every other path (among them the directory `/`), and no file
exists yet. -/
def sample_files : file_system :=
  { lookup := fun p =>
      if p = "f".toList ∨ p = "./f".toList then some 1
      else if p = "g".toList then some 2 else none,
    bytes := fun _ => none }
/-- The stages of a chain, following `next` from the head to the stage whose `next` is `NULL`. -/
def chain : command_t → List command_t
  | ⟨name, bg, n, args, r, none⟩ => [⟨name, bg, n, args, r, none⟩]
  | ⟨name, bg, n, args, r, some nx⟩ => ⟨name, bg, n, args, r, some nx⟩ :: chain nx

/-- The argument tokens of the first stage of a line: the tokens after the command
name, up to the first `|` token. -/
def stage_tokens (toks : List CStr) : List CStr :=
  toks.tail.takeWhile (fun t => decide (t ≠ ['|']))

/-- A token that begins with `<`. -/
def is_input_redirect (t : CStr) : Bool := t.head? == some '<'

/-- A token that begins with `>>`. -/
def is_append_redirect (t : CStr) : Bool := t.take 2 == ['>', '>']

/-- A token that begins with `>` but not with `>>`. -/
def is_trunc_redirect (t : CStr) : Bool := t.head? == some '>' && !is_append_redirect t

/-- A redirection token of any of the three kinds. -/
def is_redirect_token (t : CStr) : Bool :=
  is_input_redirect t || is_append_redirect t || is_trunc_redirect t

/-- A token longer than two characters whose first and last characters are the same
quote character, both `"` or both `'`. -/
def has_matching_quotes (t : CStr) : Prop :=
  2 < t.length ∧
    ((t.head? = some DQUOTE ∧ t.getLast? = some DQUOTE) ∨
     (t.head? = some SQUOTE ∧ t.getLast? = some SQUOTE))

instance (t : CStr) : Decidable (has_matching_quotes t) := by
  unfold has_matching_quotes; infer_instance

/-- The token without its first and last characters when it has matching quotes, the
token itself otherwise. -/
def without_quotes (t : CStr) : CStr :=
  if has_matching_quotes t then t.tail.dropLast else t

/-- A token that the loop of `parse_command` keeps as an argument: neither the
background token `&` nor a redirection token (the pipe token ends the stage). -/
def is_argument_token (t : CStr) : Bool := t != ['&'] && !is_redirect_token t

/-- The value a redirect slot ends with: what follows the operator (of `skip`
characters) in the last token of its kind, or the previous value when there is none. -/
def last_redirect (kind : CStr → Bool) (skip : Nat) (ts : List CStr) (old : Option CStr) :
    Option CStr :=
  match (ts.filter kind).getLast? with
  | some t => some (t.drop skip)
  | none => old

/-- A plain argument: a token that fits `temp_buf` and is neither the pipe token, the
background token, a redirection token nor a token with matching quotes. -/
def plain_argument (t : CStr) : Prop :=
  t.length < TEMP_BUF_SIZE ∧ t ≠ ['|'] ∧ t ≠ ['&'] ∧ is_redirect_token t = false ∧
    ¬ has_matching_quotes t

instance (t : CStr) : Decidable (plain_argument t) := by
  unfold plain_argument; infer_instance

/-- The tokens of a line made of simple commands, each a name with its arguments, joined
by `|` tokens. -/
def pipeline_tokens : List (CStr × List CStr) → List CStr
  | [] => []
  | (name, args) :: rest =>
    name :: (args ++
      (match rest with
        | [] => []
        | _ :: _ => ['|'] :: pipeline_tokens rest))

/-- A line with the given tokens: the tokens joined by single blanks. -/
def line_of : List CStr → CStr
  | [] => []
  | t :: ts =>
    match ts with
    | [] => t
    | _ :: _ => t ++ ' ' :: line_of ts

/-- The codes of `enum return_codes`. -/
inductive return_codes where
  | SUCCESS
  | EXIT
  | UNKNOWN
  | INVALID
  deriving DecidableEq, Repr

/-- The value of a return code: `SUCCESS = 0, EXIT = 1, UNKNOWN = 2, INVALID = 3`. -/
def return_codes.value : return_codes → Nat
  | .SUCCESS => 0
  | .EXIT => 1
  | .UNKNOWN => 2
  | .INVALID => 3

/-- What the C library and the system give the shell: `getenv("PATH")`, `getenv("USER")`
(both taken to be set), whether `execv` on a path replaces the process image, the name
`tmpnam` hands out, the text `sprintf("%d", (int)strtol(s, NULL, 10))` of an argument,
the indeterminate content of the array slots that `realloc` adds, and the platform's
`sizeof(char *)`. -/
structure environment where
  PATH : CStr
  USER : CStr
  executable : CStr → Bool
  temp_filename : CStr
  decimal : CStr → CStr
  indeterminate : Option CStr
  SIZEOF_CHAR_P : Nat

/-- The function `combine_path(result, directory, file)`, as the string it leaves in
`result` (the two pointers are never `NULL` at its callers). -/
def combine_path (directory file : CStr) : CStr :=
  if directory.length = 0 ∧ file.length = 0 then []
  else if file.length = 0 then directory
  else if directory.length = 0 then file
  else if directory.getLast? = some '/' then directory ++ file
  else directory ++ '/' :: file

/-- The call `strcpy(dest, src)` where `dest` is an array of `size` bytes: the string and
its terminator are written, past the end of the array when they do not fit. -/
def strcpy (size : Nat) (src : CStr) : Except Fault CStr :=
  if size < src.length + 1 then .error .buffer_overflow else .ok src

/-- The call `strcat(dest, src)` where `dest` is an array of `size` bytes that holds the
string `dest`. -/
def strcat (size : Nat) (dest src : CStr) : Except Fault CStr :=
  if size < dest.length + src.length + 1 then .error .buffer_overflow
  else .ok (dest ++ src)

/-- The function `combine_path(result, directory, file)` where `result` is an array of
`size` bytes: the calls of `strcpy` and `strcat` that build the string of `combine_path`
in `result`. -/
def combine_path_result (size : Nat) (directory file : CStr) : Except Fault CStr :=
  if directory.length = 0 ∧ file.length = 0 then strcpy size []
  else if file.length = 0 then strcpy size directory
  else if directory.length = 0 then strcpy size file
  else
    match strcpy size directory with
    | .error f => .error f
    | .ok result =>
      let separated : Except Fault CStr :=
        if directory.getLast? = some '/' then .ok result else strcat size result ['/']
      match separated with
      | .error f => .error f
      | .ok result1 => strcat size result1 file

/-- The two lines that `execv_command` and `load_all_available_commands` share:
`char full_path[strlen(path_tokenizer) + strlen(name) + 1];` and
`combine_path(full_path, path_tokenizer, name);`. -/
def full_path (path_tokenizer name : CStr) : Except Fault CStr :=
  combine_path_result (path_tokenizer.length + name.length + 1) path_tokenizer name

/-- One call `strtok(s, delim)` for any set of delimiters, as `strtok` above. -/
def strtok_by (delim : Char → Bool) (s : CStr) : strtok_result :=
  match s.dropWhile delim with
  | [] => { token := none, stop := [], save := [] }
  | c :: cs =>
    let e := (c :: cs).dropWhile (fun x => !delim x)
    { token := some ((c :: cs).takeWhile (fun x => !delim x)), stop := e, save := e.tail }

/-- The stage once `args` holds the launch vector: its entries may be `NULL`. -/
structure launch_t where
  name : CStr
  arg_count : Nat
  args : List (Option CStr)
  deriving DecidableEq, Repr

/-- The loop `for (int i = k; i > 0; --i) command->args[i] = command->args[i - 1];`. -/
def shift_forward : Nat → List (Option CStr) → List (Option CStr)
  | 0, a => a
  | k + 1, a => shift_forward k (a.set (k + 1) (a.getD k none))

/-- The launch vector construction shared by `execv_command` and `execvp_command`:
`realloc` to `arg_count += 2` slots (the new slots hold `junk`), shift every entry forward
by one, `args[0] = strdup(name)`, `args[arg_count - 1] = NULL`. -/
def launch_vector (junk : Option CStr) (command : command_t) : launch_t :=
  let arg_count := command.arg_count + 2
  let a0 := (command.args.map some ++
    List.replicate (arg_count - command.args.length) junk).take arg_count
  let a1 := shift_forward (arg_count - 2) a0
  let a2 := a1.set 0 (some command.name)
  { name := command.name, arg_count := arg_count, args := a2.set (arg_count - 1) none }

/-- How a process that does not return to its caller ends: its image is replaced by
`execv(path, argv)`; or it calls `execvp(file, argv)`, which replaces the image or, where
that fails, is followed by `_exit(1)`; or it calls `exit(status)`. -/
inductive process_end where
  | execv (path : CStr) (argv : List (Option CStr))
  | execvp (file : CStr) (argv : List (Option CStr))
  | exit (status : return_codes)
  deriving DecidableEq, Repr

/-- The signals the built-ins send. -/
inductive signal where
  | SIGSTOP
  | SIGCONT
  deriving DecidableEq, Repr

/-- What `execute_command` does before the process ends: `print_warning`, `print_error`,
`kill(strtol(pid, NULL, 10), sig)`, writing `new-cronjob.txt` for `alarm`, the countdown of
`hwtim`, writing `hw-cronjob.txt` for `hwtim`, and the `command not found` line. -/
inductive child_effect where
  | warning (message : CStr)
  | error (message : CStr)
  | kill (pid : CStr) (sig : signal)
  | cronjob (minute hour music : CStr)
  | handwash (seconds : CStr)
  | reminder (email : CStr)
  | not_found (name : CStr)
  deriving DecidableEq, Repr

/-- Reading `command->args[i]`: an entry that `args` does not hold is a fault. -/
def arg_at (command : command_t) (i : Nat) : Except Fault CStr :=
  match command.args.get? i with
  | some a => .ok a
  | none => .error .out_of_bounds

/-- The function `execvp_command`: the launch vector, then `execvp(command->name, command->args)`. -/
def execvp_command (env : environment) (command : command_t) : process_end :=
  .execvp command.name (launch_vector env.indeterminate command).args

/-- The loop of `execv_command` over the directories of `PATH`: `strtok` on `:`, the path
built in the array `full_path`, `execv` on it, and after the last directory
`command not found` and `exit(UNKNOWN)`.  `save` is the text at the saved pointer of
`strtok`. -/
def path_search (executable : CStr → Bool) (name : CStr) (argv : List (Option CStr)) :
    Nat → CStr → Except Fault (List child_effect × process_end)
  | 0, _ => .error .out_of_fuel
  | fuel + 1, save =>
    match (strtok_by (fun x => x == ':') save).token with
    | none => .ok ([.not_found name], .exit .UNKNOWN)
    | some path_tokenizer =>
      match full_path path_tokenizer name with
      | .error f => .error f
      | .ok path =>
        if executable path then .ok ([], .execv path argv)
        else path_search executable name argv fuel (strtok_by (fun x => x == ':') save).save

/-- The function `execv_command`: the launch vector, then the search of `PATH`, each path
built in the array `full_path`. -/
def execv_command (env : environment) (command : command_t) :
    Except Fault (List child_effect × process_end) :=
  path_search env.executable command.name (launch_vector env.indeterminate command).args
    (env.PATH.length + 1) env.PATH

/-- The rewrite of `myjobs` in `execute_command`: `ps -U <user> -o pid,cmd,s`. -/
def myjobs_rewrite (env : environment) (command : command_t) : command_t :=
  { command with
    name := "ps".toList, arg_count := 4,
    args := ["-U".toList, env.USER, "-o".toList, "pid,cmd,s".toList] }

/-- The rewrite of `alarm` in `execute_command`: `crontab new-cronjob.txt`. -/
def alarm_rewrite (command : command_t) : command_t :=
  { command with
    name := "crontab".toList, arg_count := 1,
    args := ["new-cronjob.txt".toList] }

/-- The rewrite of `hwtim` with two arguments in `execute_command`: the name becomes
`crontab` and `args[0]` becomes `hw-cronjob.txt`; `arg_count` and `args[1]` stay. -/
def hwtim_rewrite (command : command_t) : command_t :=
  { command with
    name := "crontab".toList,
    args := command.args.set 0 "hw-cronjob.txt".toList }

/-- The function `execute_command`: the built-ins `myjobs`, `pause`, `mybg`, `myfg`, `alarm`
and `hwtim` by name, in this order, and `execv_command` for what is left, which includes
`hwtim` with one argument, whose branch does not end the process. -/
def execute_command (env : environment) (command : command_t) :
    Except Fault (List child_effect × process_end) :=
  if command.name = "myjobs".toList then
    .ok ((if command.arg_count ≠ 0 then
        [.warning "myjobs does not accept any arguments, arguments are omitted".toList]
      else []),
      execvp_command env (myjobs_rewrite env command))
  else if command.name = "pause".toList then
    if command.arg_count ≠ 1 then
      .ok ([.error "pause requires only one argument <PID>".toList], .exit .INVALID)
    else
      match arg_at command 0 with
      | .error f => .error f
      | .ok pid => .ok ([.kill pid .SIGSTOP], .exit .SUCCESS)
  else if command.name = "mybg".toList then
    if command.arg_count ≠ 1 then
      .ok ([.error "mybg requires only one argument <PID>".toList], .exit .INVALID)
    else
      match arg_at command 0 with
      | .error f => .error f
      | .ok pid => .ok ([.kill pid .SIGCONT], .exit .SUCCESS)
  else if command.name = "myfg".toList then
    if command.arg_count ≠ 1 then
      .ok ([.error "myfg requires only one argument <PID>".toList], .exit .INVALID)
    else
      match arg_at command 0 with
      | .error f => .error f
      | .ok pid => .ok ([.kill pid .SIGCONT], .exit .SUCCESS)
  else if command.name = "alarm".toList then
    if command.arg_count ≠ 2 then
      .ok ([.error "alarm requires two arguments <HH.MM> <music_file>".toList], .exit .INVALID)
    else
      match arg_at command 0 with
      | .error f => .error f
      | .ok time =>
        match (strtok_by (fun x => x == '.') time).token with
        | none => .ok ([.error "invalid hour argument".toList], .exit .INVALID)
        | some hour =>
          match (strtok_by (fun x => x == '.') (strtok_by (fun x => x == '.') time).save).token with
          | none => .ok ([.error "invalid minute argument".toList], .exit .INVALID)
          | some minute =>
            match arg_at command 1 with
            | .error f => .error f
            | .ok music =>
              .ok ([.cronjob minute hour music], execvp_command env (alarm_rewrite command))
  else if command.name = "hwtim".toList then
    if command.arg_count < 1 ∨ command.arg_count > 2 then
      .ok ([.error "hwtim requires handwash time and/or email.".toList], .exit .INVALID)
    else
      match arg_at command 0 with
      | .error f => .error f
      | .ok seconds =>
        if command.arg_count = 2 then
          match arg_at command 1 with
          | .error f => .error f
          | .ok email =>
            .ok ([.handwash seconds, .reminder email],
              execvp_command env (hwtim_rewrite command))
        else
          match execv_command env command with
          | .error f => .error f
          | .ok (effects, e) => .ok (.handwash seconds :: effects, e)
  else execv_command env command

/-- The descriptors `process_command` closes: the two ends of the inbound pipe
`parent_to_child_pipe`, the two ends of `child_to_parent_pipe`, and the write end of
`argument_transfer_pipe`. -/
inductive fd_t where
  | parent_to_child_0
  | parent_to_child_1
  | child_to_parent_0
  | child_to_parent_1
  | argument_transfer_1
  deriving DecidableEq, Repr

/-- What a process created by `fork` in `process_command` goes on to run: the stage, through
`process_command_child` (with the inbound pipe on its standard input when there is one), or
a helper of `psvis`, through `execvp_command` on the stage it has built, unless building
it ends in a fault. -/
inductive child_program where
  | stage (command : command_t) (stdin_from_pipe : Bool)
  | launch (command : Except Fault command_t)

/-- What `process_command` does in the shell process, in order: `close`, `chdir`,
`print_error`, `pipe(child_to_parent_pipe)`, `fork`, `waitpid` on the process forked last,
the polling loop of `myfg` (taken to end), and the loop that drains `child_to_parent_pipe`
into `argument_transfer_pipe`. -/
inductive shell_event where
  | close (fd : fd_t)
  | chdir (dir : CStr)
  | error (message : CStr)
  | pipe
  | fork (child : child_program)
  | waitpid
  | poll (pid : CStr)
  | transfer

/-- The value of `sizeof(char)`. -/
def SIZEOF_CHAR : Nat := 1

/-- Whether a block of `bytes` bytes, as `realloc` or `malloc` returns it, has room for
`entries` entries of an array of `char *`. -/
def holds_entries (env : environment) (bytes entries : Nat) : Bool :=
  decide (env.SIZEOF_CHAR_P * entries ≤ bytes)

/-- The stage in the first helper of `psvis`: `sudo insmod psvis.ko PID=<root>`.  The
array `args` is cut to `sizeof(char) * (command->arg_count = 3)` bytes by `realloc` and
three entries are stored in it: past the end of the block unless it has room for them. -/
def psvis_insmod (env : environment) (command : command_t) (root_process : CStr) :
    Except Fault command_t :=
  if holds_entries env (SIZEOF_CHAR * 3) 3 then
    .ok { command with
          name := "sudo".toList, arg_count := 3,
          args := ["insmod".toList, "psvis.ko".toList,
            "PID=".toList ++ env.decimal root_process] }
  else .error .buffer_overflow

/-- The stage in the second helper of `psvis`: `sudo rmmod psvis`, in a new array of
`command->arg_count * sizeof(char *)` bytes. -/
def psvis_rmmod (command : command_t) : command_t :=
  { command with
    name := "sudo".toList, arg_count := 2,
    args := ["rmmod".toList, "psvis".toList] }

/-- The stage `psvis` leaves in the shell process: `sudo dmesg -c`, its output truncated
into the file named by the second argument.  The array `args` is cut to
`sizeof(char) * (command->arg_count = 2)` bytes by `realloc` and its two entries are then
read and stored: past the end of the block unless it has room for them. -/
def psvis_dmesg (env : environment) (command : command_t) (fname : CStr) :
    Except Fault command_t :=
  if holds_entries env (SIZEOF_CHAR * 2) 2 then
    .ok { command with
          name := "sudo".toList, arg_count := 2,
          args := ["dmesg".toList, "-c".toList],
          redirects := command.redirects.set 1 fname }
  else .error .buffer_overflow

/-- The `psvis` block of `process_command`: `args[0]` is read before the argument count is
tested; with two arguments two helpers are forked and waited for and the stage is rewritten
to `sudo dmesg -c` with its output truncated into the file of the second argument.  The
second component is `none` for `return INVALID`. -/
def psvis_block (env : environment) (command : command_t) :
    Except Fault (List shell_event × Option command_t) :=
  match arg_at command 0 with
  | .error f => .error f
  | .ok root_process =>
    if command.arg_count ≠ 2 then .ok ([.error "psvis requires two arguments.".toList], none)
    else
      match arg_at command 1 with
      | .error f => .error f
      | .ok fname =>
        match psvis_dmesg env command fname with
        | .error f => .error f
        | .ok command1 =>
          .ok ([.fork (.launch (psvis_insmod env command root_process)), .waitpid,
                .fork (.launch (.ok (psvis_rmmod command))), .waitpid],
            some command1)

/-- The stage `grep_for_corona_command` that the `corona` block builds. -/
def grep_for_corona_command (env : environment) : command_t :=
  { command_zero with
    name := "grep".toList, arg_count := 3,
    args := ["-Po".toList,
      "<td[^>]*> Turkey </td>(\\s*)<td[^>]*>\\K[0-9]*(?=</td>)".toList,
      env.temp_filename] }

/-- The `corona` block of `process_command`: the stage becomes `wget` into a temporary file
and its `next` is set to the `grep` stage. -/
def corona_block (env : environment) (command : command_t) : command_t :=
  { command with
    name := "wget".toList, arg_count := 4,
    args := ["--quiet".toList, "--output-document".toList, env.temp_filename,
      "www.worldometers.info/coronavirus/".toList],
    next := some (grep_for_corona_command env) }

/-- How one call of `process_command` ends in the shell process: with a `return` of a
status, or with `return process_command(command->next, argument_transfer_pipe)`. -/
inductive stage_outcome where
  | done (status : return_codes) (events : List shell_event)
  | next (events : List shell_event) (command : command_t)

/-- The events of one call of `process_command`. -/
def stage_outcome.events : stage_outcome → List shell_event
  | .done _ events => events
  | .next events _ => events

/-- An outcome after earlier events of the same call. -/
def stage_outcome.after (earlier : List shell_event) : stage_outcome → stage_outcome
  | .done status events => .done status (earlier ++ events)
  | .next events command => .next (earlier ++ events) command

/-- The two rewriting blocks of `process_command`, `psvis` and then `corona`: what they do
and the stage they leave, or `none` for the `return INVALID` of `psvis`. -/
def rewrite_stage (env : environment) (command : command_t) :
    Except Fault (List shell_event × Option command_t) :=
  let rewritten : Except Fault (List shell_event × Option command_t) :=
    if command.name = "psvis".toList then psvis_block env command
    else .ok ([], some command)
  match rewritten with
  | .error f => .error f
  | .ok (ev1, none) => .ok (ev1, none)
  | .ok (ev1, some command1) =>
    .ok (ev1,
      some (if command1.name = "corona".toList then corona_block env command1 else command1))

/-- From `pipe(child_to_parent_pipe)` to the wait decision of `process_command`, in the
shell process: the pipe when there is a next stage, the `fork` of the stage's process, the
closing of the inbound pipe and of the write end of the new pipe, and `waitpid` when
`!command->background || command->next`. -/
def launch_events (command : command_t) (inbound : Bool) : List shell_event :=
  (if command.next.isSome then [.pipe] else []) ++
  [.fork (.stage command inbound)] ++
  (if inbound then [.close .parent_to_child_0, .close .parent_to_child_1] else []) ++
  (if command.next.isSome then [.close .child_to_parent_1] else []) ++
  (if !command.background || command.next.isSome then [.waitpid] else [])

/-- The `myfg` block of the shell process: with exactly one argument, the polling loop. -/
def myfg_poll (command : command_t) : Except Fault (List shell_event) :=
  if command.name = "myfg".toList ∧ command.arg_count = 1 then
    match arg_at command 0 with
    | .error f => .error f
    | .ok pid => .ok [.poll pid]
  else .ok []

/-- The part of `process_command` from `pipe(child_to_parent_pipe)` on, in the shell
process: launch, wait, `myfg`, and the hand-over to the next stage. -/
def launch_stage (command : command_t) (inbound : Bool) : Except Fault stage_outcome :=
  match myfg_poll command with
  | .error f => .error f
  | .ok ev3 =>
    match command.next with
    | some nx =>
      .ok (.next (launch_events command inbound ++ ev3 ++
        [.transfer, .close .child_to_parent_0, .close .argument_transfer_1]) nx)
    | none => .ok (.done .SUCCESS (launch_events command inbound ++ ev3))

/-- The body of `process_command` in the shell process (the `else` branch of its `fork`),
up to its `return`.  `inbound` says whether `parent_to_child_pipe` is not `NULL`. -/
def process_stage (env : environment) (command : command_t) (inbound : Bool) :
    Except Fault stage_outcome :=
  let ev0 : List shell_event := if inbound then [.close .parent_to_child_1] else []
  let close0 : List shell_event := if inbound then [.close .parent_to_child_0] else []
  if command.name = [] then .ok (.done .SUCCESS (ev0 ++ close0))
  else if command.name = "exit".toList then .ok (.done .EXIT (ev0 ++ close0))
  else if command.name = "cd".toList ∧ command.arg_count > 0 then
    match arg_at command 0 with
    | .error f => .error f
    | .ok dir => .ok (.done .SUCCESS (ev0 ++ [.chdir dir] ++ close0))
  else
    match rewrite_stage env command with
    | .error f => .error f
    | .ok (ev1, none) => .ok (.done .INVALID (ev0 ++ ev1))
    | .ok (ev1, some command2) =>
      match launch_stage command2 inbound with
      | .error f => .error f
      | .ok outcome => .ok (outcome.after (ev0 ++ ev1))

/-- The function `process_command` in the shell process, with `fuel` bounding the depth
of its recursion into `next`: the status it returns and what it did. -/
def process_command_fuel (env : environment) :
    Nat → command_t → Bool → Except Fault (return_codes × List shell_event)
  | 0, _, _ => .error .out_of_fuel
  | fuel + 1, command, inbound =>
    match process_stage env command inbound with
    | .error f => .error f
    | .ok (.done status events) => .ok (status, events)
    | .ok (.next events nx) =>
      match process_command_fuel env fuel nx true with
      | .error f => .error f
      | .ok (status, events1) => .ok (status, events ++ events1)

/-- The call `process_command(command, NULL)` of `main`, and the recursive calls with a
pipe: the fuel is always enough (see `process_command_fault`). -/
def process_command (env : environment) (command : command_t) (inbound : Bool) :
    Except Fault (return_codes × List shell_event) :=
  process_command_fuel env ((chain command).length + 1) command inbound

/-- Whether an event creates a process. -/
def shell_event.is_fork : shell_event → Bool
  | .fork _ => true
  | _ => false

/-- How the child of the `fork` of `process_command` leaves `process_command`: its process
ends inside `execute_command`, or `process_command_child` returns and with it
`process_command`, to its caller. -/
inductive child_end where
  | ended (effects : List child_effect) (e : process_end)
  | returned (status : return_codes) (s : copy_state)

/-- The branch `pid == 0` of `process_command`: `return process_command_child(..)`.  On the
fan-out path `process_command_child` returns `SUCCESS` after the copy phase; on every other
path it ends in `return execute_command(command)`, which does not return. -/
def process_command_in_child (BUFSIZ SIZEOF_SIZE_T : Nat) (env : environment)
    (command : command_t) (captured buffer0 : List Byte) (fs : file_system)
    (pipe0 : List Byte) : Except Fault child_end :=
  match process_command_child BUFSIZ SIZEOF_SIZE_T command captured buffer0 fs pipe0 with
  | .error f => .error f
  | .ok (.copied s) => .ok (.returned .SUCCESS s)
  | .ok (.executes _) =>
    match execute_command env command with
    | .error f => .error f
    | .ok (effects, e) => .ok (.ended effects e)

/-- The grandchild that `process_command_child` forks on the fan-out path, if the stage
is on that path: it opens the temporary file, binds its standard output to it and ends in
`return execute_command(command)`. -/
def process_command_grandchild (env : environment) (command : command_t) :
    Option (Except Fault (List child_effect × process_end)) :=
  match child_stdout command with
  | .temp_file => some (execute_command env command)
  | _ => none

/-- The test of `main` after `code = process_command(command, NULL)`: the read loop goes
on unless the code is `EXIT`. -/
def main_loop_goes_on (code : return_codes) : Bool := code != .EXIT

/-- The directories of a search path joined by `:` as in `PATH`. -/
def path_of : List CStr → CStr
  | [] => []
  | d :: ds =>
    match ds with
    | [] => d
    | _ :: _ => d ++ ':' :: path_of ds

/-- The names of `shellgibi_builtin_commands`. -/
def shellgibi_builtin_commands : List CStr :=
  ["myjobs".toList, "pause".toList, "mybg".toList, "myfg".toList, "alarm".toList,
    "psvis".toList, "corona".toList, "hwtim".toList]

/-- Whether an event is the `fork` of the stage's own process. -/
def shell_event.is_stage_fork : shell_event → Bool
  | .fork (.stage _ _) => true
  | _ => false

/-- Whether an event is a `waitpid`. -/
def shell_event.is_waitpid : shell_event → Bool
  | .waitpid => true
  | _ => false

/-- Whether the shell, after the `fork` of the stage's process, waits for it. -/
def stage_waited (events : List shell_event) : Bool :=
  ((events.dropWhile (fun e => !e.is_stage_fork)).drop 1).any shell_event.is_waitpid

/-- An environment for the examples: the search path `/bin/:/usr/bin/`, whose directories
are written with a `/` at their end, with `ls` in both directories and `grep` and `hwtim`
in `/usr/bin/` only; pointers of 8 bytes. -/
def sample_environment : environment :=
  { PATH := "/bin/:/usr/bin/".toList,
    USER := "user".toList,
    executable := fun p =>
      p == "/bin/ls".toList || p == "/usr/bin/ls".toList || p == "/usr/bin/grep".toList ||
        p == "/usr/bin/hwtim".toList,
    temp_filename := "/tmp/fileA1b2C3".toList,
    decimal := fun s => s,
    indeterminate := none,
    SIZEOF_CHAR_P := 8 }

/-- The events that close the inbound pipe in a call that returns at once. -/
def inbound_closes (inbound : Bool) : List shell_event :=
  if inbound then [.close .parent_to_child_1, .close .parent_to_child_0] else []


/-- The call `strcmp(a, b)`.  C fixes only the sign of the result, and the sign is what
this function gives (`-1`, `0` or `1`): the strings are compared character by character
as unsigned values, and the terminator of the shorter string is below every character. -/
def strcmp : CStr → CStr → Int
  | [], [] => 0
  | [], _ :: _ => -1
  | _ :: _, [] => 1
  | a :: as, b :: bs =>
    if a = b then strcmp as bs else if a.toNat < b.toNat then -1 else 1

/-- The call `strncmp(a, b, n)`: as `strcmp`, over at most `n` characters. -/
def strncmp : CStr → CStr → Nat → Int
  | _, _, 0 => 0
  | [], [], _ + 1 => 0
  | [], _ :: _, _ + 1 => -1
  | _ :: _, [], _ + 1 => 1
  | a :: as, b :: bs, n + 1 =>
    if a = b then strncmp as bs n else if a.toNat < b.toNat then -1 else 1

/-- The comparison function `qstrcmp` handed to `qsort`: `strcmp` on the two strings. -/
def qstrcmp (a b : CStr) : Int := strcmp a b

/-- The library call `qsort(base, nmemb, sizeof(char *), compar)` on an array of strings.
C leaves the method and the order of elements that compare equal open; this is sorting
by insertion.  Strings that `qstrcmp` compares equal are the same string, so every method
leaves the same sequence of strings (see `qsort_unique`). -/
def qsort (compar : CStr → CStr → Int) (base : List CStr) : List CStr :=
  base.insertionSort (fun a b => compar a b ≤ 0)

/-- The globals `all_available_commands` and `number_of_available_commands`. -/
structure available_commands where
  all_available_commands : List CStr
  number_of_available_commands : Nat
  deriving DecidableEq, Repr

/-- The loop
`for (int i = 1; i < total; i++) if (strcmp(a[i], a[i - 1]) != 0) a[unique++] = a[i];`
of `load_all_available_commands`, on the array itself: the first argument is the number of
rounds left, then `i`, `unique_number_of_executables` and the array. -/
def compact_loop : Nat → Nat → Nat → List CStr → Except Fault (List CStr × Nat)
  | 0, _, unique, a => .ok (a, unique)
  | n + 1, i, unique, a =>
    match a.get? i, a.get? (i - 1) with
    | some x, some y =>
      if strcmp x y ≠ 0 then compact_loop n (i + 1) (unique + 1) (a.set unique x)
      else compact_loop n (i + 1) unique a
    | _, _ => .error .out_of_bounds

/-- The end of `load_all_available_commands`, from `qsort` on: the array of the
`total_number_of_executables` collected names is sorted, compacted in place, cut to
`unique_number_of_executables` entries by `realloc`, and that number is stored. -/
def sort_and_compact (candidates : List CStr) : Except Fault available_commands :=
  match compact_loop (candidates.length - 1) 1 1 (qsort qstrcmp candidates) with
  | .error f => .error f
  | .ok (a, unique) =>
    .ok { all_available_commands := a.take unique, number_of_available_commands := unique }

/-- The function `load_all_available_commands`: the array starts as a copy of
`shellgibi_builtin_commands`; `found` holds the names that the loop over the directories
of `PATH` appends to it, in the order they are appended (the entries that do not begin
with `.` and that `access(.., X_OK)` accepts); then the array is sorted and compacted. -/
def load_all_available_commands (found : List CStr) : Except Fault available_commands :=
  sort_and_compact (shellgibi_builtin_commands ++ found)

/-- What `shellgibi_autocomplete` returns: `struct autocomplete_match`, with its fields
`match_count` and `matches` (here `matches_`). -/
structure autocomplete_match where
  match_count : Nat
  matches_ : List CStr
  deriving DecidableEq, Repr

/-- The loop of `shellgibi_autocomplete` over `all_available_commands[i]` for
`i < number_of_available_commands`: the first argument is the number of rounds left, then
`i`, `num_matches` and the array `match->matches`, which a match is appended to after it
has been grown by one slot. -/
def autocomplete_loop (g : available_commands) (input_str : CStr) :
    Nat → Nat → Nat → List CStr → Except Fault (Nat × List CStr)
  | 0, _, num_matches, matches_ => .ok (num_matches, matches_)
  | n + 1, i, num_matches, matches_ =>
    match g.all_available_commands.get? i with
    | none => .error .out_of_bounds
    | some command =>
      if strncmp command input_str input_str.length = 0 then
        autocomplete_loop g input_str n (i + 1) (num_matches + 1) (matches_ ++ [command])
      else autocomplete_loop g input_str n (i + 1) num_matches matches_

/-- The function `shellgibi_autocomplete`. -/
def shellgibi_autocomplete (g : available_commands) (input_str : CStr) :
    Except Fault autocomplete_match :=
  match autocomplete_loop g input_str g.number_of_available_commands 0 0 [] with
  | .error f => .error f
  | .ok (num_matches, matches_) => .ok { match_count := num_matches, matches_ := matches_ }
theorem tokens_nil_of_all (s : CStr) (h : ∀ c ∈ s, is_splitter c = true) : tokens s = [] := by
  induction s with
  | nil => rfl
  | cons c cs ih =>
    have hc : is_splitter c = true := h c (List.mem_cons_self _ _)
    have := ih (fun x hx => h x (List.mem_cons_of_mem _ hx))
    simp [tokens, hc, this]

theorem tokens_cons_splitter (c : Char) (cs : CStr) (h : is_splitter c = true) :
    tokens (c :: cs) = tokens cs := by
  simp [tokens, h]

theorem tokens_dropWhile (s : CStr) : tokens (s.dropWhile is_splitter) = tokens s := by
  induction s with
  | nil => rfl
  | cons c cs ih =>
    by_cases hc : is_splitter c = true
    · rw [List.dropWhile_cons_of_pos hc, ih, tokens_cons_splitter c cs hc]
    · rw [List.dropWhile_cons_of_neg hc]

theorem tokens_cons_token (c : Char) (cs : CStr) (hc : is_splitter c = false) :
    tokens (c :: cs) = (c :: cs).takeWhile (fun x => !is_splitter x)
      :: tokens ((c :: cs).dropWhile (fun x => !is_splitter x)) := by
  induction cs generalizing c with
  | nil => simp [tokens, hc]
  | cons d ds ih =>
    by_cases hd : is_splitter d = true
    · simp [tokens, hc, hd]
    · have hd' : is_splitter d = false := by simpa using hd
      have := ih d hd'
      rw [tokens, if_neg (by simp [hc])]
      simp only [hd', Bool.false_eq_true, if_false]
      rw [this]
      simp [hc, hd']


theorem tokens_eq_nil (s : CStr) (h : tokens s = []) : s.dropWhile is_splitter = [] := by
  cases hd : s.dropWhile is_splitter with
  | nil => rfl
  | cons c cs =>
    have hc : is_splitter c = false := by
      have := List.head_dropWhile_not is_splitter s (by rw [hd]; simp)
      simpa [hd] using this
    rw [← tokens_dropWhile, hd, tokens_cons_token c cs hc] at h
    exact absurd h (by simp)

theorem no_trailing_ws_suffix (a b : CStr) (h : no_trailing_ws (a ++ b)) : no_trailing_ws b := by
  intro c hc
  cases b with
  | nil => simp at hc
  | cons x xs =>
    apply h c
    rw [List.getLast?_append_of_ne_nil _ (by simp)]
    exact hc

theorem no_trailing_ws_dropWhile (p : Char → Bool) (s : CStr) (h : no_trailing_ws s) :
    no_trailing_ws (s.dropWhile p) := by
  apply no_trailing_ws_suffix (s.takeWhile p)
  rw [List.takeWhile_append_dropWhile]
  exact h

theorem no_trailing_ws_tail (s : CStr) (h : no_trailing_ws s) : no_trailing_ws s.tail := by
  cases s with
  | nil => exact h
  | cons x xs => exact no_trailing_ws_suffix [x] xs h

theorem no_trailing_ws_trim_right (s : CStr) : no_trailing_ws (trim_right s) := by
  intro c hc
  unfold trim_right at hc
  have hne : s.rdropWhile is_splitter ≠ [] := by
    intro h0; rw [h0] at hc; simp at hc
  have := List.rdropWhile_last_not is_splitter s hne
  rw [List.getLast?_eq_getLast _ hne] at hc
  have hcc : (s.rdropWhile is_splitter).getLast hne = c := by simpa using hc
  rw [hcc] at this
  simpa using this

theorem tokens_ne_nil_of_no_trailing_ws (s : CStr) (hs : s ≠ []) (h : no_trailing_ws s) :
    tokens s ≠ [] := by
  intro ht
  have hall := (List.dropWhile_eq_nil_iff.mp (tokens_eq_nil s ht))
  have hl := h (s.getLast hs) (List.getLast?_eq_getLast _ hs)
  have := hall _ (List.getLast_mem hs)
  rw [hl] at this
  exact absurd this (by simp)

theorem tokens_cons_cons (c d : Char) (r : CStr) (hc : is_splitter c = false) :
    tokens (c :: d :: r) =
      if is_splitter d then [c] :: tokens (d :: r)
      else match tokens (d :: r) with
        | [] => [[c]]
        | t :: ts => (c :: t) :: ts := by
  rw [tokens, if_neg (by simp [hc])]

theorem tokens_append_splitters (a w : CStr) (hw : ∀ c ∈ w, is_splitter c = true) :
    tokens (a ++ w) = tokens a := by
  induction a with
  | nil => simpa using tokens_nil_of_all w hw
  | cons c cs ih =>
    by_cases hc : is_splitter c = true
    · rw [List.cons_append, tokens_cons_splitter _ _ hc, tokens_cons_splitter _ _ hc, ih]
    · have hc' : is_splitter c = false := by simpa using hc
      cases cs with
      | nil =>
        cases w with
        | nil => rfl
        | cons d ds =>
          have hd : is_splitter d = true := hw d (List.mem_cons_self _ _)
          have hds := tokens_nil_of_all (d :: ds) hw
          show tokens (c :: d :: ds) = tokens [c]
          rw [tokens_cons_cons c d ds hc', if_pos hd, hds]
          simp [tokens, hc']
      | cons d ds =>
        show tokens (c :: d :: (ds ++ w)) = tokens (c :: d :: ds)
        have ih' : tokens (d :: (ds ++ w)) = tokens (d :: ds) := ih
        rw [tokens_cons_cons c d _ hc', tokens_cons_cons c d _ hc', ih']

theorem tokens_trim_right (s : CStr) : tokens (trim_right s) = tokens s := by
  have h := List.rdropWhile_eq_self_iff (p := is_splitter) (l := s)
  unfold trim_right
  have key : ∃ w, s = s.rdropWhile is_splitter ++ w ∧ ∀ c ∈ w, is_splitter c = true := by
    refine ⟨(s.reverse.takeWhile is_splitter).reverse, ?_, ?_⟩
    · unfold List.rdropWhile
      rw [← List.reverse_append, List.takeWhile_append_dropWhile, List.reverse_reverse]
    · intro c hc
      rw [List.mem_reverse] at hc
      exact List.mem_takeWhile_imp hc
  obtain ⟨w, hw1, hw2⟩ := key
  conv_rhs => rw [hw1]
  rw [tokens_append_splitters _ _ hw2]

theorem tokens_trim (s : CStr) : tokens (trim_right (trim_left s)) = tokens s := by
  rw [tokens_trim_right, trim_left, tokens_dropWhile]


theorem tokens_stop_tail (s : CStr) :
    tokens (s.dropWhile (fun x => !is_splitter x)).tail
      = tokens (s.dropWhile (fun x => !is_splitter x)) := by
  cases he : s.dropWhile (fun x => !is_splitter x) with
  | nil => rfl
  | cons d r =>
    have := List.head_dropWhile_not (fun x => !is_splitter x) s (by rw [he]; simp)
    have hd : is_splitter d = true := by simpa [he] using this
    rw [List.tail_cons, tokens_cons_splitter d r hd]

theorem strtok_of_tokens_nil (s : CStr) (h : tokens s = []) :
    (strtok s).token = none ∧ (strtok s).save = [] := by
  have := tokens_eq_nil s h
  simp [strtok, this]

theorem strtok_of_tokens_cons (s t : CStr) (ts : List CStr) (h : tokens s = t :: ts) :
    (strtok s).token = some t ∧ tokens (strtok s).save = ts ∧
      (strtok s).save.length < s.length ∧ (strtok s).save = (strtok s).stop.tail ∧
      s = s.takeWhile is_splitter ++ t ++ (strtok s).stop ∧ tokens (strtok s).stop = ts ∧
      (∀ d r, (strtok s).stop = d :: r → is_splitter d = true) ∧
      t ≠ [] ∧ ∀ c ∈ t, is_splitter c = false := by
  cases hd : s.dropWhile is_splitter with
  | nil =>
    have hall := List.dropWhile_eq_nil_iff.mp hd
    rw [tokens_nil_of_all s (by simpa using hall)] at h
    exact absurd h (by simp)
  | cons c cs =>
    have hc : is_splitter c = false := by
      have := List.head_dropWhile_not is_splitter s (by rw [hd]; simp)
      simpa [hd] using this
    rw [← tokens_dropWhile, hd, tokens_cons_token c cs hc] at h
    have ht : (c :: cs).takeWhile (fun x => !is_splitter x) = t := (List.cons.inj h).1
    have hts : tokens ((c :: cs).dropWhile (fun x => !is_splitter x)) = ts := (List.cons.inj h).2
    have hsplit : s = s.takeWhile is_splitter ++ (c :: cs) := by
      rw [← hd, List.takeWhile_append_dropWhile]
    have hsplit2 : (c :: cs) = t ++ (c :: cs).dropWhile (fun x => !is_splitter x) := by
      rw [← ht, List.takeWhile_append_dropWhile]
    have htne : t ≠ [] := by
      rw [← ht, List.takeWhile_cons_of_pos (by simp [hc])]; simp
    have hstop : (strtok s).stop = (c :: cs).dropWhile (fun x => !is_splitter x) := by
      simp [strtok, hd]
    have hsave : (strtok s).save = ((c :: cs).dropWhile (fun x => !is_splitter x)).tail := by
      simp [strtok, hd]
    refine ⟨?_, ?_, ?_, ?_, ?_, ?_, ?_, htne, ?_⟩
    · simp only [strtok, hd]; rw [ht]
    · rw [hsave, tokens_stop_tail, hts]
    · rw [hsave]
      have h1 : (((c :: cs).dropWhile (fun x => !is_splitter x)).tail).length
          ≤ ((c :: cs).dropWhile (fun x => !is_splitter x)).length := by
        rw [List.length_tail]; omega
      have h2 : (c :: cs).length = t.length
          + ((c :: cs).dropWhile (fun x => !is_splitter x)).length := by
        conv_lhs => rw [hsplit2]
        rw [List.length_append]
      have h3 : s.length = (s.takeWhile is_splitter).length + (c :: cs).length := by
        conv_lhs => rw [hsplit]
        rw [List.length_append]
      have h4 : 0 < t.length := List.length_pos.mpr htne
      omega
    · rw [hsave, hstop]
    · rw [hstop, List.append_assoc, ← hsplit2, ← hsplit]
    · rw [hstop, hts]
    · intro d r hdr
      rw [hstop] at hdr
      have := List.head_dropWhile_not (fun x => !is_splitter x) (c :: cs) (by rw [hdr]; simp)
      simpa [hdr] using this
    · intro x hx
      rw [← ht] at hx
      simpa using List.mem_takeWhile_imp hx

theorem trim_token (t : CStr) (h : ∀ c ∈ t, is_splitter c = false) :
    trim_right (trim_left t) = t := by
  have h1 : trim_left t = t := by
    unfold trim_left
    rw [List.dropWhile_eq_self_iff]
    intro hl
    have := h (t.get ⟨0, hl⟩) (List.get_mem _ _ _)
    simp_all
  rw [h1]
  unfold trim_right
  rw [List.rdropWhile_eq_self_iff]
  intro hl
  have := h (t.getLast hl) (List.getLast_mem hl)
  simp [this]


theorem getLast_eq_tokens (n : Nat) (s : CStr) (hn : s.length < n) (h : no_trailing_ws s) :
    s.getLast? = (tokens s).getLast?.bind List.getLast? := by
  induction n generalizing s with
  | zero => omega
  | succ n ih =>
    cases ht : tokens s with
    | nil =>
      have hs : s = [] := by
        by_contra hne
        exact tokens_ne_nil_of_no_trailing_ws s hne h ht
      simp [hs]
    | cons t ts =>
      obtain ⟨_, hsave, hlen, hsv, hsplit, hstop, hdel, htne, _⟩ := strtok_of_tokens_cons s t ts ht
      have hnt : no_trailing_ws (strtok s).stop := by
        apply no_trailing_ws_suffix (s.takeWhile is_splitter ++ t)
        rw [← hsplit]; exact h
      cases hst : (strtok s).stop with
      | nil =>
        rw [hst] at hstop
        have hts : ts = [] := by rw [← hstop]; rfl
        rw [hsplit, hst, List.append_nil, List.getLast?_append_of_ne_nil _ htne, hts]
        simp
      | cons d r =>
        have hd := hdel d r hst
        have hr : r ≠ [] := by
          intro h0
          have := hnt d (by rw [hst, h0]; rfl)
          rw [hd] at this; exact absurd this (by simp)
        have hsr : (strtok s).save = r := by rw [hsv, hst]; rfl
        have hntr : no_trailing_ws r := by
          rw [hst] at hnt; exact no_trailing_ws_suffix [d] r hnt
        have hih := ih r (by rw [← hsr]; omega) hntr
        have htr : tokens r = ts := by rw [← hsr]; exact hsave
        have htsne : ts ≠ [] := by
          rw [← htr]; exact tokens_ne_nil_of_no_trailing_ws r hr hntr
        have e1 : s = (s.takeWhile is_splitter ++ t ++ [d]) ++ r := by
          conv_lhs => rw [hsplit, hst]
          simp
        rw [e1, List.getLast?_append_of_ne_nil _ hr, hih, htr]
        cases ts with
        | nil => exact absurd rfl htsne
        | cons u us => simp [List.getLast?_cons_cons]

theorem ends_amp_trim (buf : CStr) :
    ((trim_right (trim_left buf)).length > 0 ∧ (trim_right (trim_left buf)).getLast? = some '&')
      ↔ ends_amp (tokens buf) = true := by
  have h := getLast_eq_tokens _ (trim_right (trim_left buf)) (Nat.lt_succ_self _)
    (no_trailing_ws_trim_right _)
  rw [tokens_trim] at h
  unfold ends_amp
  rw [← h]
  constructor
  · rintro ⟨_, h2⟩; simp [h2]
  · intro h2
    have h3 : (trim_right (trim_left buf)).getLast? = some '&' := by simpa using h2
    refine ⟨?_, h3⟩
    cases hb : trim_right (trim_left buf) with
    | nil => rw [hb] at h3; simp at h3
    | cons x xs => simp


theorem trim_length_le (buf : CStr) : (trim_right (trim_left buf)).length ≤ buf.length := by
  have h1 : (trim_right (trim_left buf)).length ≤ (trim_left buf).length :=
    (List.rdropWhile_prefix is_splitter (trim_left buf)).length_le
  have h2 : (trim_left buf).length ≤ buf.length :=
    (List.dropWhile_suffix is_splitter).length_le
  omega

theorem tokens_loop_cons (st : parse_state) (t : CStr) (ts : List CStr) :
    tokens_loop st (t :: ts) =
      if TEMP_BUF_SIZE < t.length + 1 then .error .buffer_overflow
      else if t = ['|'] then
        match ts with
        | [] => .error .out_of_bounds
        | n :: ts1 =>
          match tokens_loop (stage_start command_zero (ends_amp (n :: ts1)) n) ts1 with
          | .error f => .error f
          | .ok st1 =>
            .ok { st with command := { st.command with next := some (stage_finish st1) } }
      else tokens_loop (parse_arg st t) ts := by
  rw [tokens_loop.eq_def]

theorem parse_loop_eq (recur : CStr → Except Fault (command_t × CStr)) (n : Nat)
    (hrec : ∀ b : CStr, b.length < n →
      recur b = (parse_tokens command_zero (tokens b)).map (fun c => (c, ([] : CStr))))
    (m : Nat) (hm : m ≤ n) (st : parse_state) (save : CStr) (hlen : save.length < m)
    (hnt : no_trailing_ws save) :
    parse_loop recur m st save
      = (tokens_loop st (tokens save)).map (fun s => (s, ([] : CStr))) := by
  induction m generalizing st save with
  | zero => omega
  | succ m ih =>
    rw [parse_loop]
    cases ht : tokens save with
    | nil =>
      obtain ⟨h1, h2⟩ := strtok_of_tokens_nil save ht
      simp only [h1, h2]
      rfl
    | cons t ts =>
      obtain ⟨h1, hsave, hl, hsv, hsplit, hstop, hdel, htne, hall⟩ :=
        strtok_of_tokens_cons save t ts ht
      have hntstop : no_trailing_ws (strtok save).stop := by
        apply no_trailing_ws_suffix (save.takeWhile is_splitter ++ t)
        rw [← hsplit]; exact hnt
      have hntsave : no_trailing_ws (strtok save).save := by
        rw [hsv]; exact no_trailing_ws_tail _ hntstop
      have htl : ¬ t.length = 0 := by
        intro h0; exact htne (List.length_eq_zero.mp h0)
      simp only [h1]
      rw [tokens_loop_cons]
      by_cases hov : TEMP_BUF_SIZE < t.length + 1
      · simp only [hov, if_true]; rfl
      · simp only [hov, if_false, htl, trim_token t hall]
        by_cases hp : t = ['|']
        · simp only [hp, if_true]
          cases hst : (strtok save).stop with
          | nil =>
            rw [hst] at hstop
            have hts : ts = [] := by rw [← hstop]; rfl
            simp only [hts]; rfl
          | cons d r =>
            have hd := hdel d r hst
            have hr : r ≠ [] := by
              intro h0
              have := hntstop d (by rw [hst, h0]; rfl)
              rw [hd] at this; exact absurd this (by simp)
            have hsr : (strtok save).save = r := by rw [hsv, hst]; rfl
            have hntr : no_trailing_ws r := by rw [← hsr]; exact hntsave
            have htr : tokens r = ts := by rw [← hsr]; exact hsave
            have hsub : (List.drop 1 (['|'] ++ ' ' :: r)).dropWhile (fun x => x == ' ' || x == TAB)
                = r.dropWhile is_splitter := by
              show (' ' :: r).dropWhile is_splitter = r.dropWhile is_splitter
              rw [List.dropWhile_cons_of_pos (by decide)]
            simp only [hsub]
            have hsublen : (r.dropWhile is_splitter).length < n := by
              have : (r.dropWhile is_splitter).length ≤ r.length :=
                (List.dropWhile_suffix is_splitter).length_le
              rw [hsr] at hl
              omega
            rw [hrec _ hsublen, tokens_dropWhile, htr]
            cases ts with
            | nil => exact absurd htr (tokens_ne_nil_of_no_trailing_ws r hr hntr)
            | cons u us =>
              simp only [parse_tokens]
              cases hin : tokens_loop (stage_start command_zero (ends_amp (u :: us)) u) us with
              | error f => rfl
              | ok st1 =>
                simp only [Except.map]
                have h0 : ([] : CStr).length < m := by
                  have : 0 < r.length := List.length_pos.mpr hr
                  rw [hsr] at hl
                  simp only [List.length_nil]; omega
                rw [ih (by omega) _ [] h0 (by intro c hc; simp at hc)]
                rfl
        · simp only [hp, if_false]
          rw [ih (by omega) _ _ (by omega) hntsave, hsave]


theorem parse_command_fuel_eq (n : Nat) (buf : CStr) (command : command_t)
    (hn : buf.length < n) :
    parse_command_fuel n buf command
      = (parse_tokens command (tokens buf)).map (fun c => (c, ([] : CStr))) := by
  induction n generalizing buf command with
  | zero => omega
  | succ n ih =>
    rw [parse_command_fuel]
    have hlen := trim_length_le buf
    have hnt := no_trailing_ws_trim_right (trim_left buf)
    have htok := tokens_trim buf
    have hamp := ends_amp_trim buf
    generalize trim_right (trim_left buf) = b at hlen hnt htok hamp
    cases ht : tokens buf with
    | nil =>
      rw [ht] at htok
      obtain ⟨h1, _⟩ := strtok_of_tokens_nil b htok
      simp only [h1]
      rfl
    | cons name ts =>
      rw [ht] at htok hamp
      obtain ⟨h1, hsave, hl, hsv, hsplit, hstop, hdel, htne, hall⟩ :=
        strtok_of_tokens_cons b name ts htok
      have hntsave : no_trailing_ws (strtok b).save := by
        rw [hsv]
        apply no_trailing_ws_tail
        apply no_trailing_ws_suffix (b.takeWhile is_splitter ++ name)
        rw [← hsplit]; exact hnt
      simp only [h1]
      rw [parse_loop_eq _ n (fun b hb => ih b command_zero hb) n (le_refl _) _ _ (by omega) hntsave,
        hsave]
      have hstart : (⟨{ (if b.length > 0 ∧ b.getLast? = some '&'
              then { command with background := true } else command) with
            name := name, args := [] }, 0⟩ : parse_state)
          = stage_start command (ends_amp (name :: ts)) name := by
        unfold stage_start
        by_cases ha : ends_amp (name :: ts) = true
        · rw [if_pos (hamp.mpr ha), ha]; rfl
        · have ha' : ends_amp (name :: ts) = false := by simpa using ha
          rw [if_neg (fun h => ha (hamp.mp h)), ha']; rfl
      rw [hstart]
      simp only [parse_tokens]
      cases tokens_loop (stage_start command (ends_amp (name :: ts)) name) ts with
      | error f => rfl
      | ok st => rfl

theorem parse_command_eq (buf : CStr) :
    parse_command buf = parse_tokens command_zero (tokens buf) := by
  unfold parse_command
  rw [parse_command_fuel_eq _ buf command_zero (Nat.lt_succ_self _)]
  cases parse_tokens command_zero (tokens buf) with
  | error f => rfl
  | ok c => rfl

theorem chain_eq (c : command_t) :
    chain c = c :: (match c.next with
      | none => []
      | some nx => chain nx) := by
  obtain ⟨name, bg, n, args, r, nx⟩ := c
  cases nx with
  | none => rfl
  | some nx => rfl

theorem redirect_of_eq_none (t : CStr) :
    redirect_of t = none ↔ is_redirect_token t = false := by
  unfold redirect_of is_redirect_token is_input_redirect is_trunc_redirect is_append_redirect
  rcases t with _ | ⟨a, _ | ⟨b, r⟩⟩
  · simp
  · by_cases h1 : a = '>' <;> by_cases h2 : a = '<' <;> simp [h1, h2]
  · by_cases h1 : a = '>' <;> by_cases h2 : a = '<' <;> by_cases h3 : b = '>' <;>
      simp [h1, h2, h3]

theorem redirect_of_input (t : CStr) (h : is_input_redirect t = true) :
    redirect_of t = some (0, t) := by
  unfold is_input_redirect at h
  unfold redirect_of
  rcases t with _ | ⟨a, r⟩
  · simp at h
  · have ha : a = '<' := by simpa using h
    subst ha
    simp

theorem redirect_of_append (t : CStr) (h : is_append_redirect t = true) :
    redirect_of t = some (2, t.tail) := by
  unfold is_append_redirect at h
  unfold redirect_of
  rcases t with _ | ⟨a, _ | ⟨b, r⟩⟩
  · simp at h
  · simp at h
  · have hab : a = '>' ∧ b = '>' := by simpa using h
    obtain ⟨ha, hb⟩ := hab
    subst ha; subst hb
    simp

theorem redirect_of_trunc (t : CStr) (h : is_trunc_redirect t = true) :
    redirect_of t = some (1, t) := by
  unfold is_trunc_redirect is_append_redirect at h
  unfold redirect_of
  rcases t with _ | ⟨a, _ | ⟨b, r⟩⟩
  · simp at h
  · have ha : a = '>' := by simpa using h
    subst ha
    simp
  · have hab : a = '>' ∧ (¬ a = '>' ∨ ¬ b = '>') := by simpa using h
    obtain ⟨ha, hb⟩ := hab
    subst ha
    have hb' : ¬ b = '>' := by
      rcases hb with hb | hb
      · exact absurd rfl hb
      · exact hb
    simp [hb']

theorem quote_wrapped_iff (t : CStr) : quote_wrapped t = true ↔ has_matching_quotes t := by
  unfold quote_wrapped has_matching_quotes
  simp

theorem dropLast_tail (t : CStr) : t.dropLast.tail = t.tail.dropLast := by
  rcases t with _ | ⟨a, _ | ⟨b, r⟩⟩ <;> simp [List.dropLast]

theorem parse_arg_amp (st : parse_state) : parse_arg st ['&'] = st := by
  simp [parse_arg]

theorem parse_arg_argument (st : parse_state) (t : CStr) (h : is_argument_token t = true) :
    parse_arg st t = ⟨{ st.command with args := st.command.args ++ [without_quotes t] },
      st.arg_index + 1⟩ := by
  unfold is_argument_token at h
  have h1 : t ≠ ['&'] := by
    intro h0; rw [h0] at h; simp at h
  have h2 : is_redirect_token t = false := by
    cases hr : is_redirect_token t with
    | false => rfl
    | true => rw [hr] at h; simp at h
  have h3 := (redirect_of_eq_none t).mpr h2
  unfold parse_arg without_quotes
  rw [if_neg h1, h3]
  by_cases hq : has_matching_quotes t
  · simp [(quote_wrapped_iff t).mpr hq, hq, dropLast_tail]
  · have : quote_wrapped t = false := by
      cases hw : quote_wrapped t with
      | false => rfl
      | true => exact absurd ((quote_wrapped_iff t).mp hw) hq
    simp [this, hq]

theorem parse_arg_input (st : parse_state) (t : CStr) (h : is_input_redirect t = true) :
    parse_arg st t = { st with command :=
      { st.command with redirects := { st.command.redirects with r0 := some (t.drop 1) } } } := by
  have h1 : t ≠ ['&'] := by
    intro h0; rw [h0] at h; simp [is_input_redirect] at h
  unfold parse_arg
  rw [if_neg h1, redirect_of_input t h]
  simp [redirects_t.set]

theorem parse_arg_append (st : parse_state) (t : CStr) (h : is_append_redirect t = true) :
    parse_arg st t = { st with command :=
      { st.command with redirects := { st.command.redirects with r2 := some (t.drop 2) } } } := by
  have h1 : t ≠ ['&'] := by
    intro h0; rw [h0] at h; simp [is_append_redirect] at h
  unfold parse_arg
  rw [if_neg h1, redirect_of_append t h]
  have : t.tail.tail = t.drop 2 := by
    rcases t with _ | ⟨a, _ | ⟨b, r⟩⟩ <;> rfl
  simp [redirects_t.set, this]

theorem parse_arg_trunc (st : parse_state) (t : CStr) (h : is_trunc_redirect t = true) :
    parse_arg st t = { st with command :=
      { st.command with redirects := { st.command.redirects with r1 := some (t.drop 1) } } } := by
  have h1 : t ≠ ['&'] := by
    intro h0; rw [h0] at h; simp [is_trunc_redirect] at h
  unfold parse_arg
  rw [if_neg h1, redirect_of_trunc t h]
  simp [redirects_t.set]

/-- Every token is of exactly one kind for the loop body. -/
theorem token_kind (t : CStr) :
    (t = ['&'] ∧ is_argument_token t = false ∧ is_input_redirect t = false ∧
        is_append_redirect t = false ∧ is_trunc_redirect t = false) ∨
    (is_argument_token t = true ∧ is_input_redirect t = false ∧
        is_append_redirect t = false ∧ is_trunc_redirect t = false) ∨
    (is_argument_token t = false ∧ is_input_redirect t = true ∧
        is_append_redirect t = false ∧ is_trunc_redirect t = false) ∨
    (is_argument_token t = false ∧ is_input_redirect t = false ∧
        is_append_redirect t = true ∧ is_trunc_redirect t = false) ∨
    (is_argument_token t = false ∧ is_input_redirect t = false ∧
        is_append_redirect t = false ∧ is_trunc_redirect t = true) := by
  unfold is_argument_token is_redirect_token is_trunc_redirect is_input_redirect is_append_redirect
  rcases t with _ | ⟨a, _ | ⟨b, r⟩⟩
  · simp
  · by_cases h1 : a = '>' <;> by_cases h2 : a = '<' <;> by_cases h3 : a = '&' <;>
      simp_all
  · by_cases h1 : a = '>' <;> by_cases h2 : a = '<' <;> by_cases h3 : b = '>' <;>
      simp_all

theorem last_redirect_cons (kind : CStr → Bool) (skip : Nat) (t : CStr) (ts : List CStr)
    (old : Option CStr) :
    last_redirect kind skip (t :: ts) old =
      if kind t = true then last_redirect kind skip ts (some (t.drop skip))
      else last_redirect kind skip ts old := by
  unfold last_redirect
  by_cases hk : kind t = true
  · rw [if_pos hk, List.filter_cons_of_pos hk]
    cases hf : ts.filter kind with
    | nil => rfl
    | cons u us =>
      rw [List.getLast?_cons_cons]
      cases hg : (u :: us).getLast? with
      | none => simp at hg
      | some v => rfl
  · rw [if_neg hk, List.filter_cons_of_neg hk]

/-- What the loop body leaves after a run of tokens without a pipe token. -/
theorem foldl_parse_arg (ts : List CStr) (st : parse_state) :
    (ts.foldl parse_arg st).command.name = st.command.name ∧
    (ts.foldl parse_arg st).command.background = st.command.background ∧
    (ts.foldl parse_arg st).command.next = st.command.next ∧
    (ts.foldl parse_arg st).command.args
      = st.command.args ++ (ts.filter is_argument_token).map without_quotes ∧
    (ts.foldl parse_arg st).arg_index = st.arg_index + (ts.filter is_argument_token).length ∧
    (ts.foldl parse_arg st).command.redirects.r0
      = last_redirect is_input_redirect 1 ts st.command.redirects.r0 ∧
    (ts.foldl parse_arg st).command.redirects.r1
      = last_redirect is_trunc_redirect 1 ts st.command.redirects.r1 ∧
    (ts.foldl parse_arg st).command.redirects.r2
      = last_redirect is_append_redirect 2 ts st.command.redirects.r2 := by
  induction ts generalizing st with
  | nil => simp [last_redirect]
  | cons t ts ih =>
    rw [List.foldl_cons]
    obtain ⟨i1, i2, i3, i4, i5, i6, i7, i8⟩ := ih (parse_arg st t)
    rw [i1, i2, i3, i4, i5, i6, i7, i8]
    simp only [last_redirect_cons]
    rcases token_kind t with ⟨h0, ha, hi, hp, hr⟩ | ⟨ha, hi, hp, hr⟩ | ⟨ha, hi, hp, hr⟩ |
      ⟨ha, hi, hp, hr⟩ | ⟨ha, hi, hp, hr⟩
    · subst h0
      rw [parse_arg_amp]
      simp [ha, hi, hp, hr]
    · rw [parse_arg_argument st t ha]
      simp [ha, hi, hp, hr]
      omega
    · rw [parse_arg_input st t hi]
      simp [ha, hi, hp, hr]
    · rw [parse_arg_append st t hp]
      simp [ha, hi, hp, hr]
    · rw [parse_arg_trunc st t hr]
      simp [ha, hi, hp, hr]

/-- A successful run of the loop leaves, in every field but `next`, what the loop body
makes of the tokens before the first pipe token. -/
theorem tokens_loop_ok (ts : List CStr) (st st1 : parse_state)
    (h : tokens_loop st ts = .ok st1) :
    st1.command.name = (List.foldl parse_arg st (ts.takeWhile (fun t => decide (t ≠ ['|'])))).command.name ∧
    st1.command.background
      = (List.foldl parse_arg st (ts.takeWhile (fun t => decide (t ≠ ['|'])))).command.background ∧
    st1.command.args = (List.foldl parse_arg st (ts.takeWhile (fun t => decide (t ≠ ['|'])))).command.args ∧
    st1.arg_index = (List.foldl parse_arg st (ts.takeWhile (fun t => decide (t ≠ ['|'])))).arg_index ∧
    st1.command.redirects
      = (List.foldl parse_arg st (ts.takeWhile (fun t => decide (t ≠ ['|'])))).command.redirects := by
  induction ts generalizing st with
  | nil =>
    have : st = st1 := by simpa [tokens_loop] using h
    subst this
    simp
  | cons t ts ih =>
    rw [tokens_loop_cons] at h
    by_cases hov : TEMP_BUF_SIZE < t.length + 1
    · rw [if_pos hov] at h; exact absurd h (by simp)
    · rw [if_neg hov] at h
      by_cases hp : t = ['|']
      · rw [if_pos hp] at h
        have htw : (t :: ts).takeWhile (fun t => decide (t ≠ ['|'])) = [] := by
          rw [List.takeWhile_cons_of_neg (by simp [hp])]
        rw [htw]
        cases ts with
        | nil => exact absurd h (by simp)
        | cons u us =>
          simp only at h
          cases hin : tokens_loop (stage_start command_zero (ends_amp (u :: us)) u) us with
          | error f => rw [hin] at h; exact absurd h (by simp)
          | ok s2 =>
            rw [hin] at h
            have : st1 = { st with command := { st.command with next := some (stage_finish s2) } } := by
              simpa using h.symm
            subst this
            simp
      · rw [if_neg hp] at h
        rw [List.takeWhile_cons_of_pos (by simp [hp]), List.foldl_cons]
        exact ih _ h

/-- Without an over-long token and without a pipe token the loop runs to the end. -/
theorem tokens_loop_no_pipe (ts : List CStr) (st : parse_state)
    (h : ∀ t ∈ ts, t.length < TEMP_BUF_SIZE ∧ t ≠ ['|']) :
    tokens_loop st ts = .ok (ts.foldl parse_arg st) := by
  induction ts generalizing st with
  | nil => rfl
  | cons t ts ih =>
    obtain ⟨h1, h2⟩ := h t (List.mem_cons_self _ _)
    rw [tokens_loop_cons, if_neg (by omega), if_neg h2, List.foldl_cons]
    exact ih _ (fun u hu => h u (List.mem_cons_of_mem _ hu))

theorem foldl_parse_arg_plain (ts : List CStr) (st : parse_state)
    (h : ∀ t ∈ ts, plain_argument t) :
    ts.foldl parse_arg st
      = ⟨{ st.command with args := st.command.args ++ ts }, st.arg_index + ts.length⟩ := by
  induction ts generalizing st with
  | nil =>
    obtain ⟨⟨_, _, _, _, _, _⟩, _⟩ := st
    simp
  | cons t ts ih =>
    obtain ⟨_, _, h3, h4, h5⟩ := h t (List.mem_cons_self _ _)
    have ha : is_argument_token t = true := by simp [is_argument_token, h3, h4]
    rw [List.foldl_cons, parse_arg_argument st t ha, ih _ (fun u hu => h u (List.mem_cons_of_mem _ hu))]
    simp [without_quotes, h5]
    omega

theorem tokens_loop_append (as rest : List CStr) (st : parse_state)
    (h : ∀ t ∈ as, t.length < TEMP_BUF_SIZE ∧ t ≠ ['|']) :
    tokens_loop st (as ++ rest) = tokens_loop (as.foldl parse_arg st) rest := by
  induction as generalizing st with
  | nil => rfl
  | cons t ts ih =>
    obtain ⟨h1, h2⟩ := h t (List.mem_cons_self _ _)
    rw [List.cons_append, tokens_loop_cons, if_neg (by omega), if_neg h2, List.foldl_cons]
    exact ih _ (fun u hu => h u (List.mem_cons_of_mem _ hu))

/-- The loop over the tokens of a pipeline of simple commands builds one stage for each. -/
theorem tokens_loop_pipeline (rest : List (CStr × List CStr)) :
    ∀ (name : CStr) (args : List CStr) (st : parse_state),
      (∀ t ∈ args, plain_argument t) →
      (∀ s ∈ rest, ∀ t ∈ s.2, plain_argument t) →
      st.command.name = name → st.command.args = [] → st.arg_index = 0 →
      st.command.next = none →
      ∃ st1, tokens_loop st (pipeline_tokens ((name, args) :: rest)).tail = .ok st1 ∧
        (chain (stage_finish st1)).map (fun s => (s.name, s.args)) = (name, args) :: rest ∧
        (∀ s ∈ chain (stage_finish st1), s.arg_count = s.args.length) ∧
        (∃ l, (chain (stage_finish st1)).getLast? = some l ∧ l.next = none) := by
  induction rest with
  | nil =>
    intro name args st hargs _ hname ha hi hnext
    refine ⟨args.foldl parse_arg st, ?_, ?_, ?_, ?_⟩
    · simp only [pipeline_tokens, List.tail_cons, List.append_nil]
      exact tokens_loop_no_pipe args st (fun t ht => ⟨(hargs t ht).1, (hargs t ht).2.1⟩)
    all_goals
      rw [foldl_parse_arg_plain args st hargs, chain_eq]
      simp [stage_finish, hnext, hname, ha, hi]
  | cons seg rest ih =>
    intro name args st hargs hrest hname ha hi hnext
    obtain ⟨n2, as2⟩ := seg
    have hseg : ∀ t ∈ as2, plain_argument t := hrest (n2, as2) (List.mem_cons_self _ _)
    have hrest2 : ∀ s ∈ rest, ∀ t ∈ s.2, plain_argument t :=
      fun s hs => hrest s (List.mem_cons_of_mem _ hs)
    obtain ⟨s2, hs2, hc2, hn2, hl2⟩ :=
      ih n2 as2 (stage_start command_zero (ends_amp (pipeline_tokens ((n2, as2) :: rest))) n2)
        hseg hrest2 (by simp [stage_start]) (by simp [stage_start]) (by simp [stage_start])
        (by cases ends_amp (pipeline_tokens ((n2, as2) :: rest)) <;> rfl)
    have hpt : (pipeline_tokens ((name, args) :: (n2, as2) :: rest)).tail
        = args ++ (['|'] :: pipeline_tokens ((n2, as2) :: rest)) := by
      simp [pipeline_tokens]
    have hpt2 : pipeline_tokens ((n2, as2) :: rest)
        = n2 :: (pipeline_tokens ((n2, as2) :: rest)).tail := by
      simp [pipeline_tokens]
    refine ⟨{ (args.foldl parse_arg st) with command :=
        { (args.foldl parse_arg st).command with next := some (stage_finish s2) } }, ?_, ?_, ?_, ?_⟩
    · rw [hpt, tokens_loop_append args _ st (fun t ht => ⟨(hargs t ht).1, (hargs t ht).2.1⟩),
        tokens_loop_cons, if_neg (by simp [TEMP_BUF_SIZE]), if_pos rfl]
      rw [hpt2]
      simp only
      rw [← hpt2, hs2]
    · rw [foldl_parse_arg_plain args st hargs, chain_eq]
      simp only [stage_finish] at hc2 ⊢
      simp [hname, ha, hc2]
    · rw [foldl_parse_arg_plain args st hargs, chain_eq]
      intro s hs
      simp only [List.mem_cons] at hs
      rcases hs with hs | hs
      · rw [hs]; simp [stage_finish, ha, hi]
      · simp only [stage_finish] at hs
        exact hn2 s hs
    · obtain ⟨l, hl, hln⟩ := hl2
      refine ⟨l, ?_, hln⟩
      rw [chain_eq]
      simp only [stage_finish]
      have hl' := hl
      simp only [stage_finish] at hl'
      generalize chain _ = ch at hl' ⊢
      cases ch with
      | nil => simp at hl'
      | cons x xs => rw [List.getLast?_cons_cons]; exact hl'

theorem last_redirect_none (kind : CStr → Bool) (skip : Nat) (ts : List CStr) :
    last_redirect kind skip ts none = ((ts.filter kind).getLast?).map (List.drop skip) := by
  unfold last_redirect
  cases (ts.filter kind).getLast? <;> rfl

theorem ends_amp_cons (t : CStr) (ts : List CStr) (h : ts ≠ []) :
    ends_amp (t :: ts) = ends_amp ts := by
  cases ts with
  | nil => exact absurd rfl h
  | cons u us => unfold ends_amp; rw [List.getLast?_cons_cons]

theorem parse_arg_keeps (st : parse_state) (t : CStr) :
    (parse_arg st t).command.background = st.command.background ∧
    (parse_arg st t).command.next = st.command.next := by
  obtain ⟨_, h2, h3, _⟩ := foldl_parse_arg [t] st
  exact ⟨h2, h3⟩

/-- The loop leaves the background flag of its stage alone, and every stage it links
behind a pipe token has the flag that the end of the line decides. -/
theorem tokens_loop_background (n : Nat) :
    ∀ (ts : List CStr), ts.length < n → ∀ (st st1 : parse_state),
      tokens_loop st ts = .ok st1 →
      st1.command.background = st.command.background ∧
      (st1.command.next = st.command.next ∨
        (ts ≠ [] ∧ ∃ nx, st1.command.next = some nx ∧
          ∀ s ∈ chain nx, s.background = ends_amp ts)) := by
  induction n with
  | zero => intro ts h; omega
  | succ n ih =>
    intro ts hlen st st1 h
    cases ts with
    | nil =>
      have : st = st1 := by simpa [tokens_loop] using h
      subst this
      exact ⟨rfl, Or.inl rfl⟩
    | cons t ts =>
      rw [tokens_loop_cons] at h
      by_cases hov : TEMP_BUF_SIZE < t.length + 1
      · rw [if_pos hov] at h; exact absurd h (by simp)
      · rw [if_neg hov] at h
        by_cases hp : t = ['|']
        · rw [if_pos hp] at h
          cases ts with
          | nil => exact absurd h (by simp)
          | cons u us =>
            simp only at h
            cases hin : tokens_loop (stage_start command_zero (ends_amp (u :: us)) u) us with
            | error f => rw [hin] at h; exact absurd h (by simp)
            | ok s2 =>
              rw [hin] at h
              have e : st1 = { st with command :=
                  { st.command with next := some (stage_finish s2) } } := by
                simpa using h.symm
              subst e
              refine ⟨rfl, Or.inr ⟨by simp, stage_finish s2, rfl, ?_⟩⟩
              have hus : us.length < n := by simp at hlen; omega
              obtain ⟨b1, b2⟩ := ih us hus _ s2 hin
              have hb : (stage_finish s2).background = ends_amp (t :: u :: us) := by
                rw [ends_amp_cons t (u :: us) (by simp)]
                show s2.command.background = _
                rw [b1]
                cases ends_amp (u :: us) <;> rfl
              intro s hs
              rw [chain_eq] at hs
              simp only [List.mem_cons] at hs
              rcases hs with hs | hs
              · rw [hs]; exact hb
              · have hn0 : (stage_start command_zero (ends_amp (u :: us)) u).command.next = none := by
                  cases ends_amp (u :: us) <;> rfl
                rcases b2 with b2 | ⟨hne, nx, hnx, hall⟩
                · have : (stage_finish s2).next = none := by
                    show s2.command.next = none
                    rw [b2, hn0]
                  rw [this] at hs
                  simp at hs
                · have : (stage_finish s2).next = some nx := hnx
                  rw [this] at hs
                  simp only at hs
                  rw [hall s hs, ends_amp_cons t (u :: us) (by simp), ends_amp_cons u us hne]
        · rw [if_neg hp] at h
          have hts : ts.length < n := by simp at hlen; omega
          obtain ⟨b1, b2⟩ := ih ts hts _ st1 h
          obtain ⟨k1, k2⟩ := parse_arg_keeps st t
          refine ⟨by rw [b1, k1], ?_⟩
          rcases b2 with b2 | ⟨hne, nx, hnx, hall⟩
          · left; rw [b2, k2]
          · right
            refine ⟨by simp, nx, hnx, ?_⟩
            intro s hs
            rw [hall s hs, ends_amp_cons t ts hne]

theorem tokens_loop_fault (n : Nat) :
    ∀ (ts : List CStr), ts.length < n → ∀ (st : parse_state) (f : Fault),
      tokens_loop st ts = .error f → f = .buffer_overflow ∨ f = .out_of_bounds := by
  induction n with
  | zero => intro ts h; omega
  | succ n ih =>
    intro ts hlen st f h
    cases ts with
    | nil => simp [tokens_loop] at h
    | cons t ts =>
      rw [tokens_loop_cons] at h
      by_cases hov : TEMP_BUF_SIZE < t.length + 1
      · rw [if_pos hov] at h
        left
        have : Fault.buffer_overflow = f := by simpa using h
        exact this.symm
      · rw [if_neg hov] at h
        by_cases hp : t = ['|']
        · rw [if_pos hp] at h
          cases ts with
          | nil =>
            right
            have : Fault.out_of_bounds = f := by simpa using h
            exact this.symm
          | cons u us =>
            simp only at h
            cases hin : tokens_loop (stage_start command_zero (ends_amp (u :: us)) u) us with
            | error g =>
              rw [hin] at h
              have hg : g = f := by simpa using h
              rw [← hg]
              exact ih us (by simp at hlen; omega) _ g hin
            | ok s2 => rw [hin] at h; simp at h
        · rw [if_neg hp] at h
          exact ih ts (by simp at hlen; omega) _ f h

/-- The fuel that `parse_command` gives is always enough: a run that yields no stage
ended in one of the three faults of the C code. -/
theorem parse_command_fault (buf : CStr) (f : Fault) (h : parse_command buf = .error f) :
    f = .null_deref ∨ f = .buffer_overflow ∨ f = .out_of_bounds := by
  rw [parse_command_eq] at h
  cases ht : tokens buf with
  | nil =>
    rw [ht] at h
    left
    have : Fault.null_deref = f := by simpa [parse_tokens] using h
    exact this.symm
  | cons name ts =>
    rw [ht] at h
    simp only [parse_tokens] at h
    cases hl : tokens_loop (stage_start command_zero (ends_amp (name :: ts)) name) ts with
    | error g =>
      rw [hl] at h
      have hg : g = f := by simpa [Except.map] using h
      rw [← hg]
      exact Or.inr (tokens_loop_fault _ ts (Nat.lt_succ_self _) _ g hl)
    | ok s => rw [hl] at h; simp [Except.map] at h

/-- The tokens of a sample line with leading, doubled, tab and trailing blanks. -/
theorem tokens_sample :
    tokens [' ', 'l', 's', ' ', ' ', '-', 'l', TAB, 'x', ' '] = [['l', 's'], ['-', 'l'], ['x']] := by
  decide

theorem tokens_valid (n : Nat) :
    ∀ (s : CStr), s.length < n → ∀ t ∈ tokens s, t ≠ [] ∧ ∀ c ∈ t, is_splitter c = false := by
  induction n with
  | zero => intro s h; omega
  | succ n ih =>
    intro s hlen t ht
    cases hts : tokens s with
    | nil => rw [hts] at ht; simp at ht
    | cons u us =>
      obtain ⟨_, hsave, hl, _, _, _, _, hune, huall⟩ := strtok_of_tokens_cons s u us hts
      rw [hts] at ht
      simp only [List.mem_cons] at ht
      rcases ht with ht | ht
      · rw [ht]; exact ⟨hune, huall⟩
      · apply ih (strtok s).save (by omega) t
        rw [hsave]; exact ht

theorem tokens_line_of (toks : List CStr)
    (h : ∀ t ∈ toks, t ≠ [] ∧ ∀ c ∈ t, is_splitter c = false) :
    tokens (line_of toks) = toks := by
  induction toks with
  | nil => rfl
  | cons t ts ih =>
    obtain ⟨htne, htall⟩ := h t (List.mem_cons_self _ _)
    have hts := ih (fun u hu => h u (List.mem_cons_of_mem _ hu))
    have hp : ∀ a ∈ t, (fun x => !is_splitter x) a = true := by
      intro a ha; simp [htall a ha]
    cases t with
    | nil => exact absurd rfl htne
    | cons c cs =>
      have hc : is_splitter c = false := htall c (List.mem_cons_self _ _)
      cases ts with
      | nil =>
        show tokens (c :: cs) = [c :: cs]
        rw [tokens_cons_token c cs hc]
        have e1 := @List.takeWhile_append_of_pos Char (fun x => !is_splitter x) (c :: cs) [] hp
        have e2 := @List.dropWhile_append_of_pos Char (fun x => !is_splitter x) (c :: cs) [] hp
        simp only [List.append_nil, List.takeWhile_nil, List.dropWhile_nil] at e1 e2
        rw [e1, e2]
        rfl
      | cons u us =>
        show tokens (c :: (cs ++ ' ' :: line_of (u :: us))) = (c :: cs) :: u :: us
        rw [tokens_cons_token c _ hc]
        have e1 := @List.takeWhile_append_of_pos Char (fun x => !is_splitter x) (c :: cs)
          (' ' :: line_of (u :: us)) hp
        have e2 := @List.dropWhile_append_of_pos Char (fun x => !is_splitter x) (c :: cs)
          (' ' :: line_of (u :: us)) hp
        simp only [List.cons_append] at e1 e2
        rw [e1, e2, List.takeWhile_cons_of_neg (by decide), List.dropWhile_cons_of_neg (by decide),
          tokens_cons_splitter _ _ (by decide), hts]
        simp

/-- Every stage that the loop links behind a pipe token is the parse of a tail of the
token list. -/
theorem tokens_loop_stages (n : Nat) :
    ∀ (ts : List CStr), ts.length < n → ∀ (st st1 : parse_state),
      tokens_loop st ts = .ok st1 →
      st1.command.next = st.command.next ∨
        ∃ nx, st1.command.next = some nx ∧
          ∀ s ∈ chain nx, ∃ toks, toks <:+ ts ∧ parse_tokens command_zero toks = .ok s := by
  induction n with
  | zero => intro ts h; omega
  | succ n ih =>
    intro ts hlen st st1 h
    cases ts with
    | nil =>
      have : st = st1 := by simpa [tokens_loop] using h
      subst this
      exact Or.inl rfl
    | cons t ts =>
      rw [tokens_loop_cons] at h
      by_cases hov : TEMP_BUF_SIZE < t.length + 1
      · rw [if_pos hov] at h; exact absurd h (by simp)
      · rw [if_neg hov] at h
        by_cases hp : t = ['|']
        · rw [if_pos hp] at h
          cases ts with
          | nil => exact absurd h (by simp)
          | cons u us =>
            simp only at h
            cases hin : tokens_loop (stage_start command_zero (ends_amp (u :: us)) u) us with
            | error f => rw [hin] at h; exact absurd h (by simp)
            | ok s2 =>
              rw [hin] at h
              have e : st1 = { st with command :=
                  { st.command with next := some (stage_finish s2) } } := by
                simpa using h.symm
              subst e
              refine Or.inr ⟨stage_finish s2, rfl, ?_⟩
              have hus : us.length < n := by simp at hlen; omega
              have hparse : parse_tokens command_zero (u :: us) = .ok (stage_finish s2) := by
                simp only [parse_tokens]
                rw [hin]
                rfl
              intro s hs
              rw [chain_eq] at hs
              simp only [List.mem_cons] at hs
              rcases hs with hs | hs
              · exact ⟨u :: us, List.suffix_cons _ _, by rw [hs]; exact hparse⟩
              · have hn0 : (stage_start command_zero (ends_amp (u :: us)) u).command.next = none := by
                  cases ends_amp (u :: us) <;> rfl
                rcases ih us hus _ s2 hin with b2 | ⟨nx, hnx, hall⟩
                · have : (stage_finish s2).next = none := by
                    show s2.command.next = none
                    rw [b2, hn0]
                  rw [this] at hs
                  simp at hs
                · have : (stage_finish s2).next = some nx := hnx
                  rw [this] at hs
                  simp only at hs
                  obtain ⟨toks, hsuf, hpt⟩ := hall s hs
                  exact ⟨toks, hsuf.trans ((List.suffix_cons u us).trans (List.suffix_cons t _)), hpt⟩
        · rw [if_neg hp] at h
          have hts : ts.length < n := by simp at hlen; omega
          rcases ih ts hts _ st1 h with b2 | ⟨nx, hnx, hall⟩
          · left; rw [b2, (parse_arg_keeps st t).2]
          · right
            refine ⟨nx, hnx, ?_⟩
            intro s hs
            obtain ⟨toks, hsuf, hpt⟩ := hall s hs
            exact ⟨toks, hsuf.trans (List.suffix_cons t ts), hpt⟩

theorem write_at_end (done data : List Byte) :
    write_at done data done.length = done ++ data := by
  unfold write_at
  simp

theorem write_if_unset (fs : file_system) (fp : Option out_stream) (data : List Byte) :
    write_if false fs fp data = .ok (fs, fp) := rfl

theorem write_if_trunc (fs : file_system) (p : file_id) (done data : List Byte)
    (h : fs.bytes p = some done) :
    write_if true fs (some ⟨p, false, done.length⟩) data
      = .ok (fs_set fs p (done ++ data), some ⟨p, false, (done ++ data).length⟩) := by
  simp [write_if, fs_write, h, write_at_end]

theorem write_if_append (fs : file_system) (q : file_id) (x data : List Byte)
    (h : fs.bytes q = some x) :
    write_if true fs (some ⟨q, true, 0⟩) data
      = .ok (fs_set fs q (x ++ data), some ⟨q, true, 0⟩) := by
  simp [write_if, fs_write, h]

theorem fs_set_same (fs : file_system) (p : file_id) (data : List Byte) :
    (fs_set fs p data).bytes p = some data := by
  simp [fs_set]

theorem fs_set_other (fs : file_system) (p q : file_id) (data : List Byte) (h : q ≠ p) :
    (fs_set fs p data).bytes q = fs.bytes q := by
  simp [fs_set, h]

/-- The copy loop with the truncate stream open on the file `p` and the append stream on
a different file `q`: the truncate file grows by the unread rest of the temporary file,
and so does the append file. -/
theorem copy_loop_files (BUFSIZ SIZEOF_SIZE_T : Nat) (hB : 0 < BUFSIZ) (command : command_t)
    (old : List Byte) (p q : file_id)
    (hpq : (command.redirects.get 1).isSome → (command.redirects.get 2).isSome → p ≠ q) :
    ∀ (fuel : Nat) (s : copy_state) (done : List Byte), s.temp_rest.length < fuel →
      ((command.redirects.get 1).isSome →
        s.trunc_fp = some ⟨p, false, done.length⟩ ∧ s.fs.bytes p = some done) →
      ((command.redirects.get 2).isSome →
        s.append_fp = some ⟨q, true, 0⟩ ∧ s.fs.bytes q = some (old ++ done)) →
      ∃ s1, copy_loop BUFSIZ SIZEOF_SIZE_T command fuel s = .ok s1 ∧
        ((command.redirects.get 1).isSome →
          s1.trunc_fp ≠ none ∧ s1.fs.bytes p = some (done ++ s.temp_rest)) ∧
        ((command.redirects.get 2).isSome →
          s1.append_fp ≠ none ∧ s1.fs.bytes q = some (old ++ done ++ s.temp_rest)) := by
  intro fuel
  induction fuel with
  | zero => intro s done h; omega
  | succ fuel ih =>
    intro s done hlen h1 h2
    rw [copy_loop]
    by_cases hc : (s.temp_rest.take BUFSIZ).length > 0
    · simp only [hc, if_true]
      have htake : (s.temp_rest.take BUFSIZ ++ s.buffer.drop (s.temp_rest.take BUFSIZ).length).take
          (s.temp_rest.take BUFSIZ).length = s.temp_rest.take BUFSIZ := by
        simp
      rw [htake]
      have hdrop : s.temp_rest.drop (s.temp_rest.take BUFSIZ).length = s.temp_rest.drop BUFSIZ := by
        rw [List.length_take]
        by_cases hle : BUFSIZ ≤ s.temp_rest.length
        · rw [Nat.min_eq_left hle]
        · have hle2 : s.temp_rest.length ≤ BUFSIZ := by omega
          rw [Nat.min_eq_right hle2, List.drop_of_length_le hle2, List.drop_of_length_le (le_refl _)]
      have hsplit : s.temp_rest.take BUFSIZ ++ s.temp_rest.drop BUFSIZ = s.temp_rest :=
        List.take_append_drop _ _
      have hshort : (s.temp_rest.drop BUFSIZ).length < fuel := by
        have : (s.temp_rest.take BUFSIZ).length + (s.temp_rest.drop BUFSIZ).length
            = s.temp_rest.length := by
          rw [← List.length_append, hsplit]
        omega
      generalize hck : s.temp_rest.take BUFSIZ = chunk at *
      rw [hdrop]
      cases hr1 : command.redirects.get 1 with
      | none =>
        simp only [Option.isSome_none, write_if_unset]
        cases hr2 : command.redirects.get 2 with
        | none =>
          simp only [Option.isSome_none, write_if_unset]
          obtain ⟨s1, e1, e2, e3⟩ := ih
            { temp_rest := s.temp_rest.drop BUFSIZ, buffer := chunk ++ s.buffer.drop chunk.length,
              fs := s.fs, trunc_fp := s.trunc_fp, append_fp := s.append_fp,
              pipe := if command.next.isSome then
                s.pipe ++ (chunk ++ s.buffer.drop chunk.length).take SIZEOF_SIZE_T else s.pipe }
            (done ++ chunk) hshort
            (by intro hp; rw [hr1] at hp; exact absurd hp (by simp))
            (by intro hq; rw [hr2] at hq; exact absurd hq (by simp))
          refine ⟨s1, e1, ?_, ?_⟩
          · intro hp; exact absurd hp (by simp)
          · intro hq; exact absurd hq (by simp)
        | some q0 =>
          obtain ⟨a1, a2⟩ := h2 (by rw [hr2]; rfl)
          simp only [Option.isSome_some, a1, write_if_append s.fs q (old ++ done) chunk a2]
          obtain ⟨s1, e1, e2, e3⟩ := ih
            { temp_rest := s.temp_rest.drop BUFSIZ, buffer := chunk ++ s.buffer.drop chunk.length,
              fs := fs_set s.fs q (old ++ done ++ chunk), trunc_fp := s.trunc_fp,
              append_fp := some ⟨q, true, 0⟩,
              pipe := if command.next.isSome then
                s.pipe ++ (chunk ++ s.buffer.drop chunk.length).take SIZEOF_SIZE_T else s.pipe }
            (done ++ chunk) hshort
            (by intro hp; rw [hr1] at hp; exact absurd hp (by simp))
            (by
              intro _
              exact ⟨rfl, by dsimp only; rw [fs_set_same, List.append_assoc]⟩)
          refine ⟨s1, e1, ?_, ?_⟩
          · intro hp; exact absurd hp (by simp)
          · intro hq1
            have := e3 (by rw [hr2]; rfl)
            simp only at this
            rw [List.append_assoc old, List.append_assoc done, hsplit, ← List.append_assoc] at this
            exact this
      | some p0 =>
        obtain ⟨t1, t2⟩ := h1 (by rw [hr1]; rfl)
        simp only [Option.isSome_some, t1, write_if_trunc s.fs p done chunk t2]
        cases hr2 : command.redirects.get 2 with
        | none =>
          simp only [Option.isSome_none, write_if_unset]
          obtain ⟨s1, e1, e2, e3⟩ := ih
            { temp_rest := s.temp_rest.drop BUFSIZ, buffer := chunk ++ s.buffer.drop chunk.length,
              fs := fs_set s.fs p (done ++ chunk),
              trunc_fp := some ⟨p, false, (done ++ chunk).length⟩, append_fp := s.append_fp,
              pipe := if command.next.isSome then
                s.pipe ++ (chunk ++ s.buffer.drop chunk.length).take SIZEOF_SIZE_T else s.pipe }
            (done ++ chunk) hshort
            (by
              intro _
              exact ⟨rfl, fs_set_same _ _ _⟩)
            (by intro hq; rw [hr2] at hq; exact absurd hq (by simp))
          refine ⟨s1, e1, ?_, ?_⟩
          · intro hp1
            have := e2 (by rw [hr1]; rfl)
            simp only at this
            rw [List.append_assoc, hsplit] at this
            exact this
          · intro hq; exact absurd hq (by simp)
        | some q0 =>
          obtain ⟨a1, a2⟩ := h2 (by rw [hr2]; rfl)
          have hne : p ≠ q := hpq (by rw [hr1]; rfl) (by rw [hr2]; rfl)
          have a3 : (fs_set s.fs p (done ++ chunk)).bytes q = some (old ++ done) := by
            rw [fs_set_other _ _ _ _ (Ne.symm hne)]; exact a2
          simp only [Option.isSome_some, a1,
            write_if_append (fs_set s.fs p (done ++ chunk)) q (old ++ done) chunk a3]
          obtain ⟨s1, e1, e2, e3⟩ := ih
            { temp_rest := s.temp_rest.drop BUFSIZ, buffer := chunk ++ s.buffer.drop chunk.length,
              fs := fs_set (fs_set s.fs p (done ++ chunk)) q (old ++ done ++ chunk),
              trunc_fp := some ⟨p, false, (done ++ chunk).length⟩,
              append_fp := some ⟨q, true, 0⟩,
              pipe := if command.next.isSome then
                s.pipe ++ (chunk ++ s.buffer.drop chunk.length).take SIZEOF_SIZE_T else s.pipe }
            (done ++ chunk) hshort
            (by
              intro _
              exact ⟨rfl, by dsimp only; rw [fs_set_other _ _ _ _ hne, fs_set_same]⟩)
            (by
              intro _
              exact ⟨rfl, by dsimp only; rw [fs_set_same, List.append_assoc]⟩)
          refine ⟨s1, e1, ?_, ?_⟩
          · intro hp1
            have := e2 (by rw [hr1]; rfl)
            simp only at this
            rw [List.append_assoc, hsplit] at this
            exact this
          · intro hq1
            have := e3 (by rw [hr2]; rfl)
            simp only at this
            rw [List.append_assoc old, List.append_assoc done, hsplit, ← List.append_assoc] at this
            exact this
    · simp only [hc, if_false]
      have hnil : s.temp_rest = [] := by
        cases hr : s.temp_rest with
        | nil => rfl
        | cons x xs =>
          rw [hr] at hc
          obtain ⟨k, hk⟩ : ∃ k, BUFSIZ = k + 1 := ⟨BUFSIZ - 1, by omega⟩
          rw [hk] at hc
          simp at hc
      refine ⟨s, rfl, ?_, ?_⟩
      · intro hp
        obtain ⟨t1, t2⟩ := h1 hp
        rw [hnil, List.append_nil]
        exact ⟨by rw [t1]; simp, t2⟩
      · intro hq
        obtain ⟨a1, a2⟩ := h2 hq
        rw [hnil, List.append_nil]
        exact ⟨by rw [a1]; simp, a2⟩


theorem write_if_lookup (set : Bool) (fs fs1 : file_system) (fp fp1 : Option out_stream)
    (data : List Byte) (h : write_if set fs fp data = .ok (fs1, fp1)) :
    fs1.lookup = fs.lookup := by
  unfold write_if at h
  cases set with
  | false =>
    simp only [Bool.false_eq_true, if_false, Except.ok.injEq, Prod.mk.injEq] at h
    rw [← h.1]
  | true =>
    cases fp with
    | none => simp at h
    | some st =>
      simp only [if_true, Except.ok.injEq, Prod.mk.injEq] at h
      rw [← h.1]
      unfold fs_write
      split <;> rfl

/-- The copy loop opens no file: each path names the same file after it as before. -/
theorem copy_loop_lookup (BUFSIZ SIZEOF_SIZE_T : Nat) (command : command_t) :
    ∀ (fuel : Nat) (s s1 : copy_state),
      copy_loop BUFSIZ SIZEOF_SIZE_T command fuel s = .ok s1 → s1.fs.lookup = s.fs.lookup := by
  intro fuel
  induction fuel with
  | zero => intro s s1 h; simp [copy_loop] at h
  | succ fuel ih =>
    intro s s1 h
    rw [copy_loop] at h
    simp only at h
    split at h
    · split at h
      · simp at h
      · rename_i fs1 fp1 hw1
        split at h
        · simp at h
        · rename_i fs2 fp2 hw2
          have := ih _ _ h
          simp only at this
          rw [this, write_if_lookup _ _ _ _ _ _ hw2, write_if_lookup _ _ _ _ _ _ hw1]
    · simp only [Except.ok.injEq] at h
      rw [h]

/-- The copy phase where `fopen` succeeds on every set redirect, giving the file `p` for
the truncate redirect and a different file `q` for the append redirect: it completes, the
file `p` holds the captured bytes and the file `q` what it held before followed by them. -/
theorem fanout_copy_files (BUFSIZ SIZEOF_SIZE_T : Nat) (hB : 0 < BUFSIZ) (command : command_t)
    (B buffer0 : List Byte) (fs : file_system) (pipe0 : List Byte) (p q : file_id)
    (h1 : ∀ path, command.redirects.get 1 = some path → path ≠ [] ∧ fs.lookup path = some p)
    (h2 : ∀ path, command.redirects.get 2 = some path → path ≠ [] ∧ fs.lookup path = some q)
    (hpq : (command.redirects.get 1).isSome → (command.redirects.get 2).isSome → p ≠ q) :
    ∃ s, fanout_copy BUFSIZ SIZEOF_SIZE_T command B buffer0 fs pipe0 = .ok s ∧
      s.fs.lookup = fs.lookup ∧
      ((command.redirects.get 1).isSome → s.fs.bytes p = some B) ∧
      ((command.redirects.get 2).isSome →
        s.fs.bytes q = some ((fs.bytes q).getD [] ++ B)) := by
  unfold fanout_copy
  cases hr1 : command.redirects.get 1 with
  | none =>
    cases hr2 : command.redirects.get 2 with
    | none =>
      obtain ⟨s1, e1, _, _⟩ := copy_loop_files BUFSIZ SIZEOF_SIZE_T hB command [] p q hpq
        (B.length + 1)
        { temp_rest := B, buffer := buffer0, fs := fs, trunc_fp := none, append_fp := none,
          pipe := pipe0 } [] (Nat.lt_succ_self _)
        (by intro hp; rw [hr1] at hp; exact absurd hp (by simp))
        (by intro hq; rw [hr2] at hq; exact absurd hq (by simp))
      have hl := copy_loop_lookup _ _ _ _ _ _ e1
      simp only [e1]
      refine ⟨s1, by simp, hl, ?_, ?_⟩
      · intro hp; exact absurd hp (by simp)
      · intro hq; exact absurd hq (by simp)
    | some qpath =>
      obtain ⟨hq0, hq1⟩ := h2 qpath hr2
      obtain ⟨s1, e1, _, e3⟩ := copy_loop_files BUFSIZ SIZEOF_SIZE_T hB command
        ((fs.bytes q).getD []) p q hpq (B.length + 1)
        { temp_rest := B, buffer := buffer0, fs := fs_set fs q ((fs.bytes q).getD []),
          trunc_fp := none, append_fp := some ⟨q, true, 0⟩, pipe := pipe0 } []
        (Nat.lt_succ_self _)
        (by intro hp; rw [hr1] at hp; exact absurd hp (by simp))
        (by
          intro _
          exact ⟨rfl, by dsimp only; rw [fs_set_same, List.append_nil]⟩)
      have hl := copy_loop_lookup _ _ _ _ _ _ e1
      simp only [fopen_a, if_neg hq0, hq1, e1]
      obtain ⟨e4, e5⟩ := e3 (by rw [hr2]; rfl)
      refine ⟨s1, by simp [e4], hl, ?_, ?_⟩
      · intro hp; exact absurd hp (by simp)
      · intro _
        simpa using e5
  | some ppath =>
    obtain ⟨hp0, hp1⟩ := h1 ppath hr1
    cases hr2 : command.redirects.get 2 with
    | none =>
      obtain ⟨s1, e1, e2, _⟩ := copy_loop_files BUFSIZ SIZEOF_SIZE_T hB command [] p q hpq
        (B.length + 1)
        { temp_rest := B, buffer := buffer0, fs := fs_set fs p [],
          trunc_fp := some ⟨p, false, 0⟩, append_fp := none, pipe := pipe0 } []
        (Nat.lt_succ_self _)
        (by
          intro _
          exact ⟨rfl, fs_set_same _ _ _⟩)
        (by intro hq; rw [hr2] at hq; exact absurd hq (by simp))
      have hl := copy_loop_lookup _ _ _ _ _ _ e1
      simp only [fopen_w, if_neg hp0, hp1, e1]
      obtain ⟨e4, e5⟩ := e2 (by rw [hr1]; rfl)
      refine ⟨s1, by simp [e4], hl, ?_, ?_⟩
      · intro _
        simpa using e5
      · intro hq; exact absurd hq (by simp)
    | some qpath =>
      obtain ⟨hq0, hq1⟩ := h2 qpath hr2
      have hpq1 : p ≠ q := hpq (by rw [hr1]; rfl) (by rw [hr2]; rfl)
      have hold : ((fs_set fs p []).bytes q).getD [] = (fs.bytes q).getD [] := by
        rw [fs_set_other _ _ _ _ (Ne.symm hpq1)]
      have hlk : (fs_set fs p []).lookup qpath = some q := hq1
      obtain ⟨s1, e1, e2, e3⟩ := copy_loop_files BUFSIZ SIZEOF_SIZE_T hB command
        ((fs.bytes q).getD []) p q hpq (B.length + 1)
        { temp_rest := B, buffer := buffer0,
          fs := fs_set (fs_set fs p []) q ((fs.bytes q).getD []),
          trunc_fp := some ⟨p, false, 0⟩, append_fp := some ⟨q, true, 0⟩, pipe := pipe0 } []
        (Nat.lt_succ_self _)
        (by
          intro _
          exact ⟨rfl, by dsimp only; rw [fs_set_other _ _ _ _ hpq1, fs_set_same]⟩)
        (by
          intro _
          exact ⟨rfl, by dsimp only; rw [fs_set_same, List.append_nil]⟩)
      have hl := copy_loop_lookup _ _ _ _ _ _ e1
      simp only [fopen_w, fopen_a, if_neg hp0, if_neg hq0, hp1, hlk, hold, e1]
      obtain ⟨e4, e5⟩ := e2 (by rw [hr1]; rfl)
      obtain ⟨e6, e7⟩ := e3 (by rw [hr2]; rfl)
      refine ⟨s1, by simp [e4, e6], hl, ?_, ?_⟩
      · intro _
        simpa using e5
      · intro _
        simpa using e7

/-- The copy loop ends only when the temporary file has been read to its end. -/
theorem copy_loop_done (BUFSIZ SIZEOF_SIZE_T : Nat) (hB : 0 < BUFSIZ) (command : command_t) :
    ∀ (fuel : Nat) (s s1 : copy_state),
      copy_loop BUFSIZ SIZEOF_SIZE_T command fuel s = .ok s1 → s1.temp_rest = [] := by
  intro fuel
  induction fuel with
  | zero => intro s s1 h; simp [copy_loop] at h
  | succ fuel ih =>
    intro s s1 h
    rw [copy_loop] at h
    simp only at h
    split at h
    · split at h
      · simp at h
      · split at h
        · simp at h
        · exact ih _ _ h
    · rename_i hc
      simp only [Except.ok.injEq] at h
      rw [← h]
      cases hr : s.temp_rest with
      | nil => rfl
      | cons x xs =>
        rw [hr] at hc
        obtain ⟨k, hk⟩ : ∃ k, BUFSIZ = k + 1 := ⟨BUFSIZ - 1, by omega⟩
        rw [hk] at hc
        simp at hc

theorem fanout_copy_done (BUFSIZ SIZEOF_SIZE_T : Nat) (hB : 0 < BUFSIZ) (command : command_t)
    (captured buffer0 : List Byte) (fs : file_system) (pipe0 : List Byte) (s : copy_state)
    (h : fanout_copy BUFSIZ SIZEOF_SIZE_T command captured buffer0 fs pipe0 = .ok s) :
    s.temp_rest = [] := by
  unfold fanout_copy at h
  simp only at h
  split at h
  · simp at h
  · rename_i s0 hl
    have := copy_loop_done BUFSIZ SIZEOF_SIZE_T hB command _ _ _ hl
    split at h
    · simp at h
    · split at h
      · simp at h
      · simp only [Except.ok.injEq] at h
        rw [← h]; exact this
/-- A successful parse: the line has a first token, the loop ran over the rest of the
tokens from the start state, and the stage is what the loop left. -/
theorem parse_command_ok (buf : CStr) (c : command_t) (h : parse_command buf = .ok c) :
    ∃ name ts st1, tokens buf = name :: ts ∧
      tokens_loop (stage_start command_zero (ends_amp (name :: ts)) name) ts = .ok st1 ∧
      c = stage_finish st1 := by
  rw [parse_command_eq] at h
  cases ht : tokens buf with
  | nil => rw [ht] at h; exact absurd h (by simp [parse_tokens])
  | cons name ts =>
    rw [ht] at h
    simp only [parse_tokens] at h
    cases hl : tokens_loop (stage_start command_zero (ends_amp (name :: ts)) name) ts with
    | error f => rw [hl] at h; exact absurd h (by simp [Except.map])
    | ok st1 =>
      rw [hl] at h
      refine ⟨name, ts, st1, rfl, hl, ?_⟩
      have : stage_finish st1 = c := by simpa [Except.map] using h
      exact this.symm

/-- The first stage of a successful parse, field by field, in terms of the tokens of the line. -/
theorem first_stage (buf : CStr) (c : command_t) (h : parse_command buf = .ok c) :
    (tokens buf).head? = some c.name ∧
    c.background = ends_amp (tokens buf) ∧
    c.args = ((stage_tokens (tokens buf)).filter is_argument_token).map without_quotes ∧
    c.arg_count = ((stage_tokens (tokens buf)).filter is_argument_token).length ∧
    c.redirects.r0 = last_redirect is_input_redirect 1 (stage_tokens (tokens buf)) none ∧
    c.redirects.r1 = last_redirect is_trunc_redirect 1 (stage_tokens (tokens buf)) none ∧
    c.redirects.r2 = last_redirect is_append_redirect 2 (stage_tokens (tokens buf)) none := by
  obtain ⟨name, ts, st1, ht, hl, hc⟩ := parse_command_ok buf c h
  obtain ⟨k1, k2, k3, k4, k5⟩ := tokens_loop_ok ts _ st1 hl
  obtain ⟨f1, f2, _, f4, f5, f6, f7, f8⟩ :=
    foldl_parse_arg (ts.takeWhile (fun t => decide (t ≠ ['|'])))
      (stage_start command_zero (ends_amp (name :: ts)) name)
  have hst : stage_tokens (tokens buf) = ts.takeWhile (fun t => decide (t ≠ ['|'])) := by
    rw [ht]; rfl
  rw [hst, ht, hc]
  simp only [stage_finish]
  rw [k1, k2, k3, k4, k5, f1, f2, f4, f5, f6, f7, f8]
  refine ⟨rfl, ?_, ?_, ?_, ?_, ?_, ?_⟩
  · cases ends_amp (name :: ts) <;> rfl
  · simp [stage_start]
  · simp [stage_start]
  · cases ends_amp (name :: ts) <;> rfl
  · cases ends_amp (name :: ts) <;> rfl
  · cases ends_amp (name :: ts) <;> rfl

/-- The first stage of a line without over-long tokens and without a pipe token: the parse succeeds. -/
theorem parse_command_no_pipe (buf name : CStr) (ts : List CStr) (ht : tokens buf = name :: ts)
    (h : ∀ t ∈ ts, t.length < TEMP_BUF_SIZE ∧ t ≠ ['|']) :
    parse_command buf
      = .ok (stage_finish (ts.foldl parse_arg (stage_start command_zero (ends_amp (name :: ts)) name))) := by
  rw [parse_command_eq, ht]
  simp only [parse_tokens]
  rw [tokens_loop_no_pipe ts _ h]
  rfl

/-- Every stage of a chain that `parse_command` returns is itself the stage that
`parse_command` returns for a line: for a line whose tokens are the tokens of the
original line from that stage's name on. -/
theorem chain_stage_is_parse (buf : CStr) (c : command_t) (h : parse_command buf = .ok c) :
    ∀ s ∈ chain c, ∃ b, parse_command b = .ok s ∧ tokens b <:+ tokens buf := by
  obtain ⟨name, ts, st1, ht, hl, hc⟩ := parse_command_ok buf c h
  have hn0 : (stage_start command_zero (ends_amp (name :: ts)) name).command.next = none := by
    cases ends_amp (name :: ts) <;> rfl
  intro s hs
  rw [chain_eq] at hs
  simp only [List.mem_cons] at hs
  rcases hs with hs | hs
  · exact ⟨buf, by rw [hs]; exact h, List.suffix_refl _⟩
  · rw [hc] at hs
    rcases tokens_loop_stages _ ts (Nat.lt_succ_self _) _ st1 hl with b2 | ⟨nx, hnx, hall⟩
    · have : (stage_finish st1).next = none := by
        show st1.command.next = none
        rw [b2, hn0]
      rw [this] at hs
      simp at hs
    · have : (stage_finish st1).next = some nx := hnx
      rw [this] at hs
      simp only at hs
      obtain ⟨toks, hsuf, hpt⟩ := hall s hs
      have hsuf2 : toks <:+ tokens buf := by
        rw [ht]; exact hsuf.trans (List.suffix_cons name ts)
      have hval : ∀ t ∈ toks, t ≠ [] ∧ ∀ ch ∈ t, is_splitter ch = false := by
        intro t htm
        exact tokens_valid _ buf (Nat.lt_succ_self _) t (hsuf2.subset htm)
      refine ⟨line_of toks, ?_, ?_⟩
      · rw [parse_command_eq, tokens_line_of toks hval]; exact hpt
      · rw [tokens_line_of toks hval]; exact hsuf2

/-- C1, the claim as stated fails: on the line `echo "hi" &`, which has neither pipe nor
redirect, the arguments are `hi` alone, not the two remaining tokens `"hi"` and `&`. -/
theorem C1_counterexample :
    ∃ c, parse_command "echo \"hi\" &".toList = .ok c ∧
      c.name = "echo".toList ∧ c.args = ["hi".toList] ∧ c.arg_count = 1 ∧
      (tokens "echo \"hi\" &".toList).tail = ["\"hi\"".toList, "&".toList] ∧
      c.args ≠ (tokens "echo \"hi\" &".toList).tail :=
  ⟨_, rfl, by decide, by decide, by decide, by decide, by decide⟩

/-- C1 (amended): on every line whose tokens after the first are neither `|`, `&` nor a
redirection token (and fit `temp_buf`), `parse_command` returns a stage whose name is the
first token and whose arguments are the remaining tokens in order, each without its quotes
when it has matching quotes, so exactly the remaining tokens when none has; `arg_count` is
their number. -/
theorem C1_args_are_remaining_tokens (buf name : CStr) (ts : List CStr)
    (ht : tokens (trim_right (trim_left buf)) = name :: ts)
    (hplain : ∀ t ∈ ts, t.length < TEMP_BUF_SIZE ∧ t ≠ ['|'] ∧ t ≠ ['&'] ∧
      is_redirect_token t = false) :
    ∃ c, parse_command buf = .ok c ∧ c.name = name ∧ c.args = ts.map without_quotes ∧
      c.arg_count = ts.length ∧ ((∀ t ∈ ts, ¬ has_matching_quotes t) → c.args = ts) := by
  rw [tokens_trim] at ht
  have hok := parse_command_no_pipe buf name ts ht (fun t h => ⟨(hplain t h).1, (hplain t h).2.1⟩)
  obtain ⟨h1, _, h3, h4, _⟩ := first_stage buf _ hok
  have hst : stage_tokens (tokens buf) = ts := by
    rw [ht]
    show ts.takeWhile _ = ts
    rw [List.takeWhile_eq_self_iff]
    intro t h
    simpa using (hplain t h).2.1
  have hfil : ts.filter is_argument_token = ts := by
    rw [List.filter_eq_self]
    intro t h
    obtain ⟨_, _, h5, h6⟩ := hplain t h
    simp [is_argument_token, h5, h6]
  rw [hst, hfil] at h3 h4
  rw [ht] at h1
  refine ⟨_, hok, ?_, h3, h4, ?_⟩
  · simpa using h1.symm
  · intro hq
    rw [h3]
    conv_rhs => rw [← List.map_id ts]
    apply List.map_congr_left
    intro t h
    simp [without_quotes, hq t h]

/-- C1 (amended), at the line `  ls -l  /tmp `. -/
theorem C1_args_are_remaining_tokens_witness :
    ∃ c, parse_command "  ls -l  /tmp ".toList = .ok c ∧ c.name = "ls".toList ∧
      c.args = ["-l".toList, "/tmp".toList].map without_quotes ∧ c.arg_count = 2 ∧
      ((∀ t ∈ ["-l".toList, "/tmp".toList], ¬ has_matching_quotes t) →
        c.args = ["-l".toList, "/tmp".toList]) :=
  C1_args_are_remaining_tokens "  ls -l  /tmp ".toList "ls".toList ["-l".toList, "/tmp".toList]
    (by decide) (by decide)

/-- C2, the claim as stated fails: on the line `cmd "a b"` the parser does not produce the
single argument `a b`. -/
theorem C2_counterexample :
    ∃ c, parse_command "cmd \"a b\"".toList = .ok c ∧ c.args ≠ ["a b".toList] :=
  ⟨_, rfl, by decide⟩

/-- C2 (amended): on the line `cmd "a b"` the parser produces two arguments, `"a` and `b"`:
the line is split at the embedded space before quotes are looked at, and neither piece
has matching quotes, so both keep their quote.  A quoted token without an embedded
space, as in `cmd "ab"`, gives the single argument `ab`. -/
theorem C2_quoted_token_with_space :
    (∃ c, parse_command "cmd \"a b\"".toList = .ok c ∧ c.name = "cmd".toList ∧
      c.args = ["\"a".toList, "b\"".toList] ∧ c.arg_count = 2) ∧
    (∃ c, parse_command "cmd \"ab\"".toList = .ok c ∧ c.name = "cmd".toList ∧
      c.args = ["ab".toList] ∧ c.arg_count = 1) :=
  ⟨⟨_, rfl, by decide, by decide, by decide⟩, ⟨_, rfl, by decide, by decide, by decide⟩⟩

/-- C3: in every stage that `parse_command` returns for a line, the arguments are the
stage's tokens that are neither the background token nor a redirection token (the pipe
token ends the stage), each stored without its first and last characters if and only if it
is longer than two characters and starts and ends with the same quote character, and
unchanged otherwise; the two-character tokens `""` and `''` are stored unchanged. -/
theorem C3_quote_stripping (buf : CStr) (c : command_t) (h : parse_command buf = .ok c) :
    c.args = ((stage_tokens (tokens buf)).filter
        (fun t => decide (t ≠ ['&']) && !is_redirect_token t)).map
      (fun t =>
        if 2 < t.length ∧ ((t.head? = some DQUOTE ∧ t.getLast? = some DQUOTE) ∨
            (t.head? = some SQUOTE ∧ t.getLast? = some SQUOTE))
        then t.tail.dropLast else t) ∧
    (∀ t : CStr, t ≠ [] → t.tail.dropLast ≠ t) ∧
    (∃ c1, parse_command ("x ".toList ++ [DQUOTE, DQUOTE, ' ', SQUOTE, SQUOTE]) = .ok c1 ∧
      c1.args = [[DQUOTE, DQUOTE], [SQUOTE, SQUOTE]]) := by
  refine ⟨?_, ?_, ⟨_, rfl, by decide⟩⟩
  · have h3 := (first_stage buf c h).2.2.1
    rw [h3]
    have e1 : is_argument_token = (fun t => decide (t ≠ ['&']) && !is_redirect_token t) := by
      funext t
      by_cases ht : t = ['&'] <;> simp [is_argument_token, ht]
    rw [e1]
    apply List.map_congr_left
    intro t _
    rfl
  · intro t ht heq
    have h1 := congrArg List.length heq
    have h2 : 0 < t.length := List.length_pos.mpr ht
    simp at h1
    omega

/-- C3, at the line `echo "hi" 'yo' "" x" &`. -/
theorem C3_quote_stripping_witness :
    ∃ c, parse_command "echo \"hi\" 'yo' \"\" x\" &".toList = .ok c ∧
      c.args = ["hi".toList, "yo".toList, "\"\"".toList, "x\"".toList] :=
  ⟨_, rfl, by
    have h := (C3_quote_stripping "echo \"hi\" 'yo' \"\" x\" &".toList _ rfl).1
    rw [h]
    decide⟩

/-- C4: a line whose tokens are `n >= 1` simple commands (a name with plain arguments)
joined by `|` tokens parses into a chain of exactly `n` stages, linked through `next` in
the order written; stage `i` has the name and the arguments of the `i`-th command only,
`arg_count` counts them, and the last stage has no next stage. -/
theorem C4_pipeline_chain (buf : CStr) (segs : List (CStr × List CStr)) (hne : segs ≠ [])
    (ht : tokens (trim_right (trim_left buf)) = pipeline_tokens segs)
    (hplain : ∀ s ∈ segs, ∀ t ∈ s.2, plain_argument t) :
    ∃ c, parse_command buf = .ok c ∧
      (chain c).map (fun s => (s.name, s.args)) = segs ∧
      (chain c).length = segs.length ∧
      (∀ s ∈ chain c, s.arg_count = s.args.length) ∧
      (∃ l, (chain c).getLast? = some l ∧ l.next = none) := by
  rw [tokens_trim] at ht
  cases segs with
  | nil => exact absurd rfl hne
  | cons seg rest =>
    obtain ⟨name, args⟩ := seg
    have hpt : pipeline_tokens ((name, args) :: rest)
        = name :: (pipeline_tokens ((name, args) :: rest)).tail := by
      simp [pipeline_tokens]
    obtain ⟨st1, h1, h2, h3, h4⟩ :=
      tokens_loop_pipeline rest name args
        (stage_start command_zero (ends_amp (pipeline_tokens ((name, args) :: rest))) name)
        (hplain (name, args) (List.mem_cons_self _ _))
        (fun s hs => hplain s (List.mem_cons_of_mem _ hs))
        (by simp [stage_start]) (by simp [stage_start]) (by simp [stage_start])
        (by cases ends_amp (pipeline_tokens ((name, args) :: rest)) <;> rfl)
    refine ⟨stage_finish st1, ?_, h2, ?_, h3, h4⟩
    · rw [parse_command_eq, ht, hpt]
      simp only [parse_tokens]
      rw [← hpt, h1]
      rfl
    · have := congrArg List.length h2
      simpa using this

/-- C4, at the line `cmd1 | cmd2 | cmd3`: the three-stage chain cmd1, cmd2, cmd3. -/
theorem C4_pipeline_chain_witness :
    ∃ c, parse_command "cmd1 | cmd2 | cmd3".toList = .ok c ∧
      (chain c).map (fun s => (s.name, s.args))
        = [("cmd1".toList, []), ("cmd2".toList, []), ("cmd3".toList, [])] ∧
      (chain c).length = [("cmd1".toList, ([] : List CStr)), ("cmd2".toList, []),
        ("cmd3".toList, [])].length ∧
      (∀ s ∈ chain c, s.arg_count = s.args.length) ∧
      (∃ l, (chain c).getLast? = some l ∧ l.next = none) :=
  C4_pipeline_chain "cmd1 | cmd2 | cmd3".toList
    [("cmd1".toList, []), ("cmd2".toList, []), ("cmd3".toList, [])]
    (by decide) (by decide) (by decide)

/-- C5: in every stage that `parse_command` returns for a line, the input slot
(index 0) holds the characters after `<` of the stage's last token beginning with `<`, the
append slot (index 2) the characters after `>>` of its last token beginning with `>>`,
the truncate slot (index 1) the characters after `>` of its last other token beginning
with `>`; a slot without such a token stays unset, an operator with nothing after it
gives the empty string, and every argument comes from a token that is no redirection
token. -/
theorem C5_redirection_slots (buf : CStr) (c : command_t) (h : parse_command buf = .ok c) :
    c.redirects.get 0
      = (((stage_tokens (tokens buf)).filter (fun t => t.head? == some '<')).getLast?).map
          (List.drop 1) ∧
    c.redirects.get 2
      = (((stage_tokens (tokens buf)).filter (fun t => t.take 2 == ['>', '>'])).getLast?).map
          (List.drop 2) ∧
    c.redirects.get 1
      = (((stage_tokens (tokens buf)).filter
            (fun t => t.head? == some '>' && !(t.take 2 == ['>', '>']))).getLast?).map
          (List.drop 1) ∧
    (∀ a ∈ c.args, ∃ t ∈ stage_tokens (tokens buf),
      t.head? ≠ some '<' ∧ t.head? ≠ some '>' ∧ (a = t ∨ a = t.tail.dropLast)) ∧
    (∃ c1, parse_command "cmd < > >>".toList = .ok c1 ∧ c1.redirects.get 0 = some [] ∧
      c1.redirects.get 1 = some [] ∧ c1.redirects.get 2 = some [] ∧ c1.args = []) := by
  obtain ⟨_, _, h3, _, h5, h6, h7⟩ := first_stage buf c h
  refine ⟨?_, ?_, ?_, ?_, ⟨_, rfl, by decide⟩⟩
  · show c.redirects.r0 = _
    rw [h5]
    rw [last_redirect_none]
    rfl
  · show c.redirects.r2 = _
    rw [h7]
    rw [last_redirect_none]
    rfl
  · show c.redirects.r1 = _
    rw [h6]
    rw [last_redirect_none]
    rfl
  · intro a ha
    rw [h3, List.mem_map] at ha
    obtain ⟨t, ht, hta⟩ := ha
    rw [List.mem_filter] at ht
    obtain ⟨ht1, ht2⟩ := ht
    refine ⟨t, ht1, ?_, ?_, ?_⟩
    · intro h0
      simp [is_argument_token, is_redirect_token, is_input_redirect, h0] at ht2
    · intro h0
      rcases token_kind t with ⟨hk, _⟩ | ⟨_, _, hp, hr⟩ | ⟨hk, _⟩ | ⟨hk, _⟩ | ⟨hk, _⟩
      · rw [hk] at h0; simp at h0
      · simp [is_trunc_redirect, h0, hp] at hr
      · rw [hk] at ht2; simp at ht2
      · rw [hk] at ht2; simp at ht2
      · rw [hk] at ht2; simp at ht2
    · rw [← hta]
      unfold without_quotes
      by_cases hq : has_matching_quotes t
      · right; rw [if_pos hq]
      · left; rw [if_neg hq]

/-- C5, at the line `sort <in.txt >out.txt -r >>log.txt >final.txt`. -/
theorem C5_redirection_slots_witness :
    ∃ c, parse_command "sort <in.txt >out.txt -r >>log.txt >final.txt".toList = .ok c ∧
      c.redirects.get 0 = some "in.txt".toList ∧ c.redirects.get 2 = some "log.txt".toList ∧
      c.redirects.get 1 = some "final.txt".toList ∧ c.args = ["-r".toList] :=
  ⟨_, rfl, by
    have h := C5_redirection_slots "sort <in.txt >out.txt -r >>log.txt >final.txt".toList _ rfl
    refine ⟨?_, ?_, ?_, by decide⟩
    · rw [h.1]; decide
    · rw [h.2.1]; decide
    · rw [h.2.2.1]; decide⟩

/-- C6, the claim as stated fails: on the line `ls&` the stage is marked background but
the marker is not stripped, it stays in the stage's name. -/
theorem C6_counterexample :
    ∃ c, parse_command "ls&".toList = .ok c ∧ c.background = true ∧
      c.name = "ls&".toList ∧ '&' ∈ c.name :=
  ⟨_, rfl, by decide, by decide, by decide⟩

/-- C6 (amended): in every stage that `parse_command` returns for a line, the stage is
marked background if and only if the last character of the whitespace-trimmed line is
`&`, and every argument comes from a token other than the token `&`: a token `&` after the
command name is never added to the arguments.  The marker is not removed from a token it
is written against: the name is the whole first token of the line, and an argument token
that ends in `&` is an argument as it stands.  On `ls&` the name is `ls&`, on `ls -l&` the
one argument is `-l&`, and on the line `&` the name is `&`. -/
theorem C6_background_marker (buf : CStr) (c : command_t) (h : parse_command buf = .ok c) :
    (c.background = true ↔ (trim_right (trim_left buf)).getLast? = some '&') ∧
    (∀ a ∈ c.args, ∃ t ∈ stage_tokens (tokens buf),
      t ≠ ['&'] ∧ (a = t ∨ a = t.tail.dropLast)) ∧
    (tokens buf).head? = some c.name ∧
    (∀ t ∈ stage_tokens (tokens buf), is_argument_token t = true →
      t.getLast? = some '&' → t ∈ c.args) ∧
    (∃ c1, parse_command "ls&".toList = .ok c1 ∧ c1.background = true ∧
      c1.name = "ls&".toList ∧ c1.args = []) ∧
    (∃ c2, parse_command "ls -l&".toList = .ok c2 ∧ c2.background = true ∧
      c2.name = "ls".toList ∧ c2.args = ["-l&".toList]) ∧
    (∃ c3, parse_command "&".toList = .ok c3 ∧ c3.background = true ∧
      c3.name = "&".toList ∧ c3.args = []) := by
  obtain ⟨h1, h2, h3, _⟩ := first_stage buf c h
  refine ⟨?_, ?_, h1, ?_, ⟨_, rfl, by decide, by decide, by decide⟩,
    ⟨_, rfl, by decide, by decide, by decide⟩, ⟨_, rfl, by decide, by decide, by decide⟩⟩
  · rw [h2, ← ends_amp_trim]
    constructor
    · exact fun hh => hh.2
    · intro hh
      refine ⟨?_, hh⟩
      cases hb : trim_right (trim_left buf) with
      | nil => rw [hb] at hh; simp at hh
      | cons x xs => simp
  · intro a ha
    rw [h3, List.mem_map] at ha
    obtain ⟨t, ht, hta⟩ := ha
    rw [List.mem_filter] at ht
    obtain ⟨ht1, ht2⟩ := ht
    refine ⟨t, ht1, ?_, ?_⟩
    · intro h0
      rw [h0] at ht2
      simp [is_argument_token] at ht2
    · rw [← hta]
      unfold without_quotes
      by_cases hq : has_matching_quotes t
      · right; rw [if_pos hq]
      · left; rw [if_neg hq]
  · intro t ht harg hamp
    rw [h3, List.mem_map]
    refine ⟨t, List.mem_filter.mpr ⟨ht, harg⟩, ?_⟩
    unfold without_quotes
    rw [if_neg]
    intro hq
    rcases hq.2 with hq | hq
    · rw [hamp] at hq
      exact absurd hq.2 (by decide)
    · rw [hamp] at hq
      exact absurd hq.2 (by decide)

/-- C6 (amended), at the lines ` sleep 10 & ` (the token `&` is no argument) and
`ls -l& x&` (the name is the first token and the two arguments keep their `&`). -/
theorem C6_background_marker_witness :
    (∃ c, parse_command " sleep 10 & ".toList = .ok c ∧ c.background = true ∧
      c.args = ["10".toList]) ∧
    (∃ c, parse_command "ls -l& x&".toList = .ok c ∧ c.background = true ∧
      "-l&".toList ∈ c.args ∧ "x&".toList ∈ c.args) :=
  ⟨⟨_, rfl,
    (C6_background_marker " sleep 10 & ".toList _ rfl).1.mpr (by decide), by decide⟩,
   ⟨_, rfl,
    (C6_background_marker "ls -l& x&".toList _ rfl).1.mpr (by decide),
    (C6_background_marker "ls -l& x&".toList _ rfl).2.2.2.1 _ (by decide) (by decide)
      (by decide),
    (C6_background_marker "ls -l& x&".toList _ rfl).2.2.2.1 _ (by decide) (by decide)
      (by decide)⟩⟩

/-- C7, the claim as stated fails: on the line `a | b &` the first stage has a next stage
and its background flag is set. -/
theorem C7_counterexample :
    ∃ c nx, parse_command "a | b &".toList = .ok c ∧ c.next = some nx ∧
      c.background = true ∧ nx.background = true ∧ nx.next = none :=
  ⟨_, _, rfl, rfl, by decide, by decide, rfl⟩

/-- C7 (amended): in every chain that `parse_command` returns, all stages have the same
background flag: it is set, in every stage of the chain and not only in the final one, if
and only if the whitespace-trimmed line ends in `&`. -/
theorem C7_background_every_stage (buf : CStr) (c : command_t)
    (h : parse_command buf = .ok c) :
    ∀ s ∈ chain c, (s.background = true ↔ (trim_right (trim_left buf)).getLast? = some '&') := by
  have key : ∀ s ∈ chain c, s.background = ends_amp (tokens buf) := by
    obtain ⟨name, ts, st1, ht, hl, hc⟩ := parse_command_ok buf c h
    obtain ⟨b1, b2⟩ := tokens_loop_background _ ts (Nat.lt_succ_self _) _ st1 hl
    have hn0 : (stage_start command_zero (ends_amp (name :: ts)) name).command.next = none := by
      cases ends_amp (name :: ts) <;> rfl
    intro s hs
    rw [chain_eq] at hs
    simp only [List.mem_cons] at hs
    rcases hs with hs | hs
    · rw [hs]; exact (first_stage buf c h).2.1
    · rw [hc] at hs
      rcases b2 with b2 | ⟨hne, nx, hnx, hall⟩
      · have : (stage_finish st1).next = none := by
          show st1.command.next = none
          rw [b2, hn0]
        rw [this] at hs
        simp at hs
      · have : (stage_finish st1).next = some nx := hnx
        rw [this] at hs
        simp only at hs
        rw [hall s hs, ht, ends_amp_cons name ts hne]
  intro s hs
  rw [key s hs, ← ends_amp_trim]
  constructor
  · exact fun hh => hh.2
  · intro hh
    refine ⟨?_, hh⟩
    cases hb : trim_right (trim_left buf) with
    | nil => rw [hb] at hh; simp at hh
    | cons x xs => simp

/-- C7 (amended), at the line `a | b | c &`: three stages, all marked background. -/
theorem C7_background_every_stage_witness :
    ∃ c, parse_command "a | b | c &".toList = .ok c ∧ (chain c).length = 3 ∧
      ∀ s ∈ chain c, s.background = true :=
  ⟨_, rfl, by decide, fun s hs =>
    (C7_background_every_stage "a | b | c &".toList _ rfl s hs).mpr (by decide)⟩

/-- C8, the code against the claim: on a line that is empty or made of spaces and tabs
only, `strtok` returns `NULL` and `parse_command` calls `strlen` on it before its `NULL`
test, so no stage is produced. -/
theorem C8_blank_line_null_deref (buf : CStr) (h : ∀ ch ∈ buf, is_splitter ch = true) :
    parse_command buf = .error .null_deref := by
  rw [parse_command_eq, tokens_nil_of_all buf h]
  rfl

/-- C8, at the empty line and at a line of a space and a tab. -/
theorem C8_blank_line_null_deref_witness :
    parse_command [] = .error .null_deref ∧ parse_command [' ', TAB] = .error .null_deref :=
  ⟨C8_blank_line_null_deref [] (by decide), C8_blank_line_null_deref [' ', TAB] (by decide)⟩

/-- C9: `process_command_child` takes the fan-out path if and only if at least two of:
truncate redirect set, append redirect set, next stage present, hold.  On that path a
grandchild is forked that runs the command with its standard output on the temporary
file, and the child's own course is the copy phase: where it completes, the whole of the
captured output has been read from the temporary file.  When at most one of the three
holds, no grandchild is forked and the child runs the command itself with its standard
output bound to the truncate file, else to the append file, else to the outbound pipe,
else left unchanged. -/
theorem C9_fanout_decision (BUFSIZ SIZEOF_SIZE_T : Nat) (env : environment) (c : command_t)
    (captured buffer0 : List Byte) (fs : file_system) (pipe0 : List Byte) :
    (child_stdout c = .temp_file ↔
      ((c.redirects.get 1).isSome ∧ (c.redirects.get 2).isSome) ∨
      ((c.redirects.get 1).isSome ∧ c.next.isSome) ∨
      ((c.redirects.get 2).isSome ∧ c.next.isSome)) ∧
    ((((c.redirects.get 1).isSome ∧ (c.redirects.get 2).isSome) ∨
        ((c.redirects.get 1).isSome ∧ c.next.isSome) ∨
        ((c.redirects.get 2).isSome ∧ c.next.isSome)) →
      process_command_grandchild env c = some (execute_command env c) ∧
      process_command_child BUFSIZ SIZEOF_SIZE_T c captured buffer0 fs pipe0
        = (match fanout_copy BUFSIZ SIZEOF_SIZE_T c captured buffer0 fs pipe0 with
          | .error f => .error f
          | .ok s => .ok (.copied s)) ∧
      (0 < BUFSIZ → ∀ r,
        process_command_child BUFSIZ SIZEOF_SIZE_T c captured buffer0 fs pipe0 = .ok r →
        ∃ s, r = .copied s ∧ s.temp_rest = [])) ∧
    (¬ (((c.redirects.get 1).isSome ∧ (c.redirects.get 2).isSome) ∨
        ((c.redirects.get 1).isSome ∧ c.next.isSome) ∨
        ((c.redirects.get 2).isSome ∧ c.next.isSome)) →
      process_command_grandchild env c = none ∧
      process_command_child BUFSIZ SIZEOF_SIZE_T c captured buffer0 fs pipe0
        = .ok (.executes
            (match c.redirects.get 1 with
            | some p => .trunc_file p
            | none =>
              match c.redirects.get 2 with
              | some q => .append_file q
              | none => if c.next.isSome then .pipe else .unchanged))) := by
  have hiff : child_stdout c = .temp_file ↔
      ((c.redirects.get 1).isSome ∧ (c.redirects.get 2).isSome) ∨
      ((c.redirects.get 1).isSome ∧ c.next.isSome) ∨
      ((c.redirects.get 2).isSome ∧ c.next.isSome) := by
    unfold child_stdout stdout_redirected_to_multiple_files num_redirects_from_stdout
    cases h1 : c.redirects.get 1 <;> cases h2 : c.redirects.get 2 <;> cases h3 : c.next <;> simp
  have hdirect : ¬ (((c.redirects.get 1).isSome ∧ (c.redirects.get 2).isSome) ∨
        ((c.redirects.get 1).isSome ∧ c.next.isSome) ∨
        ((c.redirects.get 2).isSome ∧ c.next.isSome)) →
      child_stdout c =
        match c.redirects.get 1 with
        | some p => .trunc_file p
        | none =>
          match c.redirects.get 2 with
          | some q => .append_file q
          | none => if c.next.isSome then .pipe else .unchanged := by
    unfold child_stdout stdout_redirected_to_multiple_files num_redirects_from_stdout
    cases h1 : c.redirects.get 1 <;> cases h2 : c.redirects.get 2 <;> cases h3 : c.next <;> simp
  refine ⟨hiff, ?_, ?_⟩
  · intro hc
    have ht := hiff.mpr hc
    have hpc : process_command_child BUFSIZ SIZEOF_SIZE_T c captured buffer0 fs pipe0
        = (match fanout_copy BUFSIZ SIZEOF_SIZE_T c captured buffer0 fs pipe0 with
          | .error f => .error f
          | .ok s => .ok (.copied s)) := by
      unfold process_command_child
      rw [ht]
    refine ⟨?_, hpc, ?_⟩
    · unfold process_command_grandchild
      rw [ht]
    · intro hB r hr
      rw [hpc] at hr
      cases hf : fanout_copy BUFSIZ SIZEOF_SIZE_T c captured buffer0 fs pipe0 with
      | error f => rw [hf] at hr; simp at hr
      | ok s =>
        rw [hf] at hr
        simp only [Except.ok.injEq] at hr
        exact ⟨s, hr.symm, fanout_copy_done BUFSIZ SIZEOF_SIZE_T hB c captured buffer0 fs pipe0 s hf⟩
  · intro hc
    have hne : child_stdout c ≠ .temp_file := fun h => hc (hiff.mp h)
    have hd := hdirect hc
    constructor
    · unfold process_command_grandchild
      split
      · rename_i heq; exact absurd heq hne
      · rfl
    · unfold process_command_child
      split
      · rename_i heq; exact absurd heq hne
      · rw [hd]

/-- C9, at the stage parsed from `cmd > out.txt >> out2.txt | cmd2` (the count is 3, the
stage takes the fan-out path and a grandchild is forked; both redirect slots hold the
empty path, so the copy phase of the child ends in a fault), at the stage of
`cmd >f | x` (fan-out path, the copy phase completes) and at the stage of `cmd >f` (the
child runs the command itself, its output bound to `f`). -/
theorem C9_fanout_decision_witness :
    (∃ c, parse_command "cmd > out.txt >> out2.txt | cmd2".toList = .ok c ∧
      num_redirects_from_stdout c = 3 ∧ child_stdout c = .temp_file ∧
      process_command_grandchild sample_environment c
        = some (execute_command sample_environment c) ∧
      process_command_child 8192 8 c [65] (List.replicate 8192 0) sample_files []
        = .error .null_deref) ∧
    (∃ c s, parse_command "cmd >f | x".toList = .ok c ∧
      process_command_child 8192 8 c [65] (List.replicate 8192 0) sample_files []
        = .ok (.copied s) ∧ s.temp_rest = [] ∧ s.fs.read "f".toList = some [65]) ∧
    (∃ c, parse_command "cmd >f".toList = .ok c ∧
      process_command_grandchild sample_environment c = none ∧
      process_command_child 8192 8 c [65] (List.replicate 8192 0) sample_files []
        = .ok (.executes (.trunc_file "f".toList))) :=
  ⟨⟨_, rfl, by decide,
      (C9_fanout_decision 8192 8 sample_environment _ [65] (List.replicate 8192 0)
        sample_files []).1.mpr (by decide),
      ((C9_fanout_decision 8192 8 sample_environment _ [65] (List.replicate 8192 0)
        sample_files []).2.1 (by decide)).1,
      rfl⟩,
   ⟨_, _, rfl, rfl, rfl, by decide⟩,
   ⟨_, rfl,
      ((C9_fanout_decision 8192 8 sample_environment _ [65] (List.replicate 8192 0)
        sample_files []).2.2 (by decide)).1,
      ((C9_fanout_decision 8192 8 sample_environment _ [65] (List.replicate 8192 0)
        sample_files []).2.2 (by decide)).2⟩⟩

/-- C10, the claim as stated fails.  On `cmd >f >>f` the stage takes the fan-out path
with both redirects set and naming the same file: with the one captured byte 65 the file
ends as 65 65, which is neither the captured output nor the previous contents followed by
it; so it does on `cmd >f >>./f`, where two paths name the one file.  On the line
`cmd > out.txt >> out2.txt | cmd2` both redirects are set to the empty path, and on
`cmd >/ | x` the redirect is set to a directory: `fopen` returns `NULL` and the copy phase
dereferences it. -/
theorem C10_counterexample :
    (∃ c s, parse_command "cmd >f >>f".toList = .ok c ∧
      c.redirects.get 1 = some "f".toList ∧ c.redirects.get 2 = some "f".toList ∧
      process_command_child 8192 8 c [65] (List.replicate 8192 0) sample_files []
        = .ok (.copied s) ∧
      s.fs.read "f".toList = some [65, 65]) ∧
    (∃ c s, parse_command "cmd >f >>./f".toList = .ok c ∧
      c.redirects.get 1 = some "f".toList ∧ c.redirects.get 2 = some "./f".toList ∧
      process_command_child 8192 8 c [65] (List.replicate 8192 0) sample_files []
        = .ok (.copied s) ∧
      s.fs.read "f".toList = some [65, 65]) ∧
    (∃ c, parse_command "cmd > out.txt >> out2.txt | cmd2".toList = .ok c ∧
      child_stdout c = .temp_file ∧
      c.redirects.get 1 = some [] ∧ c.redirects.get 2 = some [] ∧
      fault_of (process_command_child 8192 8 c [65] (List.replicate 8192 0) sample_files [])
        = some .null_deref) ∧
    (∃ c, parse_command "cmd >/ | x".toList = .ok c ∧
      child_stdout c = .temp_file ∧ c.redirects.get 1 = some "/".toList ∧
      fault_of (process_command_child 8192 8 c [65] (List.replicate 8192 0) sample_files [])
        = some .null_deref) :=
  ⟨⟨_, _, rfl, by decide, by decide, rfl, by decide⟩,
   ⟨_, _, rfl, by decide, by decide, rfl, by decide⟩,
   ⟨_, rfl, by decide, by decide, by decide, by decide⟩,
   ⟨_, rfl, by decide, by decide, by decide⟩⟩

/-- C10 (amended): on the fan-out path, when `fopen` succeeds on every set output
redirect (its path is not empty and the file system lets the file be opened) and the
truncate and append redirects do not name the same file, the copy phase completes for
every captured byte sequence `B`, and after it the truncate-redirect file (if set) holds
exactly `B` whatever it held before, and the append-redirect file (if set) holds its
previous contents followed by exactly `B`. -/
theorem C10_fanout_files (BUFSIZ SIZEOF_SIZE_T : Nat) (command : command_t)
    (B buffer0 : List Byte) (fs : file_system) (pipe0 : List Byte)
    (hB : 0 < BUFSIZ)
    (hfan : child_stdout command = .temp_file)
    (h1 : ∀ p, command.redirects.get 1 = some p → p ≠ [] ∧ (fs.lookup p).isSome)
    (h2 : ∀ q, command.redirects.get 2 = some q → q ≠ [] ∧ (fs.lookup q).isSome)
    (hpq : ∀ p q, command.redirects.get 1 = some p → command.redirects.get 2 = some q →
      fs.lookup p ≠ fs.lookup q) :
    ∃ s, process_command_child BUFSIZ SIZEOF_SIZE_T command B buffer0 fs pipe0
        = .ok (.copied s) ∧
      (∀ p, command.redirects.get 1 = some p → s.fs.read p = some B) ∧
      (∀ q, command.redirects.get 2 = some q →
        s.fs.read q = some ((fs.read q).getD [] ++ B)) := by
  obtain ⟨s, e1, e2, e3, e4⟩ := fanout_copy_files BUFSIZ SIZEOF_SIZE_T hB command B buffer0 fs
    pipe0 (((command.redirects.get 1).bind fs.lookup).getD 0)
    (((command.redirects.get 2).bind fs.lookup).getD 0)
    (by
      intro path hp
      obtain ⟨a, b⟩ := h1 path hp
      refine ⟨a, ?_⟩
      rw [hp]
      obtain ⟨i, hi⟩ := Option.isSome_iff_exists.mp b
      simp [hi])
    (by
      intro path hq
      obtain ⟨a, b⟩ := h2 path hq
      refine ⟨a, ?_⟩
      rw [hq]
      obtain ⟨i, hi⟩ := Option.isSome_iff_exists.mp b
      simp [hi])
    (by
      intro hp hq
      obtain ⟨p, hp⟩ := Option.isSome_iff_exists.mp hp
      obtain ⟨q, hq⟩ := Option.isSome_iff_exists.mp hq
      obtain ⟨i, hi⟩ := Option.isSome_iff_exists.mp (h1 p hp).2
      obtain ⟨j, hj⟩ := Option.isSome_iff_exists.mp (h2 q hq).2
      have := hpq p q hp hq
      rw [hp, hq]
      simp only [Option.some_bind, hi, hj, Option.getD_some]
      intro hij
      apply this
      rw [hi, hj, hij])
  refine ⟨s, ?_, ?_, ?_⟩
  · unfold process_command_child
    rw [hfan]
    simp only [e1]
  · intro p hp
    obtain ⟨i, hi⟩ := Option.isSome_iff_exists.mp (h1 p hp).2
    have := e3 (by rw [hp]; rfl)
    rw [hp] at this
    simp only [Option.some_bind, hi, Option.getD_some] at this
    unfold file_system.read
    rw [e2, hi]
    exact this
  · intro q hq
    obtain ⟨j, hj⟩ := Option.isSome_iff_exists.mp (h2 q hq).2
    have := e4 (by rw [hq]; rfl)
    rw [hq] at this
    simp only [Option.some_bind, hj, Option.getD_some] at this
    unfold file_system.read
    rw [e2, hj]
    exact this

/-- C10 (amended), at the stage parsed from `cmd >f >>g | x`, with `BUFSIZ = 4`, six
captured bytes (two rounds of the loop), `f` holding 7 7 7 and `g` holding 9 9 before. -/
theorem C10_fanout_files_witness :
    ∃ c, parse_command "cmd >f >>g | x".toList = .ok c ∧
      ∃ s, process_command_child 4 8 c [1, 2, 3, 4, 5, 6] [0, 0, 0, 0]
          { sample_files with
            bytes := fun i => if i = 1 then some [7, 7, 7]
              else if i = 2 then some [9, 9] else none } [] = .ok (.copied s) ∧
        s.fs.read "f".toList = some [1, 2, 3, 4, 5, 6] ∧
        s.fs.read "g".toList = some [9, 9, 1, 2, 3, 4, 5, 6] :=
  ⟨_, rfl,
    (C10_fanout_files 4 8 _ [1, 2, 3, 4, 5, 6] [0, 0, 0, 0]
      { sample_files with
        bytes := fun i => if i = 1 then some [7, 7, 7]
          else if i = 2 then some [9, 9] else none } []
      (by decide) (by decide)
      (fun p hp => by
        cases Option.some.inj (show some "f".toList = some p from hp)
        decide)
      (fun q hq => by
        cases Option.some.inj (show some "g".toList = some q from hq)
        decide)
      (fun p q hp hq => by
        cases Option.some.inj (show some "f".toList = some p from hp)
        cases Option.some.inj (show some "g".toList = some q from hq)
        decide)).elim
      (fun s hs => ⟨s, hs.1, hs.2.1 _ (by decide), hs.2.2 _ (by decide)⟩)⟩
theorem shift_forward_cons (k : Nat) :
    ∀ (x : Option CStr) (t : List (Option CStr)), k ≤ t.length →
      shift_forward k (x :: t) = x :: ((x :: t).take k ++ t.drop k) := by
  induction k with
  | zero => intro x t _; simp [shift_forward]
  | succ k ih =>
    intro x t hk
    have hk' : k < t.length := hk
    have hkx : k < (x :: t).length := by simp; omega
    rw [shift_forward, List.set_cons_succ, ih x (t.set k ((x :: t).getD k none)) (by simp; omega)]
    have h1 : (x :: t.set k ((x :: t).getD k none)).take k = (x :: t).take k := by
      cases k with
      | zero => rfl
      | succ j =>
        rw [List.take_succ_cons, List.take_succ_cons, List.take_set_of_lt _ _ (Nat.lt_succ_self j)]
    have h2 : (t.set k ((x :: t).getD k none)).drop k
        = (x :: t).getD k none :: t.drop (k + 1) := by
      rw [List.set_eq_take_cons_drop _ hk', List.drop_append_of_le_length (by simp; omega)]
      have : (List.take k t).length = k := by simp; omega
      rw [List.drop_of_length_le (by omega)]
      rfl
    have h3 : (x :: t).take (k + 1) = (x :: t).take k ++ [(x :: t).getD k none] := by
      rw [List.take_succ]
      congr 1
      rw [List.getD_eq_getElem?_getD, List.getElem?_eq_getElem hkx]
      rfl
    rw [h1, h2, h3]
    simp

/-- The launch vector of a stage whose `arg_count` counts its arguments: the name, the
arguments in order, and the terminating `NULL`, whatever the fresh slots held. -/
theorem launch_vector_eq (junk : Option CStr) (command : command_t)
    (h : command.arg_count = command.args.length) :
    launch_vector junk command
      = { name := command.name, arg_count := command.args.length + 2,
          args := some command.name :: command.args.map some ++ [none] } := by
  unfold launch_vector
  rw [h]
  have e0 : (command.args.map some ++
      List.replicate (command.args.length + 2 - command.args.length) junk).take
        (command.args.length + 2) = command.args.map some ++ [junk, junk] := by
    have : command.args.length + 2 - command.args.length = 2 := by omega
    rw [this]
    apply List.take_of_length_le
    simp
  simp only [e0, Nat.add_sub_cancel]
  cases hargs : command.args with
  | nil => simp [shift_forward]
  | cons x t =>
    simp only [List.map_cons, List.cons_append, List.length_cons]
    rw [shift_forward_cons (t.length + 1) (some x) _ (by simp)]
    have t1 : (some x :: (t.map some ++ [junk, junk])).take (t.length + 1)
        = some x :: t.map some := by
      rw [List.take_succ_cons, List.take_append_of_le_length (by simp)]
      rw [List.take_of_length_le (by simp)]
    have t2 : (t.map some ++ [junk, junk]).drop (t.length + 1) = [junk] := by
      rw [List.drop_append_eq_append_drop]
      simp
    rw [t1, t2, List.set_cons_zero]
    have t4 : (some command.name :: (some x :: List.map some t ++ [junk])).set
        (t.length + 1 + 2 - 1) none
        = some command.name :: some x :: (List.map some t ++ [none]) := by
      have e : t.length + 1 + 2 - 1 = (some command.name :: some x :: t.map some).length := by
        simp
      rw [e]
      simp
    rw [t4]

theorem strtok_by_path_of (d : CStr) (ds : List CStr) (hd : d ≠ [])
    (hc : ∀ c ∈ d, c ≠ ':') :
    (strtok_by (fun x => x == ':') (path_of (d :: ds))).token = some d ∧
    (strtok_by (fun x => x == ':') (path_of (d :: ds))).save = path_of ds := by
  have hp : ∀ a ∈ d, (fun x => !(x == ':')) a = true := by
    intro a ha; simp [hc a ha]
  cases d with
  | nil => exact absurd rfl hd
  | cons c cs =>
    have hcc : (c == ':') = false := by simp [hc c (List.mem_cons_self _ _)]
    cases ds with
    | nil =>
      have e1 := @List.takeWhile_append_of_pos Char (fun x => !(x == ':')) (c :: cs) [] hp
      have e2 := @List.dropWhile_append_of_pos Char (fun x => !(x == ':')) (c :: cs) [] hp
      simp only [List.append_nil, List.takeWhile_nil, List.dropWhile_nil] at e1 e2
      have hpo : path_of [c :: cs] = c :: cs := rfl
      have hdw : List.dropWhile (fun x => x == ':') (c :: cs) = c :: cs := by
        rw [List.dropWhile_cons_of_neg]; simp [hcc]
      unfold strtok_by
      rw [hpo, hdw]
      simp only
      rw [e1, e2]
      exact ⟨rfl, rfl⟩
    | cons e es =>
      have e1 := @List.takeWhile_append_of_pos Char (fun x => !(x == ':')) (c :: cs)
        (':' :: path_of (e :: es)) hp
      have e2 := @List.dropWhile_append_of_pos Char (fun x => !(x == ':')) (c :: cs)
        (':' :: path_of (e :: es)) hp
      simp only [List.cons_append] at e1 e2
      have hpo : path_of ((c :: cs) :: e :: es) = c :: (cs ++ ':' :: path_of (e :: es)) := rfl
      have hdw : List.dropWhile (fun x => x == ':') (c :: (cs ++ ':' :: path_of (e :: es)))
          = c :: (cs ++ ':' :: path_of (e :: es)) := by
        rw [List.dropWhile_cons_of_neg]; simp [hcc]
      unfold strtok_by
      rw [hpo, hdw]
      simp only
      rw [e1, e2, List.takeWhile_cons_of_neg (by decide), List.dropWhile_cons_of_neg (by decide)]
      simp

theorem path_of_length (d : CStr) (ds : List CStr) (hd : d ≠ []) :
    (path_of ds).length < (path_of (d :: ds)).length := by
  have : 0 < d.length := List.length_pos.mpr hd
  cases ds with
  | nil => simpa [path_of] using this
  | cons e es => simp [path_of]; omega

/-- The search of `execv_command` over a path of given directories, each of which leaves
its path within the array `full_path`: the first directory whose combined path is
executable wins, and without one the command is not found. -/
theorem path_search_path_of (executable : CStr → Bool) (name : CStr)
    (argv : List (Option CStr)) (dirs : List CStr)
    (hvalid : ∀ d ∈ dirs, d ≠ [] ∧ ∀ c ∈ d, c ≠ ':')
    (hfits : ∀ d ∈ dirs, full_path d name = .ok (combine_path d name)) :
    ∀ fuel, (path_of dirs).length < fuel →
      path_search executable name argv fuel (path_of dirs)
        = .ok (match dirs.find? (fun d => executable (combine_path d name)) with
          | some d => ([], .execv (combine_path d name) argv)
          | none => ([.not_found name], .exit .UNKNOWN)) := by
  induction dirs with
  | nil =>
    intro fuel hf
    cases fuel with
    | zero => omega
    | succ fuel => simp [path_search, path_of, strtok_by]
  | cons d ds ih =>
    intro fuel hf
    obtain ⟨hd, hc⟩ := hvalid d (List.mem_cons_self _ _)
    obtain ⟨h1, h2⟩ := strtok_by_path_of d ds hd hc
    have hlen := path_of_length d ds hd
    cases fuel with
    | zero => omega
    | succ fuel =>
      rw [path_search]
      simp only [h1, h2, hfits d (List.mem_cons_self _ _)]
      by_cases hx : executable (combine_path d name) = true
      · simp [hx, List.find?_cons_of_pos]
      · rw [if_neg hx, ih (fun e he => hvalid e (List.mem_cons_of_mem _ he))
          (fun e he => hfits e (List.mem_cons_of_mem _ he)) fuel (by omega)]
        rw [List.find?_cons_of_neg _ (by simpa using hx)]

/-- The search of `execv_command` ends in a fault at the first directory whose path does
not fit the array `full_path`, when no directory before it holds the executable. -/
theorem path_search_overflow (executable : CStr → Bool) (name : CStr)
    (argv : List (Option CStr)) (f : Fault) (d : CStr) (rest : List CStr)
    (hd : full_path d name = .error f) :
    ∀ (pre : List CStr), (∀ e ∈ pre ++ d :: rest, e ≠ [] ∧ ∀ c ∈ e, c ≠ ':') →
      (∀ e ∈ pre, full_path e name = .ok (combine_path e name) ∧
        executable (combine_path e name) = false) →
      ∀ fuel, (path_of (pre ++ d :: rest)).length < fuel →
        path_search executable name argv fuel (path_of (pre ++ d :: rest)) = .error f := by
  intro pre
  induction pre with
  | nil =>
    intro hvalid _ fuel hf
    obtain ⟨hd0, hc⟩ := hvalid d (List.mem_cons_self _ _)
    obtain ⟨h1, _⟩ := strtok_by_path_of d rest hd0 hc
    cases fuel with
    | zero => omega
    | succ fuel =>
      rw [List.nil_append, path_search]
      simp only [h1, hd]
  | cons e es ih =>
    intro hvalid hpre fuel hf
    obtain ⟨he0, hc⟩ := hvalid e (List.mem_cons_self _ _)
    obtain ⟨h1, h2⟩ := strtok_by_path_of e (es ++ d :: rest) he0 hc
    have hlen := path_of_length e (es ++ d :: rest) he0
    obtain ⟨hfit, hnx⟩ := hpre e (List.mem_cons_self _ _)
    cases fuel with
    | zero => omega
    | succ fuel =>
      rw [List.cons_append, path_search]
      simp only [h1, h2, hfit]
      rw [if_neg (by rw [hnx]; simp)]
      exact ih (fun x hx => hvalid x (List.mem_cons_of_mem _ hx))
        (fun x hx => hpre x (List.mem_cons_of_mem _ hx)) fuel
        (by rw [List.cons_append] at hf; omega)

theorem process_stage_empty (env : environment) (command : command_t) (inbound : Bool)
    (h : command.name = []) :
    process_stage env command inbound
      = .ok (.done .SUCCESS ((if inbound then [.close .parent_to_child_1] else []) ++
          (if inbound then [.close .parent_to_child_0] else []))) := by
  unfold process_stage
  simp [h]

theorem process_stage_exit (env : environment) (command : command_t) (inbound : Bool)
    (h : command.name = "exit".toList) :
    process_stage env command inbound
      = .ok (.done .EXIT ((if inbound then [.close .parent_to_child_1] else []) ++
          (if inbound then [.close .parent_to_child_0] else []))) := by
  unfold process_stage
  simp [h]

theorem psvis_block_some (env : environment) (command command1 : command_t)
    (events : List shell_event) (h : psvis_block env command = .ok (events, some command1)) :
    command.arg_count = 2 ∧
    ∃ root fname, arg_at command 0 = .ok root ∧ arg_at command 1 = .ok fname ∧
      psvis_dmesg env command fname = .ok command1 ∧
      events = [.fork (.launch (psvis_insmod env command root)), .waitpid,
        .fork (.launch (.ok (psvis_rmmod command))), .waitpid] := by
  unfold psvis_block at h
  cases h0 : arg_at command 0 with
  | error f => rw [h0] at h; simp at h
  | ok root =>
    rw [h0] at h
    simp only at h
    by_cases hc : command.arg_count ≠ 2
    · rw [if_pos hc] at h; simp at h
    · rw [if_neg hc] at h
      cases h1 : arg_at command 1 with
      | error f => rw [h1] at h; simp at h
      | ok fname =>
        rw [h1] at h
        simp only at h
        cases h2 : psvis_dmesg env command fname with
        | error f => rw [h2] at h; simp at h
        | ok c1 =>
          rw [h2] at h
          simp only [Except.ok.injEq, Prod.mk.injEq, Option.some.injEq] at h
          refine ⟨by omega, root, fname, rfl, rfl, by rw [h2, h.2], h.1.symm⟩

theorem psvis_block_none (env : environment) (command : command_t)
    (events : List shell_event) (h : psvis_block env command = .ok (events, none)) :
    command.arg_count ≠ 2 ∧ events = [.error "psvis requires two arguments.".toList] := by
  unfold psvis_block at h
  cases h0 : arg_at command 0 with
  | error f => rw [h0] at h; simp at h
  | ok root =>
    rw [h0] at h
    simp only at h
    by_cases hc : command.arg_count ≠ 2
    · rw [if_pos hc] at h
      simp only [Except.ok.injEq, Prod.mk.injEq, and_true] at h
      exact ⟨hc, h.symm⟩
    · rw [if_neg hc] at h
      cases h1 : arg_at command 1 with
      | error f => rw [h1] at h; simp at h
      | ok fname =>
        rw [h1] at h
        simp only at h
        cases h2 : psvis_dmesg env command fname with
        | error f => rw [h2] at h; simp at h
        | ok c1 => rw [h2] at h; simp at h

/-- The stage that `psvis_dmesg` leaves where it ends without a fault. -/
theorem psvis_dmesg_ok (env : environment) (command command1 : command_t) (fname : CStr)
    (h : psvis_dmesg env command fname = .ok command1) :
    command1 = { command with
                 name := "sudo".toList, arg_count := 2,
                 args := ["dmesg".toList, "-c".toList],
                 redirects := command.redirects.set 1 fname } := by
  unfold psvis_dmesg at h
  split at h
  · simp only [Except.ok.injEq] at h
    exact h.symm
  · simp at h

theorem rewrite_stage_plain (env : environment) (command : command_t)
    (h1 : command.name ≠ "psvis".toList) (h2 : command.name ≠ "corona".toList) :
    rewrite_stage env command = .ok ([], some command) := by
  unfold rewrite_stage
  simp only [h1, h2, if_false]

/-- What the rewriting blocks leave: no process of the stage itself is created yet, the
background flag is kept, and the next stage is the old one or, after `corona`, the `grep`
stage. -/
theorem rewrite_stage_some (env : environment) (command command2 : command_t)
    (events : List shell_event) (h : rewrite_stage env command = .ok (events, some command2)) :
    (∀ e ∈ events, e.is_stage_fork = false) ∧
    command2.background = command.background ∧
    (command2.next = command.next ∨
      (command.name = "corona".toList ∧
        command2.next = some (grep_for_corona_command env))) ∧
    command2.name ≠ "corona".toList ∧ command2.name ≠ "psvis".toList ∧
    (command.name ≠ "psvis".toList → command.name ≠ "corona".toList →
      command2 = command ∧ events = []) := by
  unfold rewrite_stage at h
  by_cases hp : command.name = "psvis".toList
  · simp only [hp, if_true] at h
    cases hb : psvis_block env command with
    | error f => rw [hb] at h; simp at h
    | ok r =>
      obtain ⟨ev1, oc⟩ := r
      rw [hb] at h
      cases oc with
      | none => simp at h
      | some c1 =>
        obtain ⟨_, root, fname, _, _, hc0, hev⟩ := psvis_block_some env command c1 ev1 hb
        have hc1 := psvis_dmesg_ok env command c1 fname hc0
        have hname : c1.name = "sudo".toList := by rw [hc1]
        have hnc : ¬ c1.name = "corona".toList := by rw [hname]; decide
        simp only [hnc, if_false, Except.ok.injEq, Prod.mk.injEq, Option.some.injEq] at h
        obtain ⟨he, hc⟩ := h
        subst he; subst hc
        refine ⟨?_, ?_, ?_, hnc, ?_, ?_⟩
        · intro e hmem
          rw [hev] at hmem
          simp only [List.mem_cons, List.mem_singleton] at hmem
          rcases hmem with h | h | h | h | h <;> first | (rw [h]; rfl) | (simp at h)
        · rw [hc1]
        · left; rw [hc1]
        · rw [hname]; decide
        · intro hcontra; exact absurd hp hcontra
  · simp only [hp, if_false] at h
    by_cases hc : command.name = "corona".toList
    · simp only [hc, if_true, Except.ok.injEq, Prod.mk.injEq, Option.some.injEq] at h
      obtain ⟨he, hc2⟩ := h
      subst he; subst hc2
      refine ⟨by simp, rfl, Or.inr ⟨hc, rfl⟩, by simp [corona_block], by simp [corona_block], ?_⟩
      intro _ hcontra; exact absurd hc hcontra
    · simp only [hc, if_false, Except.ok.injEq, Prod.mk.injEq, Option.some.injEq] at h
      obtain ⟨he, hc2⟩ := h
      subst he; subst hc2
      exact ⟨by simp, rfl, Or.inl rfl, hc, hp, fun _ _ => ⟨rfl, rfl⟩⟩

theorem rewrite_stage_none (env : environment) (command : command_t)
    (events : List shell_event) (h : rewrite_stage env command = .ok (events, none)) :
    command.name = "psvis".toList ∧ command.arg_count ≠ 2 ∧
      events = [.error "psvis requires two arguments.".toList] := by
  unfold rewrite_stage at h
  by_cases hp : command.name = "psvis".toList
  · simp only [hp, if_true] at h
    cases hb : psvis_block env command with
    | error f => rw [hb] at h; simp at h
    | ok r =>
      obtain ⟨ev1, oc⟩ := r
      rw [hb] at h
      cases oc with
      | none =>
        simp only [Except.ok.injEq, Prod.mk.injEq, and_true] at h
        subst h
        exact ⟨hp, psvis_block_none env command ev1 hb⟩
      | some c1 => simp at h
  · simp only [hp, if_false] at h
    simp at h

theorem launch_stage_done (command : command_t) (inbound : Bool) (status : return_codes)
    (events : List shell_event) (h : launch_stage command inbound = .ok (.done status events)) :
    status = .SUCCESS ∧ command.next = none := by
  unfold launch_stage at h
  cases hm : myfg_poll command with
  | error f => rw [hm] at h; simp at h
  | ok ev3 =>
    rw [hm] at h
    cases hn : command.next with
    | none => rw [hn] at h; simp at h; exact ⟨h.1.symm, rfl⟩
    | some nx => rw [hn] at h; simp at h

theorem launch_stage_next (command nx : command_t) (inbound : Bool)
    (events : List shell_event) (h : launch_stage command inbound = .ok (.next events nx)) :
    command.next = some nx := by
  unfold launch_stage at h
  cases hm : myfg_poll command with
  | error f => rw [hm] at h; simp at h
  | ok ev3 =>
    rw [hm] at h
    cases hn : command.next with
    | none => rw [hn] at h; simp at h
    | some nx1 => rw [hn] at h; simp at h; rw [h.2]

theorem myfg_poll_events (command : command_t) (events : List shell_event)
    (h : myfg_poll command = .ok events) :
    ∀ e ∈ events, e.is_waitpid = false ∧ e.is_fork = false := by
  unfold myfg_poll at h
  split at h
  · cases ha : arg_at command 0 with
    | error f => rw [ha] at h; simp at h
    | ok pid =>
      rw [ha] at h
      simp only [Except.ok.injEq] at h
      subst h
      intro e he
      simp only [List.mem_singleton] at he
      rw [he]; exact ⟨rfl, rfl⟩
  · simp only [Except.ok.injEq] at h
    subst h
    intro e he; simp at he

/-- The events of a launch: the launch events of the stage, then events that are neither a
`waitpid` nor a `fork`. -/
theorem launch_stage_events (command : command_t) (inbound : Bool) (outcome : stage_outcome)
    (h : launch_stage command inbound = .ok outcome) :
    ∃ post, outcome.events = launch_events command inbound ++ post ∧
      ∀ e ∈ post, e.is_waitpid = false ∧ e.is_fork = false := by
  unfold launch_stage at h
  cases hm : myfg_poll command with
  | error f => rw [hm] at h; simp at h
  | ok ev3 =>
    rw [hm] at h
    have hev := myfg_poll_events command ev3 hm
    cases hn : command.next with
    | none =>
      rw [hn] at h
      simp only [Except.ok.injEq] at h
      subst h
      exact ⟨ev3, rfl, hev⟩
    | some nx =>
      rw [hn] at h
      simp only [Except.ok.injEq] at h
      subst h
      refine ⟨ev3 ++ [.transfer, .close .child_to_parent_0, .close .argument_transfer_1], ?_, ?_⟩
      · simp [stage_outcome.events]
      · intro e he
        simp only [List.mem_append, List.mem_cons, List.mem_singleton] at he
        rcases he with he | he | he | he | he
        · exact hev e he
        · rw [he]; exact ⟨rfl, rfl⟩
        · rw [he]; exact ⟨rfl, rfl⟩
        · rw [he]; exact ⟨rfl, rfl⟩
        · simp at he

theorem arg_at_fault (command : command_t) (i : Nat) (f : Fault)
    (h : arg_at command i = .error f) : f = .out_of_bounds := by
  unfold arg_at at h
  cases hg : command.args.get? i with
  | none => rw [hg] at h; simp at h; exact h.symm
  | some a => rw [hg] at h; simp at h

theorem psvis_dmesg_fault (env : environment) (command : command_t) (fname : CStr)
    (f : Fault) (h : psvis_dmesg env command fname = .error f) : f = .buffer_overflow := by
  unfold psvis_dmesg at h
  split at h
  · simp at h
  · simp only [Except.error.injEq] at h
    exact h.symm

theorem rewrite_stage_fault (env : environment) (command : command_t) (f : Fault)
    (h : rewrite_stage env command = .error f) :
    f = .out_of_bounds ∨ f = .buffer_overflow := by
  unfold rewrite_stage at h
  by_cases hp : command.name = "psvis".toList
  · simp only [hp, if_true] at h
    cases hb : psvis_block env command with
    | error g =>
      rw [hb] at h
      have hg : g = f := by simpa using h
      rw [← hg]
      unfold psvis_block at hb
      cases h0 : arg_at command 0 with
      | error f0 =>
        rw [h0] at hb
        have : f0 = g := by simpa using hb
        rw [← this]; exact Or.inl (arg_at_fault _ _ _ h0)
      | ok root =>
        rw [h0] at hb
        simp only at hb
        by_cases hc : command.arg_count ≠ 2
        · rw [if_pos hc] at hb; simp at hb
        · rw [if_neg hc] at hb
          cases h1 : arg_at command 1 with
          | error f1 =>
            rw [h1] at hb
            have : f1 = g := by simpa using hb
            rw [← this]; exact Or.inl (arg_at_fault _ _ _ h1)
          | ok fname =>
            rw [h1] at hb
            simp only at hb
            cases h2 : psvis_dmesg env command fname with
            | error f2 =>
              rw [h2] at hb
              have : f2 = g := by simpa using hb
              rw [← this]; exact Or.inr (psvis_dmesg_fault _ _ _ _ h2)
            | ok c1 => rw [h2] at hb; simp at hb
    | ok r =>
      obtain ⟨ev1, oc⟩ := r
      rw [hb] at h
      cases oc <;> simp at h
  · simp only [hp, if_false] at h
    simp at h

theorem launch_stage_fault (command : command_t) (inbound : Bool) (f : Fault)
    (h : launch_stage command inbound = .error f) : f = .out_of_bounds := by
  unfold launch_stage at h
  cases hm : myfg_poll command with
  | error g =>
    rw [hm] at h
    have hg : g = f := by simpa using h
    rw [← hg]
    unfold myfg_poll at hm
    split at hm
    · cases ha : arg_at command 0 with
      | error f0 =>
        rw [ha] at hm
        have : f0 = g := by simpa using hm
        rw [← this]; exact arg_at_fault _ _ _ ha
      | ok pid => rw [ha] at hm; simp at hm
    · simp at hm
  | ok ev3 =>
    rw [hm] at h
    cases hn : command.next <;> rw [hn] at h <;> simp at h

/-- The shape of one call of `process_command` in the shell process: it returns at once,
having created no process, with `EXIT` only for the name `exit` and with `INVALID` only
for `psvis` with an argument count other than two; or it rewrites and launches the stage. -/
theorem process_stage_cases (env : environment) (command : command_t) (inbound : Bool)
    (outcome : stage_outcome) (h : process_stage env command inbound = .ok outcome) :
    (∃ status events, outcome = .done status events ∧ (∀ e ∈ events, e.is_fork = false) ∧
      (status = .EXIT → command.name = "exit".toList) ∧
      (status = .INVALID → command.name = "psvis".toList ∧ command.arg_count ≠ 2) ∧
      (command.name ≠ [] → command.name ≠ "exit".toList →
        ¬ (command.name = "cd".toList ∧ command.arg_count > 0) → status = .INVALID)) ∨
    (command.name ≠ [] ∧ command.name ≠ "exit".toList ∧
      ∃ ev1 command2 launched, rewrite_stage env command = .ok (ev1, some command2) ∧
        launch_stage command2 inbound = .ok launched ∧
        outcome = launched.after
          ((if inbound then [shell_event.close .parent_to_child_1] else []) ++ ev1)) := by
  unfold process_stage at h
  by_cases h1 : command.name = []
  · left
    simp only [h1, if_true] at h
    simp only [Except.ok.injEq] at h
    refine ⟨.SUCCESS, _, h.symm, ?_, by simp, by simp, fun hc => absurd h1 hc⟩
    intro e he
    cases inbound <;> simp at he
    rcases he with he | he <;> (rw [he]; rfl)
  · simp only [h1, if_false] at h
    by_cases h2 : command.name = "exit".toList
    · left
      simp only [h2, if_true] at h
      simp only [Except.ok.injEq] at h
      refine ⟨.EXIT, _, h.symm, ?_, fun _ => h2, by simp, fun _ hc => absurd h2 hc⟩
      intro e he
      cases inbound <;> simp at he
      rcases he with he | he <;> (rw [he]; rfl)
    · simp only [h2, if_false] at h
      by_cases h3 : command.name = "cd".toList ∧ command.arg_count > 0
      · left
        rw [if_pos h3] at h
        cases ha : arg_at command 0 with
        | error f => rw [ha] at h; simp at h
        | ok dir =>
          rw [ha] at h
          simp only [Except.ok.injEq] at h
          refine ⟨.SUCCESS, _, h.symm, ?_, by simp, by simp, fun _ _ hc => absurd h3 hc⟩
          intro e he
          cases inbound <;> simp at he
          · rw [he]; rfl
          · rcases he with he | he | he <;> (rw [he]; rfl)
      · rw [if_neg h3] at h
        cases hr : rewrite_stage env command with
        | error f => rw [hr] at h; simp at h
        | ok r =>
          obtain ⟨ev1, oc⟩ := r
          rw [hr] at h
          cases oc with
          | none =>
            left
            simp only [Except.ok.injEq] at h
            obtain ⟨hn, hc, hev⟩ := rewrite_stage_none env command ev1 hr
            refine ⟨.INVALID, _, h.symm, ?_, by simp, fun _ => ⟨hn, hc⟩, fun _ _ _ => rfl⟩
            intro e he
            rw [hev] at he
            cases inbound <;> simp at he
            · rw [he]; rfl
            · rcases he with he | he <;> (rw [he]; rfl)
          | some c2 =>
            right
            simp only at h
            cases hl : launch_stage c2 inbound with
            | error f => rw [hl] at h; simp at h
            | ok launched =>
              rw [hl] at h
              simp only [Except.ok.injEq] at h
              exact ⟨h1, h2, ev1, c2, launched, rfl, hl, h.symm⟩

theorem process_stage_fault (env : environment) (command : command_t) (inbound : Bool)
    (f : Fault) (h : process_stage env command inbound = .error f) :
    f = .out_of_bounds ∨ f = .buffer_overflow := by
  unfold process_stage at h
  by_cases h1 : command.name = []
  · simp [h1] at h
  · simp only [h1, if_false] at h
    by_cases h2 : command.name = "exit".toList
    · simp only [h2, if_true] at h; simp at h
    · simp only [h2, if_false] at h
      by_cases h3 : command.name = "cd".toList ∧ command.arg_count > 0
      · rw [if_pos h3] at h
        cases ha : arg_at command 0 with
        | error g =>
          rw [ha] at h
          have : g = f := by simpa using h
          rw [← this]; exact Or.inl (arg_at_fault _ _ _ ha)
        | ok dir => rw [ha] at h; simp at h
      · rw [if_neg h3] at h
        cases hr : rewrite_stage env command with
        | error g =>
          rw [hr] at h
          have : g = f := by simpa using h
          rw [← this]; exact rewrite_stage_fault _ _ _ hr
        | ok r =>
          obtain ⟨ev1, oc⟩ := r
          rw [hr] at h
          cases oc with
          | none => simp at h
          | some c2 =>
            simp only at h
            cases hl : launch_stage c2 inbound with
            | error g =>
              rw [hl] at h
              have : g = f := by simpa using h
              rw [← this]; exact Or.inl (launch_stage_fault _ _ _ hl)
            | ok launched => rw [hl] at h; simp at h

theorem fork_mem_launch_events (command : command_t) (inbound : Bool) :
    shell_event.fork (.stage command inbound) ∈ launch_events command inbound := by
  unfold launch_events
  simp

theorem mem_launch_events (command stage : command_t) (inbound b : Bool)
    (h : shell_event.fork (.stage stage b) ∈ launch_events command inbound) :
    stage = command := by
  unfold launch_events at h
  simp only [List.mem_append, List.mem_singleton] at h
  rcases h with (((h | h) | h) | h) | h
  · split at h <;> simp at h
  · simp only [shell_event.fork.injEq, child_program.stage.injEq] at h
    exact h.1
  · split at h <;> simp at h
  · split at h <;> simp at h
  · split at h <;> simp at h

/-- Whether the shell waits after the `fork` of a launch is the wait decision of
`process_command`, `!command->background || command->next`. -/
theorem stage_waited_launch (pre post : List shell_event) (command : command_t)
    (inbound : Bool) (hpre : ∀ e ∈ pre, e.is_stage_fork = false)
    (hpost : ∀ e ∈ post, e.is_waitpid = false) :
    stage_waited (pre ++ launch_events command inbound ++ post)
      = (!command.background || command.next.isSome) := by
  unfold stage_waited
  have hp : ∀ a ∈ pre, (fun e : shell_event => !e.is_stage_fork) a = true := by
    intro a ha; simp [hpre a ha]
  have hany : post.any shell_event.is_waitpid = false := by
    rw [List.any_eq_false]
    intro e he
    simp [hpost e he]
  rw [List.append_assoc, List.dropWhile_append_of_pos hp]
  unfold launch_events
  cases hn : command.next.isSome <;> cases inbound <;> cases hb : command.background <;>
    simp [List.dropWhile, shell_event.is_stage_fork, shell_event.is_waitpid, hany]

theorem chain_ne_nil (c : command_t) : 1 ≤ (chain c).length := by
  rw [chain_eq]; simp

theorem chain_of_next (c nx : command_t) (h : c.next = some nx) : chain c = c :: chain nx := by
  rw [chain_eq, h]

theorem chain_of_last (c : command_t) (h : c.next = none) : chain c = [c] := by
  rw [chain_eq, h]

/-- The stage a call of `process_command` hands over to is the next stage of the stage it
was given, or the `grep` stage of `corona`. -/
theorem process_stage_next (env : environment) (command nx : command_t) (inbound : Bool)
    (events : List shell_event)
    (h : process_stage env command inbound = .ok (.next events nx)) :
    (command.next = some nx ∨
      (command.name = "corona".toList ∧ nx = grep_for_corona_command env)) ∧
    ∃ e ∈ events, e.is_fork = true := by
  rcases process_stage_cases env command inbound _ h with
    ⟨st, evs, ho, _⟩ | ⟨_, _, ev1, c2, launched, hr, hl, ho⟩
  · simp at ho
  · cases launched with
    | done st evs => simp [stage_outcome.after] at ho
    | next evs nx1 =>
      simp only [stage_outcome.after, stage_outcome.next.injEq] at ho
      obtain ⟨hev, hnx⟩ := ho
      subst hnx
      have hn := launch_stage_next c2 nx inbound evs hl
      obtain ⟨_, _, hnext, _⟩ := rewrite_stage_some env command c2 ev1 hr
      constructor
      · rcases hnext with hnext | ⟨hc, hnext⟩
        · left; rw [← hnext, hn]
        · right
          refine ⟨hc, ?_⟩
          rw [hn] at hnext
          exact Option.some.inj hnext
      · obtain ⟨post, hpost, _⟩ := launch_stage_events c2 inbound _ hl
        simp only [stage_outcome.events] at hpost
        refine ⟨.fork (.stage c2 inbound), ?_, rfl⟩
        rw [hev, hpost]
        simp only [List.mem_append]
        exact Or.inr (Or.inl (fork_mem_launch_events c2 inbound))

theorem grep_for_corona_stage (env : environment) (inbound : Bool) :
    ∃ events, process_stage env (grep_for_corona_command env) inbound
      = .ok (.done .SUCCESS events) := by
  have h1 : (grep_for_corona_command env).name ≠ [] := by simp [grep_for_corona_command]
  have h2 : (grep_for_corona_command env).name ≠ "exit".toList := by
    simp [grep_for_corona_command]
  have h3 : ¬ ((grep_for_corona_command env).name = "cd".toList ∧
      (grep_for_corona_command env).arg_count > 0) := by
    simp [grep_for_corona_command]
  have h4 : (grep_for_corona_command env).name ≠ "psvis".toList := by
    simp [grep_for_corona_command]
  have h5 : (grep_for_corona_command env).name ≠ "corona".toList := by
    simp [grep_for_corona_command]
  have h6 : ¬ ((grep_for_corona_command env).name = "myfg".toList ∧
      (grep_for_corona_command env).arg_count = 1) := by
    simp [grep_for_corona_command]
  unfold process_stage
  simp only [h1, h2, h3, if_false, rewrite_stage_plain env _ h4 h5]
  unfold launch_stage myfg_poll
  simp only [h6, if_false]
  exact ⟨_, rfl⟩

/-- The fuel that `process_command` gives is always enough: a call that yields no status
ended in a read of an argument that the stage does not hold. -/
theorem process_command_fuel_fault (env : environment) (fuel : Nat) :
    ∀ (command : command_t) (inbound : Bool) (f : Fault),
      ((chain command).length + 1 ≤ fuel ∨
        (command = grep_for_corona_command env ∧ 1 ≤ fuel)) →
      process_command_fuel env fuel command inbound = .error f →
        f = .out_of_bounds ∨ f = .buffer_overflow := by
  induction fuel with
  | zero =>
    intro command inbound f hf h
    rcases hf with hf | ⟨_, hf⟩ <;> omega
  | succ k ih =>
    intro command inbound f hf h
    rw [process_command_fuel] at h
    cases hs : process_stage env command inbound with
    | error g =>
      rw [hs] at h
      have : g = f := by simpa using h
      rw [← this]; exact process_stage_fault _ _ _ _ hs
    | ok outcome =>
      rw [hs] at h
      cases outcome with
      | done st evs => simp at h
      | next evs nx =>
        simp only at h
        cases hrec : process_command_fuel env k nx true with
        | ok r => rw [hrec] at h; simp at h
        | error g =>
          rw [hrec] at h
          have hg : g = f := by simpa using h
          rw [← hg]
          obtain ⟨hnx, _⟩ := process_stage_next env command nx inbound evs hs
          rcases hf with hf | ⟨hgrep, _⟩
          · rcases hnx with hnx | ⟨_, hnx⟩
            · apply ih nx true g _ hrec
              left
              rw [chain_of_next command nx hnx] at hf
              simp at hf
              omega
            · apply ih nx true g _ hrec
              right
              have := chain_ne_nil command
              exact ⟨hnx, by omega⟩
          · obtain ⟨evs2, hdone⟩ := grep_for_corona_stage env inbound
            rw [hgrep, hdone] at hs
            simp at hs

theorem process_command_fault (env : environment) (command : command_t) (inbound : Bool)
    (f : Fault) (h : process_command env command inbound = .error f) :
    f = .out_of_bounds ∨ f = .buffer_overflow :=
  process_command_fuel_fault env _ command inbound f (Or.inl (le_refl _)) h

theorem tokens_loop_next_no_pipe (ts : List CStr) (st st1 : parse_state)
    (h : tokens_loop st ts = .ok st1) (hp : ∀ t ∈ ts, t ≠ ['|']) :
    st1.command.next = st.command.next := by
  induction ts generalizing st with
  | nil =>
    have : st = st1 := by simpa [tokens_loop] using h
    rw [this]
  | cons t ts ih =>
    rw [tokens_loop_cons] at h
    by_cases hov : TEMP_BUF_SIZE < t.length + 1
    · rw [if_pos hov] at h; exact absurd h (by simp)
    · rw [if_neg hov, if_neg (hp t (List.mem_cons_self _ _))] at h
      rw [ih _ h (fun u hu => hp u (List.mem_cons_of_mem _ hu)), (parse_arg_keeps st t).2]

/-- A parsed line without a pipe token is a single stage. -/
theorem parse_command_no_pipe_next (buf : CStr) (c : command_t)
    (h : parse_command buf = .ok c) (hp : ∀ t ∈ tokens buf, t ≠ ['|']) : c.next = none := by
  obtain ⟨name, ts, st1, ht, hl, hc⟩ := parse_command_ok buf c h
  have := tokens_loop_next_no_pipe ts _ st1 hl
    (fun t hmem => hp t (by rw [ht]; exact List.mem_cons_of_mem _ hmem))
  rw [hc]
  show st1.command.next = none
  rw [this]
  cases ends_amp (name :: ts) <;> rfl

/-- In every stage of a parsed chain `arg_count` is the number of arguments. -/
theorem parse_command_arg_count (buf : CStr) (c : command_t) (h : parse_command buf = .ok c) :
    ∀ s ∈ chain c, s.arg_count = s.args.length := by
  intro s hs
  obtain ⟨b, hb, _⟩ := chain_stage_is_parse buf c h s hs
  obtain ⟨_, _, h3, h4, _⟩ := first_stage b s hb
  rw [h3, h4, List.length_map]

/-- A run of `process_command` in the shell process that returns `EXIT`: either the stage
it was given is named `exit`, and nothing but the closing of the inbound pipe was done, or
processes were created for earlier stages and the run ended with the closing of the pipe
in the call that met the stage named `exit`. -/
theorem process_command_fuel_exit (env : environment) (fuel : Nat) :
    ∀ (command : command_t) (inbound : Bool) (events : List shell_event),
      process_command_fuel env fuel command inbound = .ok (.EXIT, events) →
      (∃ s ∈ chain command, s.name = "exit".toList) ∧
      ((command.name = "exit".toList ∧ events = inbound_closes inbound) ∨
        (command.name ≠ "exit".toList ∧ ∃ earlier, events = earlier ++ inbound_closes true ∧
          ∃ e ∈ earlier, e.is_fork = true)) := by
  induction fuel with
  | zero => intro command inbound events h; simp [process_command_fuel] at h
  | succ k ih =>
    intro command inbound events h
    rw [process_command_fuel] at h
    cases hs : process_stage env command inbound with
    | error g => rw [hs] at h; simp at h
    | ok outcome =>
      rw [hs] at h
      cases outcome with
      | done st evs =>
        simp only [Except.ok.injEq, Prod.mk.injEq] at h
        obtain ⟨hst, hev⟩ := h
        subst hst; subst hev
        rcases process_stage_cases env command inbound _ hs with
          ⟨st, evs2, ho, _, hexit, _⟩ | ⟨_, _, ev1, c2, launched, hr, hl, ho⟩
        · simp only [stage_outcome.done.injEq] at ho
          have hname := hexit ho.1.symm
          refine ⟨⟨command, by rw [chain_eq]; simp, hname⟩, Or.inl ⟨hname, ?_⟩⟩
          rw [process_stage_exit env command inbound hname] at hs
          simp only [Except.ok.injEq, stage_outcome.done.injEq, true_and] at hs
          rw [← hs]
          cases inbound <;> rfl
        · cases launched with
          | done st evs2 =>
            simp only [stage_outcome.after, stage_outcome.done.injEq] at ho
            have := (launch_stage_done c2 inbound st evs2 hl).1
            rw [this] at ho
            exact absurd ho.1 (by decide)
          | next evs2 nx => simp [stage_outcome.after] at ho
      | next evs nx =>
        simp only at h
        cases hrec : process_command_fuel env k nx true with
        | error g => rw [hrec] at h; simp at h
        | ok r =>
          obtain ⟨st, evs1⟩ := r
          rw [hrec] at h
          simp only [Except.ok.injEq, Prod.mk.injEq] at h
          obtain ⟨hst, hev⟩ := h
          subst hst
          obtain ⟨⟨s, hsm, hsn⟩, hshape⟩ := ih nx true evs1 hrec
          obtain ⟨hnx, e, hem, hef⟩ := process_stage_next env command nx inbound evs hs
          have hne : command.name ≠ "exit".toList := by
            intro hname
            rw [process_stage_exit env command inbound hname] at hs
            simp at hs
          constructor
          · rcases hnx with hnx | ⟨_, hnx⟩
            · exact ⟨s, by rw [chain_of_next command nx hnx]; exact List.mem_cons_of_mem _ hsm, hsn⟩
            · rw [hnx, chain_of_last _ (by rfl)] at hsm
              simp only [List.mem_singleton] at hsm
              rw [hsm] at hsn
              exact absurd hsn (by simp [grep_for_corona_command])
          · right
            refine ⟨hne, ?_⟩
            rcases hshape with ⟨_, hev1⟩ | ⟨_, earlier, hev1, _⟩
            · exact ⟨evs, by rw [← hev, hev1], e, hem, hef⟩
            · refine ⟨evs ++ earlier, by rw [← hev, hev1, List.append_assoc], e, ?_, hef⟩
              exact List.mem_append_left _ hem

theorem execute_command_other (env : environment) (command : command_t)
    (h1 : command.name ≠ "myjobs".toList) (h2 : command.name ≠ "pause".toList)
    (h3 : command.name ≠ "mybg".toList) (h4 : command.name ≠ "myfg".toList)
    (h5 : command.name ≠ "alarm".toList) (h6 : command.name ≠ "hwtim".toList) :
    execute_command env command = execv_command env command := by
  unfold execute_command
  simp only [h1, h2, h3, h4, h5, h6, if_false]

theorem stage_outcome_after_events (earlier : List shell_event) (outcome : stage_outcome) :
    (outcome.after earlier).events = earlier ++ outcome.events := by
  cases outcome <;> rfl

/-- The events of a call of `process_command` that creates the stage's process: events
without a `fork` of a stage, the launch events of the rewritten stage, and events that are
neither a `waitpid` nor a `fork`. -/
theorem process_stage_forked (env : environment) (command stage : command_t)
    (inbound b : Bool) (outcome : stage_outcome)
    (h : process_stage env command inbound = .ok outcome)
    (hf : shell_event.fork (.stage stage b) ∈ outcome.events) :
    ∃ pre post, outcome.events = pre ++ launch_events stage inbound ++ post ∧
      (∀ e ∈ pre, e.is_stage_fork = false) ∧
      (∀ e ∈ post, e.is_waitpid = false ∧ e.is_fork = false) ∧
      ∃ ev1, rewrite_stage env command = .ok (ev1, some stage) := by
  rcases process_stage_cases env command inbound _ h with
    ⟨st, evs, ho, hnf, _⟩ | ⟨_, _, ev1, c2, launched, hr, hl, ho⟩
  · rw [ho] at hf
    have := hnf _ hf
    simp [shell_event.is_fork] at this
  · obtain ⟨post, hpost, hpp⟩ := launch_stage_events c2 inbound launched hl
    obtain ⟨hev1, _⟩ := rewrite_stage_some env command c2 ev1 hr
    have hevents : outcome.events
        = ((if inbound then [shell_event.close .parent_to_child_1] else []) ++ ev1) ++
          launch_events c2 inbound ++ post := by
      rw [ho, stage_outcome_after_events, hpost]
      simp only [List.append_assoc]
    have hpre : ∀ e ∈ (if inbound then [shell_event.close .parent_to_child_1] else []) ++ ev1,
        e.is_stage_fork = false := by
      intro e he
      simp only [List.mem_append] at he
      rcases he with he | he
      · cases inbound <;> simp at he
        rw [he]; rfl
      · exact hev1 e he
    have hstage : stage = c2 := by
      rw [hevents] at hf
      simp only [List.mem_append] at hf
      rcases hf with (hf | hf) | hf
      · have := hpre _ (by simpa only [List.mem_append] using hf)
        simp [shell_event.is_stage_fork] at this
      · exact mem_launch_events c2 stage inbound b hf
      · have := (hpp _ hf).2
        simp [shell_event.is_fork] at this
    subst hstage
    exact ⟨_, post, hevents, hpre, hpp, ev1, hr⟩

theorem path_search_argv (executable : CStr → Bool) (name : CStr) (argv : List (Option CStr)) :
    ∀ (fuel : Nat) (save : CStr) (effects : List child_effect) (file : CStr)
      (argv1 : List (Option CStr)),
      path_search executable name argv fuel save = .ok (effects, .execv file argv1) →
      argv1 = argv := by
  intro fuel
  induction fuel with
  | zero => intro save effects file argv1 h; simp [path_search] at h
  | succ n ih =>
    intro save effects file argv1 h
    unfold path_search at h
    split at h
    · simp at h
    · split at h
      · simp at h
      · split at h
        · simp only [Except.ok.injEq, Prod.mk.injEq, process_end.execv.injEq] at h
          exact h.2.2.symm
        · exact ih _ _ _ _ h

theorem inbound_closes_eq (inbound : Bool) :
    (if inbound then [shell_event.close .parent_to_child_1] else []) ++
      (if inbound then [shell_event.close .parent_to_child_0] else []) = inbound_closes inbound := by
  cases inbound <;> rfl

theorem chain_tail_mem (c nx s : command_t) (h : c.next = some nx) (hs : s ∈ chain nx) :
    s ∈ chain c := by
  rw [chain_of_next c nx h]
  exact List.mem_cons_of_mem _ hs

/-- The rewrites of `process_command` keep `arg_count` equal to the number of entries of
`args` in every stage of the chain. -/
theorem rewrite_stage_arg_count (env : environment) (command command2 : command_t)
    (events : List shell_event)
    (hchain : ∀ s ∈ chain command, s.arg_count = s.args.length)
    (h : rewrite_stage env command = .ok (events, some command2)) :
    ∀ s ∈ chain command2, s.arg_count = s.args.length := by
  have hcorona : ∀ c1 : command_t, (∀ s ∈ chain c1, s.arg_count = s.args.length) →
      ∀ s ∈ chain (if c1.name = "corona".toList then corona_block env c1 else c1),
        s.arg_count = s.args.length := by
    intro c1 h1 s hs
    by_cases hc : c1.name = "corona".toList
    · rw [if_pos hc] at hs
      have hch : chain (corona_block env c1)
          = [corona_block env c1, grep_for_corona_command env] := by
        rw [chain_of_next _ (grep_for_corona_command env) rfl,
          chain_of_last (grep_for_corona_command env) rfl]
      rw [hch] at hs
      simp only [List.mem_cons, List.mem_singleton, List.not_mem_nil, or_false] at hs
      rcases hs with hs | hs <;> rw [hs] <;> rfl
    · rw [if_neg hc] at hs
      exact h1 s hs
  unfold rewrite_stage at h
  by_cases hp : command.name = "psvis".toList
  · rw [if_pos hp] at h
    cases hb : psvis_block env command with
    | error f => rw [hb] at h; simp at h
    | ok r =>
      obtain ⟨ev1, o⟩ := r
      cases o with
      | none => rw [hb] at h; simp at h
      | some c1 =>
        rw [hb] at h
        simp only [Except.ok.injEq, Prod.mk.injEq, Option.some.injEq] at h
        obtain ⟨_, _, fname, _, _, hc0, _⟩ := psvis_block_some env command c1 ev1 hb
        have hc1 := psvis_dmesg_ok env command c1 fname hc0
        rw [← h.2]
        apply hcorona
        intro s hs
        rw [hc1, chain_eq] at hs
        rcases List.mem_cons.mp hs with hs | hs
        · rw [hs]; rfl
        · simp only at hs
          cases hcn : command.next with
          | none => rw [hcn] at hs; simp at hs
          | some nx =>
            rw [hcn] at hs
            exact hchain s (chain_tail_mem command nx s hcn hs)
  · rw [if_neg hp] at h
    simp only [Except.ok.injEq, Prod.mk.injEq, Option.some.injEq] at h
    rw [← h.2]
    exact hcorona command hchain

/-- In an array of `size` bytes, `combine_path` leaves the string of `combine_path` when
that string and its terminator fit, and writes past the end of the array when they do
not. -/
theorem combine_path_result_eq (size : Nat) (directory file : CStr) :
    combine_path_result size directory file
      = if size < (combine_path directory file).length + 1 then .error .buffer_overflow
        else .ok (combine_path directory file) := by
  unfold combine_path_result combine_path
  by_cases h1 : directory.length = 0 ∧ file.length = 0
  · rw [if_pos h1, if_pos h1]
    rfl
  · rw [if_neg h1, if_neg h1]
    by_cases h2 : file.length = 0
    · rw [if_pos h2, if_pos h2]
      rfl
    · rw [if_neg h2, if_neg h2]
      by_cases h3 : directory.length = 0
      · rw [if_pos h3, if_pos h3]
        rfl
      · rw [if_neg h3, if_neg h3]
        by_cases h4 : directory.getLast? = some '/'
        · rw [if_pos h4]
          simp only [strcpy, strcat, h4, if_true, List.length_append]
          by_cases h5 : size < directory.length + 1
          · rw [if_pos h5, if_pos (by omega)]
          · rw [if_neg h5]
        · rw [if_neg h4]
          simp only [strcpy, strcat, h4, if_false, List.length_append, List.length_cons,
            List.length_nil]
          by_cases h5 : size < directory.length + 1
          · rw [if_pos h5, if_pos (by omega)]
          · rw [if_neg h5]
            simp only
            by_cases h6 : size < directory.length + (0 + 1) + 1
            · rw [if_pos h6, if_pos (by omega)]
            · rw [if_neg h6]
              simp only [List.length_append, List.length_cons, List.length_nil,
                List.append_assoc, List.singleton_append]
              by_cases h7 : size < directory.length + (0 + 1) + file.length + 1
              · rw [if_pos h7, if_pos (by omega)]
              · rw [if_neg h7, if_neg (by omega)]

/-- The length of the string of `combine_path`: one more than the two lengths together
exactly when both strings are non-empty and the directory does not end in `/`. -/
theorem combine_path_length (directory file : CStr) :
    (combine_path directory file).length
      = if directory ≠ [] ∧ file ≠ [] ∧ directory.getLast? ≠ some '/'
        then directory.length + file.length + 1 else directory.length + file.length := by
  unfold combine_path
  cases directory with
  | nil =>
    cases file with
    | nil => simp
    | cons y ys => simp
  | cons x xs =>
    cases file with
    | nil => simp
    | cons y ys =>
      by_cases h4 : (x :: xs).getLast? = some '/'
      · simp [h4]
        omega
      · simp [h4]
        omega

/-- The path of a directory that ends in `/`, or of an empty name, fits the array
`full_path`. -/
theorem full_path_fits (d name : CStr) (h : d = [] ∨ name = [] ∨ d.getLast? = some '/') :
    full_path d name = .ok (combine_path d name) := by
  have hc : ¬ (d ≠ [] ∧ name ≠ [] ∧ d.getLast? ≠ some '/') := by
    intro hc
    rcases h with h | h | h
    · exact hc.1 h
    · exact hc.2.1 h
    · exact hc.2.2 h
  have hl : (combine_path d name).length = d.length + name.length := by
    rw [combine_path_length, if_neg hc]
  unfold full_path
  rw [combine_path_result_eq, hl, if_neg (by omega)]

/-- The path of a non-empty directory that does not end in `/`, with a non-empty name,
is written past the end of the array `full_path`. -/
theorem full_path_overflow (d name : CStr) (hd : d ≠ []) (hn : name ≠ [])
    (hs : d.getLast? ≠ some '/') : full_path d name = .error .buffer_overflow := by
  have hl : (combine_path d name).length = d.length + name.length + 1 := by
    rw [combine_path_length, if_pos ⟨hd, hn, hs⟩]
  unfold full_path
  rw [combine_path_result_eq, hl, if_pos (by omega)]

theorem rewrite_stage_corona (env : environment) (command : command_t)
    (h : command.name = "corona".toList) :
    rewrite_stage env command = .ok ([], some (corona_block env command)) := by
  unfold rewrite_stage
  rw [if_neg (by rw [h]; decide)]
  simp only [h, if_true]

/-- A call of `process_command` in which a process is created for the stage: it is the
stage that the rewriting blocks leave, and the shell waits for it exactly when it is not
marked background or has a next stage. -/
theorem process_stage_waited (env : environment) (command stage : command_t)
    (inbound b : Bool) (outcome : stage_outcome)
    (h : process_stage env command inbound = .ok outcome)
    (hf : shell_event.fork (.stage stage b) ∈ outcome.events) :
    (∃ ev1, rewrite_stage env command = .ok (ev1, some stage)) ∧
    stage_waited outcome.events = (!stage.background || stage.next.isSome) := by
  obtain ⟨pre, post, hev, hpre, hpost, hr⟩ :=
    process_stage_forked env command stage inbound b outcome h hf
  refine ⟨hr, ?_⟩
  rw [hev]
  exact stage_waited_launch pre post stage inbound hpre (fun e he => (hpost e he).1)

/-- C11, the code departs from the claim.  On the fan-out path with a next stage the copy
loop writes `sizeof(chars_read)` bytes of `buffer` to the pipe in each round, not the
`chars_read` bytes it read.  At the stage parsed from `cmd >f | x`, with `BUFSIZ = 8192` and
`sizeof(size_t) = 8`: of ten captured bytes the file `f` gets all ten and the pipe the first
eight; of the one captured byte 65 the pipe gets 65 followed by seven bytes that were in
`buffer` before. -/
theorem C11_pipe_gets_sizeof_bytes :
    (∃ c s, parse_command "cmd >f | x".toList = .ok c ∧
      c.next.isSome = true ∧ child_stdout c = .temp_file ∧
      process_command_child 8192 8 c [1, 2, 3, 4, 5, 6, 7, 8, 9, 10] (List.replicate 8192 0)
        sample_files [] = .ok (.copied s) ∧
      s.fs.read "f".toList = some [1, 2, 3, 4, 5, 6, 7, 8, 9, 10] ∧
      s.pipe = [1, 2, 3, 4, 5, 6, 7, 8]) ∧
    (∃ c s, parse_command "cmd >f | x".toList = .ok c ∧
      process_command_child 8192 8 c [65] (List.replicate 8192 0) sample_files []
        = .ok (.copied s) ∧
      s.fs.read "f".toList = some [65] ∧
      s.pipe = [65, 0, 0, 0, 0, 0, 0, 0]) :=
  ⟨⟨_, _, rfl, by decide, by decide, rfl, by decide, by decide⟩,
   ⟨_, _, rfl, rfl, by decide, by decide⟩⟩

/-- C12, the claim as stated fails: the line `corona &` has one trailing `&` and no pipe
and is parsed as a stage that is marked background and has no next stage, yet the shell
waits for its process: the `corona` block has made the `grep` stage its next stage before
the wait decision is taken. -/
theorem C12_counterexample :
    ∃ c outcome stage, parse_command "corona &".toList = .ok c ∧
      c.background = true ∧ c.next = none ∧
      process_stage sample_environment c false = .ok outcome ∧
      shell_event.fork (.stage stage false) ∈ outcome.events ∧
      stage.name = "wget".toList ∧ stage.background = true ∧
      stage.next = some (grep_for_corona_command sample_environment) ∧
      stage_waited outcome.events = true :=
  ⟨_, _, corona_block sample_environment
      { command_zero with name := "corona".toList, background := true },
    rfl, by decide, rfl, rfl, List.mem_cons_of_mem _ (List.mem_cons_self _ _), rfl, rfl, rfl,
    by decide⟩

/-- C12 (amended): in every call of `process_command` that creates the process of a stage,
the shell waits for that process (a `waitpid` follows its `fork` in the call) if and only if
it is not the case that the stage, as the `psvis` and `corona` blocks have left it, is
marked background and has no next stage; so a stage with a next stage is always waited for.
A line that ends in `&` and has no `|` token is parsed as one stage that is marked
background and has no next stage: its process is not waited for unless its name is
`corona`, and it is waited for when its name is `corona`. -/
theorem C12_wait_decision (env : environment) (command stage : command_t)
    (inbound from_pipe : Bool) (outcome : stage_outcome)
    (h : process_stage env command inbound = .ok outcome)
    (hf : shell_event.fork (.stage stage from_pipe) ∈ outcome.events) :
    (stage_waited outcome.events = true ↔ ¬ (stage.background = true ∧ stage.next = none)) ∧
    (stage.next ≠ none → stage_waited outcome.events = true) ∧
    (∀ buf, parse_command buf = .ok command →
      (trim_right (trim_left buf)).getLast? = some '&' → (∀ t ∈ tokens buf, t ≠ ['|']) →
      command.background = true ∧ command.next = none ∧
      (command.name ≠ "corona".toList → stage_waited outcome.events = false) ∧
      (command.name = "corona".toList → stage_waited outcome.events = true)) := by
  obtain ⟨⟨ev1, hr⟩, hw⟩ := process_stage_waited env command stage inbound from_pipe outcome h hf
  refine ⟨?_, ?_, ?_⟩
  · rw [hw]
    cases stage.background <;> cases stage.next <;> simp
  · intro hn
    rw [hw]
    cases hnx : stage.next with
    | none => exact absurd hnx hn
    | some nx => simp
  · intro buf hp hamp hpipe
    have hnext : command.next = none := parse_command_no_pipe_next buf command hp hpipe
    have hbg : command.background = true := by
      obtain ⟨_, hb, _⟩ := first_stage buf command hp
      rw [hb, ← ends_amp_trim]
      refine ⟨?_, hamp⟩
      cases hl : trim_right (trim_left buf) with
      | nil => rw [hl] at hamp; simp at hamp
      | cons a l => simp
    refine ⟨hbg, hnext, ?_, ?_⟩
    · intro hnc
      obtain ⟨_, h2, h3, _⟩ := rewrite_stage_some env command stage ev1 hr
      have hsn : stage.next = none := by
        rcases h3 with h3 | ⟨h3, _⟩
        · rw [h3, hnext]
        · exact absurd h3 hnc
      rw [hw, h2, hbg, hsn]
      rfl
    · intro hc
      rw [rewrite_stage_corona env command hc] at hr
      simp only [Except.ok.injEq, Prod.mk.injEq, Option.some.injEq] at hr
      rw [hw, ← hr.2]
      simp [corona_block]

/-- C12 (amended), on the line `sleep 10 &` (one stage, marked background, no next stage:
the shell does not wait) and on the line `a | b &` (the first stage is marked background
and has a next stage: the shell waits for it). -/
theorem C12_wait_decision_witness :
    (parse_command "sleep 10 &".toList
        = .ok { command_zero with
                name := "sleep".toList, background := true, arg_count := 1,
                args := ["10".toList] } ∧
      ∃ outcome,
        process_stage sample_environment
          { command_zero with
            name := "sleep".toList, background := true, arg_count := 1,
            args := ["10".toList] } false = .ok outcome ∧
        stage_waited outcome.events = false) ∧
    (parse_command "a | b &".toList
        = .ok { command_zero with
                name := "a".toList, background := true,
                next := some { command_zero with name := "b".toList, background := true } } ∧
      ∃ outcome,
        process_stage sample_environment
          { command_zero with
            name := "a".toList, background := true,
            next := some { command_zero with name := "b".toList, background := true } }
          false = .ok outcome ∧
        stage_waited outcome.events = true) :=
  ⟨⟨rfl, _, rfl,
      ((C12_wait_decision sample_environment
        { command_zero with
          name := "sleep".toList, background := true, arg_count := 1,
          args := ["10".toList] }
        { command_zero with
          name := "sleep".toList, background := true, arg_count := 1,
          args := ["10".toList] }
        false false _ rfl (List.mem_cons_self _ _)).2.2 "sleep 10 &".toList rfl
        (by decide) (by decide)).2.2.1 (by decide)⟩,
   ⟨rfl, _, rfl,
      (C12_wait_decision sample_environment
        { command_zero with
          name := "a".toList, background := true,
          next := some { command_zero with name := "b".toList, background := true } }
        { command_zero with
          name := "a".toList, background := true,
          next := some { command_zero with name := "b".toList, background := true } }
        false false _ rfl (List.mem_cons_of_mem _ (List.mem_cons_self _ _))).2.1
        (fun hn => Option.noConfusion hn)⟩⟩

/-- C13, the claim as stated fails: on the line `ls | exit` the call of `process_command`
returns `EXIT` after it has created the process of the stage `ls` (and waited for it). -/
theorem C13_counterexample :
    ∃ c events, parse_command "ls | exit".toList = .ok c ∧
      process_command sample_environment c false = .ok (.EXIT, events) ∧
      events.any shell_event.is_fork = true ∧
      (∃ stage, events.get? 1 = some (.fork (.stage stage false)) ∧ stage.name = "ls".toList) :=
  ⟨_, _, rfl, rfl, by decide, ⟨_, rfl, by decide⟩⟩

/-- C13 (amended): `process_command` returns `EXIT` only when a stage of the chain has the
name `exit`.  The call on that stage creates no process of its own: it only closes the
inbound pipe.  When the first stage is `exit`, no process is created in the whole call;
otherwise a process has been created for an earlier stage before `EXIT` is returned. -/
theorem C13_exit_status (env : environment) (command : command_t) (inbound : Bool)
    (events : List shell_event)
    (h : process_command env command inbound = .ok (.EXIT, events)) :
    (∃ s ∈ chain command, s.name = "exit".toList) ∧
    ((command.name = "exit".toList ∧ events = inbound_closes inbound ∧
        ∀ e ∈ events, e.is_fork = false) ∨
      (command.name ≠ "exit".toList ∧
        ∃ earlier, events = earlier ++ inbound_closes true ∧
          ∃ e ∈ earlier, e.is_fork = true)) := by
  obtain ⟨h1, h2⟩ := process_command_fuel_exit env _ command inbound events h
  refine ⟨h1, ?_⟩
  rcases h2 with ⟨hn, he⟩ | h2
  · refine Or.inl ⟨hn, he, ?_⟩
    intro e hm
    rw [he] at hm
    cases inbound
    · simp [inbound_closes] at hm
    · simp only [inbound_closes, if_true, List.mem_cons, List.mem_singleton,
        List.not_mem_nil, or_false] at hm
      rcases hm with hm | hm <;> rw [hm] <;> rfl
  · exact Or.inr h2

/-- C13 (amended), on the line `exit` (nothing is done and `EXIT` is returned) and on the
line `ls | exit` (a stage named `exit` is in the chain). -/
theorem C13_exit_status_witness :
    (∃ c, parse_command "exit".toList = .ok c ∧
      process_command sample_environment c false = .ok (.EXIT, [])) ∧
    (∃ c events, parse_command "ls | exit".toList = .ok c ∧
      process_command sample_environment c false = .ok (.EXIT, events) ∧
      ∃ s ∈ chain c, s.name = "exit".toList) :=
  ⟨⟨_, rfl, rfl⟩,
   ⟨{ command_zero with
      name := "ls".toList, next := some { command_zero with name := "exit".toList } },
    _, rfl, rfl,
    (C13_exit_status sample_environment
      { command_zero with
        name := "ls".toList, next := some { command_zero with name := "exit".toList } }
      false _ rfl).1⟩⟩

/-- C14, the code departs from the claim.  For every stage whose name is not a built-in
name, `execute_command` goes to `execv_command`, which builds each path in the array
`full_path` of `strlen(directory) + strlen(name) + 1` bytes.  Where every directory of
`PATH` ends in `/`, it launches `combine_path(d, name)` for the first directory `d` for
which that file can be executed, and without one it reports `command not found` and the
process exits with `UNKNOWN`, which is 2.  At the first directory that does not end in `/`,
reached when no directory before it holds the file, the path and its terminator take one
byte more than the array has and `combine_path` writes past its end, before any `execv`
on that path. -/
theorem C14_first_match_wins (env : environment) (command : command_t)
    (hname : command.name ∉ shellgibi_builtin_commands) :
    execute_command env command = execv_command env command ∧
    (∀ dirs : List CStr, env.PATH = path_of dirs →
      (∀ d ∈ dirs, d ≠ [] ∧ ∀ c ∈ d, c ≠ ':') →
      (∀ d ∈ dirs, d.getLast? = some '/') →
      execv_command env command
        = .ok (match dirs.find? (fun d => env.executable (combine_path d command.name)) with
          | some d =>
            ([], .execv (combine_path d command.name)
              (launch_vector env.indeterminate command).args)
          | none => ([.not_found command.name], .exit .UNKNOWN))) ∧
    return_codes.UNKNOWN.value = 2 ∧
    (∀ (pre : List CStr) (d : CStr) (rest : List CStr),
      env.PATH = path_of (pre ++ d :: rest) →
      (∀ e ∈ pre ++ d :: rest, e ≠ [] ∧ ∀ c ∈ e, c ≠ ':') →
      (∀ e ∈ pre, e.getLast? = some '/' ∧ env.executable (combine_path e command.name) = false) →
      d.getLast? ≠ some '/' → command.name ≠ [] →
      execv_command env command = .error .buffer_overflow) := by
  refine ⟨?_, ?_, rfl, ?_⟩
  · apply execute_command_other
    · exact fun h => hname (by rw [h]; decide)
    · exact fun h => hname (by rw [h]; decide)
    · exact fun h => hname (by rw [h]; decide)
    · exact fun h => hname (by rw [h]; decide)
    · exact fun h => hname (by rw [h]; decide)
    · exact fun h => hname (by rw [h]; decide)
  · intro dirs hpath hvalid hslash
    unfold execv_command
    rw [hpath]
    exact path_search_path_of env.executable command.name _ dirs hvalid
      (fun d hd => full_path_fits d command.name (Or.inr (Or.inr (hslash d hd)))) _
      (Nat.lt_succ_self _)
  · intro pre d rest hpath hvalid hpre hd hn
    unfold execv_command
    rw [hpath]
    exact path_search_overflow env.executable command.name _ .buffer_overflow d rest
      (full_path_overflow d command.name (hvalid d (by simp)).1 hn hd) pre hvalid
      (fun e he => ⟨full_path_fits e command.name (Or.inr (Or.inr (hpre e he).1)),
        (hpre e he).2⟩) _ (Nat.lt_succ_self _)

/-- C14, with the search path `/bin`, `/usr/bin` of the claim: the lookup of `grep`, which
is in `/usr/bin` only, and the lookup of `ls`, which is in both, write past the end of
`full_path` at `/bin`.  With the search path `/bin/`, `/usr/bin/`: `grep` is launched from
`/usr/bin/grep`, `ls` from `/bin/ls`, and `nosuch` is reported and the process exits with
`UNKNOWN`. -/
theorem C14_first_match_wins_witness :
    execute_command { sample_environment with PATH := "/bin:/usr/bin".toList }
      { command_zero with name := "grep".toList } = .error .buffer_overflow ∧
    execute_command { sample_environment with PATH := "/bin:/usr/bin".toList }
      { command_zero with name := "ls".toList } = .error .buffer_overflow ∧
    execute_command sample_environment { command_zero with name := "grep".toList }
      = .ok ([], .execv "/usr/bin/grep".toList [some "grep".toList, none]) ∧
    execute_command sample_environment { command_zero with name := "ls".toList }
      = .ok ([], .execv "/bin/ls".toList [some "ls".toList, none]) ∧
    execute_command sample_environment { command_zero with name := "nosuch".toList }
      = .ok ([.not_found "nosuch".toList], .exit .UNKNOWN) :=
  ⟨((C14_first_match_wins { sample_environment with PATH := "/bin:/usr/bin".toList }
      { command_zero with name := "grep".toList } (by decide)).1).trans
    ((C14_first_match_wins { sample_environment with PATH := "/bin:/usr/bin".toList }
      { command_zero with name := "grep".toList } (by decide)).2.2.2
      [] "/bin".toList ["/usr/bin".toList] rfl (by decide) (by decide) (by decide)
      (by decide)),
   ((C14_first_match_wins { sample_environment with PATH := "/bin:/usr/bin".toList }
      { command_zero with name := "ls".toList } (by decide)).1).trans
    ((C14_first_match_wins { sample_environment with PATH := "/bin:/usr/bin".toList }
      { command_zero with name := "ls".toList } (by decide)).2.2.2
      [] "/bin".toList ["/usr/bin".toList] rfl (by decide) (by decide) (by decide)
      (by decide)),
   ((C14_first_match_wins sample_environment { command_zero with name := "grep".toList }
      (by decide)).1).trans
    ((C14_first_match_wins sample_environment { command_zero with name := "grep".toList }
      (by decide)).2.1 ["/bin/".toList, "/usr/bin/".toList] rfl (by decide) (by decide)),
   ((C14_first_match_wins sample_environment { command_zero with name := "ls".toList }
      (by decide)).1).trans
    ((C14_first_match_wins sample_environment { command_zero with name := "ls".toList }
      (by decide)).2.1 ["/bin/".toList, "/usr/bin/".toList] rfl (by decide) (by decide)),
   ((C14_first_match_wins sample_environment { command_zero with name := "nosuch".toList }
      (by decide)).1).trans
    ((C14_first_match_wins sample_environment { command_zero with name := "nosuch".toList }
      (by decide)).2.1 ["/bin/".toList, "/usr/bin/".toList] rfl (by decide) (by decide))⟩

/-- C15, the code departs from the claim.  For the built-in `hwtim` with one argument,
`execute_command` runs the countdown and then goes on to `execv_command` with the name
`hwtim` still in place: the search path is looked up under the built-in name, with the
launch vector `hwtim, <seconds>, NULL`. -/
theorem C15_hwtim_path_lookup (env : environment) (command : command_t) (seconds : CStr)
    (hname : command.name = "hwtim".toList) (hcount : command.arg_count = 1)
    (hargs : command.args = [seconds]) :
    command.name ∈ shellgibi_builtin_commands ∧
    execute_command env command
      = (match execv_command env command with
        | .error f => .error f
        | .ok (effects, e) => .ok (.handwash seconds :: effects, e)) ∧
    execv_command env command
      = path_search env.executable "hwtim".toList
          [some "hwtim".toList, some seconds, none] (env.PATH.length + 1) env.PATH := by
  refine ⟨by rw [hname]; decide, ?_, ?_⟩
  · have ha : arg_at command 0 = .ok seconds := by
      unfold arg_at
      rw [hargs]
      rfl
    unfold execute_command
    rw [if_neg (by rw [hname]; decide), if_neg (by rw [hname]; decide),
      if_neg (by rw [hname]; decide), if_neg (by rw [hname]; decide),
      if_neg (by rw [hname]; decide), if_pos hname, if_neg (by rw [hcount]; decide), ha]
    simp only
    rw [if_neg (by rw [hcount]; decide)]
  · unfold execv_command
    rw [launch_vector_eq env.indeterminate command (by rw [hcount, hargs]; rfl), hname, hargs]
    rfl

/-- C15, on the line `hwtim 20` where `/usr/bin/hwtim` is an executable file: after the
countdown the child process launches `/usr/bin/hwtim`. -/
theorem C15_hwtim_path_lookup_witness :
    parse_command "hwtim 20".toList
      = .ok { command_zero with
              name := "hwtim".toList, arg_count := 1, args := ["20".toList] } ∧
    execute_command sample_environment
      { command_zero with name := "hwtim".toList, arg_count := 1, args := ["20".toList] }
      = .ok ([.handwash "20".toList],
          .execv "/usr/bin/hwtim".toList [some "hwtim".toList, some "20".toList, none]) :=
  ⟨rfl,
    (C15_hwtim_path_lookup sample_environment
      { command_zero with name := "hwtim".toList, arg_count := 1, args := ["20".toList] }
      "20".toList rfl rfl rfl).2.1.trans rfl⟩

/-- C17, the code departs from the claim.  `arg_count` equals the number of entries of
`args` in every stage of every chain that `parse_command` returns; where it holds in every
stage of a chain, it holds after the `corona` rewrite, in the second helper of `psvis`,
after the `myjobs`, `alarm` and `hwtim` rewrites of `execute_command`, and in the launch
vector, whose `args` holds `arg_count + 2` entries.  The `psvis` rewrites do not keep it:
they cut `args` to `sizeof(char) * arg_count` bytes, which do not hold `arg_count`
entries where a pointer is larger than a `char`; the entries are stored past the end of
the block, in the first helper and in the shell process itself, so that `process_command`
ends in a fault on every `psvis` stage with two arguments. -/
theorem C17_arg_count_invariant (env : environment) (command : command_t)
    (hchain : ∀ s ∈ chain command, s.arg_count = s.args.length) :
    (∀ buf c, parse_command buf = .ok c → ∀ s ∈ chain c, s.arg_count = s.args.length) ∧
    (∀ events command2, rewrite_stage env command = .ok (events, some command2) →
      ∀ s ∈ chain command2, s.arg_count = s.args.length) ∧
    (∀ s ∈ chain (corona_block env command), s.arg_count = s.args.length) ∧
    (psvis_rmmod command).arg_count = (psvis_rmmod command).args.length ∧
    (myjobs_rewrite env command).arg_count = (myjobs_rewrite env command).args.length ∧
    (alarm_rewrite command).arg_count = (alarm_rewrite command).args.length ∧
    (hwtim_rewrite command).arg_count = (hwtim_rewrite command).args.length ∧
    (launch_vector env.indeterminate command).arg_count
      = (launch_vector env.indeterminate command).args.length ∧
    (launch_vector env.indeterminate command).arg_count = command.arg_count + 2 ∧
    (SIZEOF_CHAR < env.SIZEOF_CHAR_P →
      (∀ root, psvis_insmod env command root = .error .buffer_overflow) ∧
      (∀ fname, psvis_dmesg env command fname = .error .buffer_overflow) ∧
      (holds_entries env (SIZEOF_CHAR * 3) 3 = false ∧
        holds_entries env (SIZEOF_CHAR * 2) 2 = false) ∧
      (command.name = "psvis".toList → command.arg_count = 2 →
        ∀ inbound, process_command env command inbound = .error .buffer_overflow)) := by
  have h0 : command.arg_count = command.args.length := by
    apply hchain
    rw [chain_eq]
    exact List.mem_cons_self _ _
  have hv := launch_vector_eq env.indeterminate command h0
  refine ⟨parse_command_arg_count, ?_, ?_, rfl, rfl, rfl, ?_, ?_, ?_, ?_⟩
  · intro events command2 h
    exact rewrite_stage_arg_count env command command2 events hchain h
  · intro s hs
    have hch : chain (corona_block env command)
        = [corona_block env command, grep_for_corona_command env] := by
      rw [chain_of_next _ (grep_for_corona_command env) rfl,
        chain_of_last (grep_for_corona_command env) rfl]
    rw [hch] at hs
    simp only [List.mem_cons, List.mem_singleton, List.not_mem_nil, or_false] at hs
    rcases hs with hs | hs <;> rw [hs] <;> rfl
  · show command.arg_count = (command.args.set 0 "hw-cronjob.txt".toList).length
    rw [List.length_set]
    exact h0
  · rw [hv]
    simp
  · rw [hv, h0]
  · intro hsize
    have hs1 : SIZEOF_CHAR = 1 := rfl
    have h3 : holds_entries env (SIZEOF_CHAR * 3) 3 = false := by
      unfold holds_entries
      rw [decide_eq_false_iff_not]
      omega
    have h2 : holds_entries env (SIZEOF_CHAR * 2) 2 = false := by
      unfold holds_entries
      rw [decide_eq_false_iff_not]
      omega
    have hd : ∀ fname, psvis_dmesg env command fname = .error .buffer_overflow := by
      intro fname
      unfold psvis_dmesg
      rw [h2]
      rfl
    refine ⟨?_, hd, ⟨h3, h2⟩, ?_⟩
    · intro root
      unfold psvis_insmod
      rw [h3]
      rfl
    · intro hn hc inbound
      have hlen : command.args.length = 2 := by rw [← h0, hc]
      obtain ⟨root, fname, hargs⟩ : ∃ root fname, command.args = [root, fname] := by
        cases ha : command.args with
        | nil => rw [ha] at hlen; simp at hlen
        | cons x t =>
          cases t with
          | nil => rw [ha] at hlen; simp at hlen
          | cons y u =>
            cases u with
            | nil => exact ⟨x, y, rfl⟩
            | cons z v => rw [ha] at hlen; simp at hlen
      have ha0 : arg_at command 0 = .ok root := by unfold arg_at; rw [hargs]; rfl
      have ha1 : arg_at command 1 = .ok fname := by unfold arg_at; rw [hargs]; rfl
      have hb : psvis_block env command = .error .buffer_overflow := by
        unfold psvis_block
        rw [ha0]
        simp only
        rw [if_neg (by rw [hc]; decide), ha1]
        simp only
        rw [hd fname]
      have hr : rewrite_stage env command = .error .buffer_overflow := by
        unfold rewrite_stage
        rw [if_pos hn, hb]
      have hst : process_stage env command inbound = .error .buffer_overflow := by
        unfold process_stage
        rw [if_neg (by rw [hn]; decide), if_neg (by rw [hn]; decide),
          if_neg (by rw [hn]; simp), hr]
      unfold process_command
      rw [process_command_fuel, hst]

/-- C17, on the line `psvis 1 out` with pointers of 8 bytes: `arg_count` is 2 and `args`
holds two entries when `process_command` is called, the block that `realloc` leaves for
the three entries of the first helper has 3 bytes, the one for the two entries of the
shell's stage has 2, and `process_command` ends in a fault.  On the chain parsed from
`hwtim 20 a@b.c | corona` the invariant holds in both stages and after the `hwtim` and
`corona` rewrites. -/
theorem C17_arg_count_invariant_witness :
    (parse_command "psvis 1 out".toList
        = .ok { command_zero with
                name := "psvis".toList, arg_count := 2,
                args := ["1".toList, "out".toList] } ∧
      psvis_insmod sample_environment
        { command_zero with
          name := "psvis".toList, arg_count := 2, args := ["1".toList, "out".toList] }
        "1".toList = .error .buffer_overflow ∧
      process_command sample_environment
        { command_zero with
          name := "psvis".toList, arg_count := 2, args := ["1".toList, "out".toList] }
        false = .error .buffer_overflow) ∧
    (∃ c nx, parse_command "hwtim 20 a@b.c | corona".toList = .ok c ∧ c.next = some nx ∧
      c.arg_count = 2 ∧ c.args.length = 2 ∧
      (hwtim_rewrite c).arg_count = (hwtim_rewrite c).args.length ∧
      (launch_vector none c).args.length = 4 ∧
      (launch_vector none c).arg_count = 4 ∧
      ∀ s ∈ chain (corona_block sample_environment nx), s.arg_count = s.args.length) :=
  ⟨⟨rfl,
    ((C17_arg_count_invariant sample_environment
      { command_zero with
        name := "psvis".toList, arg_count := 2, args := ["1".toList, "out".toList] }
      (fun s hs => by
        rw [chain_of_last _ rfl, List.mem_singleton] at hs
        rw [hs]; rfl)).2.2.2.2.2.2.2.2.2 (by decide)).1 _,
    ((C17_arg_count_invariant sample_environment
      { command_zero with
        name := "psvis".toList, arg_count := 2, args := ["1".toList, "out".toList] }
      (fun s hs => by
        rw [chain_of_last _ rfl, List.mem_singleton] at hs
        rw [hs]; rfl)).2.2.2.2.2.2.2.2.2 (by decide)).2.2.2 rfl rfl false⟩,
   ⟨{ command_zero with
      name := "hwtim".toList, arg_count := 2, args := ["20".toList, "a@b.c".toList],
      next := some { command_zero with name := "corona".toList } },
    { command_zero with name := "corona".toList }, rfl, rfl, rfl, rfl,
    (C17_arg_count_invariant sample_environment
      { command_zero with
        name := "hwtim".toList, arg_count := 2, args := ["20".toList, "a@b.c".toList],
        next := some { command_zero with name := "corona".toList } }
      (parse_command_arg_count "hwtim 20 a@b.c | corona".toList _ rfl)).2.2.2.2.2.2.1,
    by decide, by decide,
    (C17_arg_count_invariant sample_environment { command_zero with name := "corona".toList }
      (fun s hs => by
        rw [chain_of_last _ rfl, List.mem_singleton] at hs
        rw [hs]; rfl)).2.2.1⟩⟩

/-- C18: for every stage whose name is the empty string, `process_command` returns
`SUCCESS`; what it does is to close both ends of the inbound pipe when one was passed and
nothing else, so it creates no process, and its call ends in a `return` of its own, not in
the call on the next stage. -/
theorem C18_empty_name_noop (env : environment) (command : command_t) (inbound : Bool)
    (h : command.name = []) :
    process_command env command inbound = .ok (.SUCCESS, inbound_closes inbound) ∧
    process_stage env command inbound = .ok (.done .SUCCESS (inbound_closes inbound)) ∧
    inbound_closes true = [.close .parent_to_child_1, .close .parent_to_child_0] ∧
    inbound_closes false = [] ∧
    ∀ e ∈ inbound_closes inbound, e.is_fork = false := by
  have hs : process_stage env command inbound
      = .ok (.done .SUCCESS (inbound_closes inbound)) := by
    rw [process_stage_empty env command inbound h, inbound_closes_eq]
  refine ⟨?_, hs, rfl, rfl, ?_⟩
  · unfold process_command
    simp only [process_command_fuel, hs]
  · intro e he
    cases inbound
    · simp [inbound_closes] at he
    · simp only [inbound_closes, if_true, List.mem_cons, List.mem_singleton,
        List.not_mem_nil, or_false] at he
      rcases he with he | he <;> rw [he] <;> rfl

/-- C18, at a stage with the empty name whose `next` is the stage `ls`, called with an
inbound pipe: both ends of the pipe are closed and `SUCCESS` is returned. -/
theorem C18_empty_name_noop_witness :
    process_command sample_environment
      { command_zero with next := some { command_zero with name := "ls".toList } } true
      = .ok (.SUCCESS, [.close .parent_to_child_1, .close .parent_to_child_0]) :=
  (C18_empty_name_noop sample_environment
    { command_zero with next := some { command_zero with name := "ls".toList } } true rfl).1

/-- C19: for every stage with name `N` and arguments `a1 .. an` (`arg_count = n`), the
launch vector that `execv_command` and `execvp_command` build is `N, a1, .., an` followed
by a null entry, with `arg_count = n + 2`, whatever the added slots held; it is the `argv`
of the `execvp` call and of every `execv` call of the path search. -/
theorem C19_launch_vector (env : environment) (command : command_t)
    (h : command.arg_count = command.args.length) :
    (launch_vector env.indeterminate command).args
      = some command.name :: command.args.map some ++ [none] ∧
    (launch_vector env.indeterminate command).arg_count = command.args.length + 2 ∧
    execvp_command env command
      = .execvp command.name (some command.name :: command.args.map some ++ [none]) ∧
    ∀ effects file argv, execv_command env command = .ok (effects, .execv file argv) →
      argv = some command.name :: command.args.map some ++ [none] := by
  have hv := launch_vector_eq env.indeterminate command h
  refine ⟨by rw [hv], by rw [hv], by unfold execvp_command; rw [hv], ?_⟩
  intro effects file argv he
  unfold execv_command at he
  rw [hv] at he
  exact path_search_argv _ _ _ _ _ _ _ _ he

/-- C19, at the stage parsed from `ls -l /tmp`, with slots that held `junk` before: the
vector is `ls, -l, /tmp, NULL`, `arg_count` is 4, and `execv` is called on `/bin/ls`
with it. -/
theorem C19_launch_vector_witness :
    ∃ c, parse_command "ls -l /tmp".toList = .ok c ∧
      (launch_vector (some "junk".toList) c).args
        = [some "ls".toList, some "-l".toList, some "/tmp".toList, none] ∧
      (launch_vector (some "junk".toList) c).arg_count = 4 ∧
      execv_command { sample_environment with indeterminate := some "junk".toList } c
        = .ok ([], .execv "/bin/ls".toList
            [some "ls".toList, some "-l".toList, some "/tmp".toList, none]) :=
  ⟨_, rfl,
    (C19_launch_vector { sample_environment with indeterminate := some "junk".toList } _
      (by decide)).1,
    (C19_launch_vector { sample_environment with indeterminate := some "junk".toList } _
      (by decide)).2.1,
    rfl⟩

/-- C20, the code departs from the claim.  Whenever the copy phase of the fan-out path
completes, `process_command_child` returns `SUCCESS` in the child process, `process_command`
returns it to `main`, and the read loop of `main` goes on in the child; on every other
path the child's process ends in `execute_command`. -/
theorem C20_fanout_child_returns (BUFSIZ SIZEOF_SIZE_T : Nat) (env : environment)
    (command : command_t) (captured buffer0 : List Byte) (fs : file_system)
    (pipe0 : List Byte) (s : copy_state)
    (h : process_command_child BUFSIZ SIZEOF_SIZE_T command captured buffer0 fs pipe0
      = .ok (.copied s)) :
    process_command_in_child BUFSIZ SIZEOF_SIZE_T env command captured buffer0 fs pipe0
      = .ok (.returned .SUCCESS s) ∧
    main_loop_goes_on .SUCCESS = true := by
  refine ⟨?_, rfl⟩
  unfold process_command_in_child
  rw [h]

/-- C20, at the stage parsed from `ls >f | x` with the captured bytes 1 2 3: the child
returns `SUCCESS` to the read loop. -/
theorem C20_fanout_child_returns_witness :
    ∃ c s, parse_command "ls >f | x".toList = .ok c ∧
      process_command_in_child 8192 8 sample_environment c [1, 2, 3] (List.replicate 8192 0)
        sample_files [] = .ok (.returned .SUCCESS s) ∧
      main_loop_goes_on .SUCCESS = true :=
  ⟨_, _, rfl,
    C20_fanout_child_returns 8192 8 sample_environment _ [1, 2, 3] (List.replicate 8192 0)
      sample_files [] _ rfl⟩

theorem char_toNat_ne (a b : Char) (h : a ≠ b) : a.toNat ≠ b.toNat := by
  intro hh
  apply h
  have := congrArg Char.ofNat hh
  simpa using this

theorem strcmp_self (a : CStr) : strcmp a a = 0 := by
  induction a with
  | nil => rfl
  | cons x xs ih => simp [strcmp, ih]

theorem strcmp_eq_zero (a : CStr) : ∀ b : CStr, strcmp a b = 0 → a = b := by
  induction a with
  | nil =>
    intro b h
    cases b with
    | nil => rfl
    | cons y ys => simp [strcmp] at h
  | cons x xs ih =>
    intro b h
    cases b with
    | nil => simp [strcmp] at h
    | cons y ys =>
      unfold strcmp at h
      by_cases hxy : x = y
      · rw [if_pos hxy] at h
        rw [hxy, ih ys h]
      · rw [if_neg hxy] at h
        split at h <;> simp at h

theorem strcmp_swap (a : CStr) : ∀ b : CStr, strcmp b a = - strcmp a b := by
  induction a with
  | nil =>
    intro b
    cases b <;> simp [strcmp]
  | cons x xs ih =>
    intro b
    cases b with
    | nil => simp [strcmp]
    | cons y ys =>
      unfold strcmp
      by_cases hxy : x = y
      · rw [if_pos hxy, if_pos hxy.symm]
        exact ih ys
      · rw [if_neg hxy, if_neg (fun h => hxy h.symm)]
        have := char_toNat_ne x y hxy
        by_cases h1 : x.toNat < y.toNat
        · rw [if_pos h1, if_neg (by omega)]
          simp
        · rw [if_neg h1, if_pos (by omega)]

theorem strcmp_le_trans (a : CStr) :
    ∀ b c : CStr, strcmp a b ≤ 0 → strcmp b c ≤ 0 → strcmp a c ≤ 0 := by
  induction a with
  | nil =>
    intro b c _ _
    cases c <;> simp [strcmp]
  | cons x xs ih =>
    intro b c hab hbc
    cases b with
    | nil => simp [strcmp] at hab
    | cons y ys =>
      cases c with
      | nil => simp [strcmp] at hbc
      | cons z zs =>
        unfold strcmp at hab hbc ⊢
        by_cases hxy : x = y
        · subst hxy
          rw [if_pos rfl] at hab
          by_cases hxz : x = z
          · subst hxz
            rw [if_pos rfl] at hbc ⊢
            exact ih ys zs hab hbc
          · rw [if_neg hxz] at hbc ⊢
            exact hbc
        · rw [if_neg hxy] at hab
          have nxy := char_toNat_ne x y hxy
          have lxy : x.toNat < y.toNat := by
            by_contra hc
            rw [if_neg hc] at hab
            simp at hab
          by_cases hyz : y = z
          · subst hyz
            rw [if_neg hxy, if_pos lxy]
            simp
          · rw [if_neg hyz] at hbc
            have lyz : y.toNat < z.toNat := by
              by_contra hc
              rw [if_neg hc] at hbc
              simp at hbc
            have hxz : x ≠ z := by
              intro h
              rw [h] at lxy
              omega
            rw [if_neg hxz, if_pos (by omega)]
            simp

theorem strcmp_le_total (a b : CStr) : strcmp a b ≤ 0 ∨ strcmp b a ≤ 0 := by
  rw [strcmp_swap a b]
  omega

theorem strcmp_antisymm (a b : CStr) (h1 : strcmp a b ≤ 0) (h2 : strcmp b a ≤ 0) : a = b := by
  rw [strcmp_swap a b] at h2
  exact strcmp_eq_zero a b (by omega)

theorem strcmp_lt_iff (a b : CStr) : strcmp a b < 0 ↔ strcmp a b ≤ 0 ∧ a ≠ b := by
  constructor
  · intro h
    refine ⟨by omega, ?_⟩
    intro hab
    rw [hab, strcmp_self] at h
    omega
  · intro ⟨h1, h2⟩
    have : strcmp a b ≠ 0 := fun h => h2 (strcmp_eq_zero a b h)
    omega

theorem strcmp_lt_of_le_of_lt (a b c : CStr) (h1 : strcmp a b ≤ 0) (h2 : strcmp b c < 0) :
    strcmp a c < 0 := by
  rw [strcmp_lt_iff] at h2 ⊢
  refine ⟨strcmp_le_trans a b c h1 h2.1, ?_⟩
  intro hac
  rw [hac] at h1
  exact h2.2 (strcmp_antisymm b c h2.1 h1)

theorem strcmp_lt_trans (a b c : CStr) (h1 : strcmp a b < 0) (h2 : strcmp b c < 0) :
    strcmp a c < 0 :=
  strcmp_lt_of_le_of_lt a b c (by omega) h2

/-- The test of `shellgibi_autocomplete`: `strncmp(command, input_str, strlen(input_str))`
is 0 exactly when `input_str` is a prefix of `command`. -/
theorem strncmp_eq_zero_iff (input_str : CStr) :
    ∀ command : CStr, strncmp command input_str input_str.length = 0 ↔ input_str <+: command := by
  induction input_str with
  | nil =>
    intro command
    simp [strncmp]
  | cons y ys ih =>
    intro command
    cases command with
    | nil => simp [strncmp]
    | cons x xs =>
      simp only [List.length_cons, strncmp]
      by_cases hxy : x = y
      · subst hxy
        rw [if_pos rfl, ih xs]
        simp [List.cons_prefix_cons]
      · rw [if_neg hxy]
        constructor
        · intro h
          split at h <;> simp at h
        · intro h
          rw [List.cons_prefix_cons] at h
          exact absurd h.1.symm hxy

theorem qsort_sorted (base : List CStr) :
    (qsort qstrcmp base).Sorted (fun a b => strcmp a b ≤ 0) := by
  haveI : IsTotal CStr (fun a b => qstrcmp a b ≤ 0) := ⟨strcmp_le_total⟩
  haveI : IsTrans CStr (fun a b => qstrcmp a b ≤ 0) := ⟨strcmp_le_trans⟩
  exact List.sorted_insertionSort (fun a b => qstrcmp a b ≤ 0) base

theorem qsort_perm (base : List CStr) : (qsort qstrcmp base).Perm base :=
  List.perm_insertionSort (fun a b => qstrcmp a b ≤ 0) base

/-- Every arrangement of the array that is sorted under `qstrcmp` is the one `qsort` stands
for here: the method of the library does not matter. -/
theorem qsort_unique (base l : List CStr) (hp : l.Perm base)
    (hs : l.Sorted (fun a b => strcmp a b ≤ 0)) : l = qsort qstrcmp base := by
  haveI : IsAntisymm CStr (fun a b => strcmp a b ≤ 0) := ⟨strcmp_antisymm⟩
  exact List.eq_of_perm_of_sorted (hp.trans (qsort_perm base).symm) hs (qsort_sorted base)

theorem take_set_succ (x : CStr) : ∀ (a : List CStr) (u : Nat), u < a.length →
    (a.set u x).take (u + 1) = a.take u ++ [x] := by
  intro a
  induction a with
  | nil => intro u h; simp at h
  | cons y ys ih =>
    intro u h
    cases u with
    | zero => simp
    | succ v =>
      simp only [List.set_cons_succ, List.take_succ_cons, List.cons_append, List.cons.injEq,
        true_and]
      exact ih v (by simpa using h)

theorem set_append_le (x : CStr) (r : List CStr) : ∀ (l : List CStr) (u : Nat),
    u ≤ l.length → (l ++ x :: r).set u x = l.set u x ++ x :: r := by
  intro l
  induction l with
  | nil => intro u h; simp at h; subst h; simp
  | cons y ys ih =>
    intro u h
    cases u with
    | zero => simp
    | succ v =>
      simp only [List.cons_append, List.set_cons_succ, List.cons.injEq, true_and]
      exact ih v (by simpa using h)

theorem get_after (pre : List CStr) (prev x : CStr) (r : List CStr) :
    (pre ++ prev :: x :: r).get? (pre.length + 1) = some x ∧
    (pre ++ prev :: x :: r).get? (pre.length + 1 - 1) = some prev := by
  induction pre with
  | nil => simp
  | cons y ys ih => simpa using ih

/-- The compaction loop on a sorted array `pre ++ prev :: rest`, at `i = pre.length + 1`:
it completes, and the first `unique` entries of the array it leaves are strictly ascending
and hold what the first `unique` entries held before together with `rest`. -/
theorem compact_loop_spec : ∀ (rest pre : List CStr) (prev : CStr) (u : Nat),
    u ≤ pre.length + 1 →
    (prev :: rest).Sorted (fun a b => strcmp a b ≤ 0) →
    ((pre ++ prev :: rest).take u).Sorted (fun a b => strcmp a b < 0) →
    (∀ z ∈ (pre ++ prev :: rest).take u, strcmp z prev ≤ 0) →
    prev ∈ (pre ++ prev :: rest).take u →
    ∃ a1 u1, compact_loop rest.length (pre.length + 1) u (pre ++ prev :: rest) = .ok (a1, u1) ∧
      u1 ≤ a1.length ∧
      (a1.take u1).Sorted (fun a b => strcmp a b < 0) ∧
      ∀ z, z ∈ a1.take u1 ↔ (z ∈ (pre ++ prev :: rest).take u ∨ z ∈ rest) := by
  intro rest
  induction rest with
  | nil =>
    intro pre prev u hu _ hk _ _
    refine ⟨_, _, rfl, ?_, hk, ?_⟩
    · simp; omega
    · intro z; simp
  | cons x r ih =>
    intro pre prev u hu hs hk hle hmem
    obtain ⟨g1, g2⟩ := get_after pre prev x r
    have hsx : (x :: r).Sorted (fun a b => strcmp a b ≤ 0) := (List.sorted_cons.mp hs).2
    have hpx : strcmp prev x ≤ 0 := (List.sorted_cons.mp hs).1 x (List.mem_cons_self _ _)
    have hdec : pre ++ prev :: x :: r = (pre ++ [prev]) ++ x :: r := by simp
    have hlen : (pre ++ [prev]).length = pre.length + 1 := by simp
    rw [List.length_cons, compact_loop, g1, g2]
    simp only
    by_cases hne : strcmp x prev ≠ 0
    · rw [if_pos hne]
      have hxp : x ≠ prev := fun h => hne (by rw [h]; exact strcmp_self prev)
      have hlt : strcmp prev x < 0 := (strcmp_lt_iff prev x).mpr ⟨hpx, fun h => hxp h.symm⟩
      have hult : u < (pre ++ prev :: x :: r).length := by simp; omega
      have hset : (pre ++ prev :: x :: r).set u x = (pre ++ [prev]).set u x ++ x :: r := by
        rw [hdec]
        exact set_append_le x r (pre ++ [prev]) u (by rw [hlen]; exact hu)
      have htake : ((pre ++ prev :: x :: r).set u x).take (u + 1)
          = (pre ++ prev :: x :: r).take u ++ [x] :=
        take_set_succ x _ u hult
      have hlen2 : ((pre ++ [prev]).set u x).length = pre.length + 1 := by simp
      have hk2 : (((pre ++ [prev]).set u x ++ x :: r).take (u + 1)).Sorted
          (fun a b => strcmp a b < 0) := by
        rw [← hset, htake]
        refine List.pairwise_append.mpr ⟨hk, List.pairwise_singleton _ _, ?_⟩
        intro a ha b hb
        rw [List.mem_singleton] at hb
        rw [hb]
        exact strcmp_lt_of_le_of_lt a prev x (hle a ha) hlt
      have hle2 : ∀ z ∈ ((pre ++ [prev]).set u x ++ x :: r).take (u + 1), strcmp z x ≤ 0 := by
        rw [← hset, htake]
        intro z hz
        rcases List.mem_append.mp hz with hz | hz
        · exact strcmp_le_trans z prev x (hle z hz) hpx
        · rw [List.mem_singleton] at hz
          rw [hz, strcmp_self]
      have hmem2 : x ∈ ((pre ++ [prev]).set u x ++ x :: r).take (u + 1) := by
        rw [← hset, htake]
        simp
      obtain ⟨a1, u1, e1, e2, e3, e4⟩ :=
        ih ((pre ++ [prev]).set u x) x (u + 1) (by rw [hlen2]; omega) hsx hk2 hle2 hmem2
      rw [hlen2, ← hset] at e1
      refine ⟨a1, u1, e1, e2, e3, ?_⟩
      intro z
      rw [e4, ← hset, htake]
      simp only [List.mem_append, List.mem_singleton, List.mem_cons]
      tauto
    · rw [if_neg hne]
      have hxp : x = prev := strcmp_eq_zero x prev (by simpa using hne)
      subst hxp
      rw [hdec] at hk hle hmem
      obtain ⟨a1, u1, e1, e2, e3, e4⟩ :=
        ih (pre ++ [x]) x u (by rw [hlen]; omega) hsx hk hle hmem
      rw [hlen, ← hdec] at e1
      refine ⟨a1, u1, e1, e2, e3, ?_⟩
      intro z
      rw [e4, ← hdec]
      rw [← hdec] at hmem
      simp only [List.mem_cons]
      constructor
      · rintro (h | h)
        · exact Or.inl h
        · exact Or.inr (Or.inr h)
      · rintro (h | h | h)
        · exact Or.inl h
        · rw [h]; exact Or.inl hmem
        · exact Or.inr h

/-- For a list of candidates that is not empty, the end of `load_all_available_commands`
completes and leaves the candidates in strictly ascending order, each once, with
`number_of_available_commands` the number of entries of the array. -/
theorem sort_and_compact_spec (candidates : List CStr) (h : candidates ≠ []) :
    ∃ g, sort_and_compact candidates = .ok g ∧
      g.number_of_available_commands = g.all_available_commands.length ∧
      g.all_available_commands.Sorted (fun a b => strcmp a b < 0) ∧
      ∀ z, z ∈ g.all_available_commands ↔ z ∈ candidates := by
  have hperm := qsort_perm candidates
  have hsorted := qsort_sorted candidates
  cases hq : qsort qstrcmp candidates with
  | nil =>
    rw [hq] at hperm
    exact absurd (List.Perm.nil_eq hperm).symm h
  | cons p rest =>
    rw [hq] at hperm hsorted
    have hl : candidates.length - 1 = rest.length := by
      rw [← hperm.length_eq]
      simp
    obtain ⟨a1, u1, e1, e2, e3, e4⟩ := compact_loop_spec rest [] p 1 (by simp) hsorted
      (by simp) (by simp [strcmp_self]) (by simp)
    simp only [List.length_nil, Nat.zero_add, List.nil_append] at e1
    refine ⟨{ all_available_commands := a1.take u1, number_of_available_commands := u1 },
      ?_, ?_, e3, ?_⟩
    · unfold sort_and_compact
      rw [hq, hl, e1]
    · simp only [List.length_take]
      omega
    · intro z
      show z ∈ a1.take u1 ↔ z ∈ candidates
      rw [e4, ← hperm.mem_iff]
      simp

/-- The loop of `shellgibi_autocomplete` at `i = pre.length`, with the array
`pre ++ rest`: it completes, appends the entries of `rest` that pass the `strncmp` test, in
order, and counts them. -/
theorem autocomplete_loop_spec (g : available_commands) (input_str : CStr) :
    ∀ (rest pre : List CStr) (num_matches : Nat) (found : List CStr),
      g.all_available_commands = pre ++ rest →
      autocomplete_loop g input_str rest.length pre.length num_matches found
        = .ok (num_matches +
            (rest.filter (fun c => decide (strncmp c input_str input_str.length = 0))).length,
          found ++ rest.filter (fun c => decide (strncmp c input_str input_str.length = 0))) := by
  intro rest
  induction rest with
  | nil => intro pre num_matches found _; simp [autocomplete_loop]
  | cons c r ih =>
    intro pre num_matches found hg
    have hget : g.all_available_commands.get? pre.length = some c := by
      rw [hg, List.get?_eq_getElem?, List.getElem?_append_right (le_refl _)]
      simp
    have hg2 : g.all_available_commands = (pre ++ [c]) ++ r := by rw [hg]; simp
    have hlen : (pre ++ [c]).length = pre.length + 1 := by simp
    rw [List.length_cons, autocomplete_loop, hget]
    simp only
    by_cases hc : strncmp c input_str input_str.length = 0
    · rw [if_pos hc]
      have := ih (pre ++ [c]) (num_matches + 1) (found ++ [c]) hg2
      rw [hlen] at this
      rw [this, List.filter_cons_of_pos (by simpa using hc)]
      simp only [List.length_cons, List.append_assoc, List.singleton_append]
      congr 2
      omega
    · rw [if_neg hc]
      have := ih (pre ++ [c]) num_matches found hg2
      rw [hlen] at this
      rw [this, List.filter_cons_of_neg (by simpa using hc)]

/-- The function `shellgibi_autocomplete` on an array of `number_of_available_commands`
entries: it returns the entries that have `input_str` as a prefix, in the order of the
array, and their number. -/
theorem shellgibi_autocomplete_spec (g : available_commands) (input_str : CStr)
    (hn : g.number_of_available_commands = g.all_available_commands.length) :
    shellgibi_autocomplete g input_str
      = .ok { match_count :=
                (g.all_available_commands.filter (fun c => decide (input_str <+: c))).length,
              matches_ := g.all_available_commands.filter (fun c => decide (input_str <+: c)) } := by
  have hf : (fun c => decide (strncmp c input_str input_str.length = 0))
      = (fun c => decide (input_str <+: c)) := by
    funext c
    rw [decide_eq_decide]
    exact strncmp_eq_zero_iff input_str c
  have := autocomplete_loop_spec g input_str g.all_available_commands [] 0 [] (by simp)
  rw [hf] at this
  simp only [List.length_nil, Nat.zero_add, List.nil_append] at this
  unfold shellgibi_autocomplete
  rw [hn, this]

/-- C21: for every list of candidate names that is not empty (the list that
`load_all_available_commands` collects always holds the eight built-in names) and every
input string, the sort and the compaction of `load_all_available_commands` complete, and
`shellgibi_autocomplete` then returns exactly the candidates that have the input as a
prefix, in strictly ascending order under `strcmp`, so each once, with `match_count` the
number of names returned. -/
theorem C21_autocomplete_matches (candidates : List CStr) (input_str : CStr)
    (h : candidates ≠ []) :
    ∃ g m, sort_and_compact candidates = .ok g ∧
      shellgibi_autocomplete g input_str = .ok m ∧
      (∀ name, name ∈ m.matches_ ↔ name ∈ candidates ∧ input_str <+: name) ∧
      m.matches_.Sorted (fun a b => strcmp a b < 0) ∧
      m.matches_.Nodup ∧
      m.match_count = m.matches_.length := by
  obtain ⟨g, hg, hn, hs, hmem⟩ := sort_and_compact_spec candidates h
  have hsf : (g.all_available_commands.filter (fun c => decide (input_str <+: c))).Sorted
      (fun a b => strcmp a b < 0) := List.Pairwise.filter _ hs
  refine ⟨g, _, hg, shellgibi_autocomplete_spec g input_str hn, ?_, hsf, ?_, rfl⟩
  · intro name
    show name ∈ g.all_available_commands.filter (fun c => decide (input_str <+: c)) ↔ _
    rw [List.mem_filter, hmem]
    simp
  · show (g.all_available_commands.filter (fun c => decide (input_str <+: c))).Nodup
    refine List.Pairwise.imp ?_ hsf
    intro a b hab heq
    rw [heq, strcmp_self] at hab
    omega

/-- C21, where the loop over `PATH` has found `ls`, `grep`, `ls` again and `myls`: for
the input `my` the names returned are `mybg`, `myfg`, `myjobs`, `myls`, and `match_count`
is 4; for the input `ls` the one name `ls` is returned. -/
theorem C21_autocomplete_matches_witness :
    (∃ g m,
      sort_and_compact
        (shellgibi_builtin_commands ++
          ["ls".toList, "grep".toList, "ls".toList, "myls".toList]) = .ok g ∧
      shellgibi_autocomplete g "my".toList = .ok m ∧
      (∀ name, name ∈ m.matches_ ↔
        name ∈ shellgibi_builtin_commands ++
          ["ls".toList, "grep".toList, "ls".toList, "myls".toList] ∧ "my".toList <+: name) ∧
      m.matches_.Sorted (fun a b => strcmp a b < 0) ∧
      m.matches_.Nodup ∧
      m.match_count = m.matches_.length) ∧
    (∃ g, load_all_available_commands ["ls".toList, "grep".toList, "ls".toList, "myls".toList]
        = .ok g ∧
      shellgibi_autocomplete g "my".toList
        = .ok { match_count := 4,
                matches_ := ["mybg".toList, "myfg".toList, "myjobs".toList, "myls".toList] } ∧
      shellgibi_autocomplete g "ls".toList
        = .ok { match_count := 1, matches_ := ["ls".toList] }) :=
  ⟨C21_autocomplete_matches
      (shellgibi_builtin_commands ++ ["ls".toList, "grep".toList, "ls".toList, "myls".toList])
      "my".toList (by decide),
   ⟨_, rfl, rfl, rfl⟩⟩

/-- C22, the code departs from the claim.  The string of `combine_path(d, f)` and its
terminator fit in the array `full_path` of `strlen(d) + strlen(f) + 1` bytes that the
callers of `combine_path` declare exactly when `d` is empty, `f` is empty or `d` ends in
`/`.  When both are non-empty and `d` does not end in `/`, the string is `d`, one `/` and
`f`, it needs one byte more than the array has, and the last `strcat` of `combine_path`
writes past the end of the array. -/
theorem C22_full_path_overflow (d f : CStr) :
    ((combine_path d f).length + 1 ≤ d.length + f.length + 1 ↔
      (d = [] ∨ f = [] ∨ d.getLast? = some '/')) ∧
    (full_path d f = .ok (combine_path d f) ↔
      (combine_path d f).length + 1 ≤ d.length + f.length + 1) ∧
    (d ≠ [] → f ≠ [] → d.getLast? ≠ some '/' →
      combine_path d f = d ++ '/' :: f ∧
      (combine_path d f).length + 1 = d.length + f.length + 1 + 1 ∧
      full_path d f = .error .buffer_overflow) := by
  have hlen := combine_path_length d f
  have hfp := combine_path_result_eq (d.length + f.length + 1) d f
  refine ⟨?_, ?_, ?_⟩
  · by_cases hc : d ≠ [] ∧ f ≠ [] ∧ d.getLast? ≠ some '/'
    · rw [hlen, if_pos hc]
      constructor
      · intro h; omega
      · rintro (h | h | h)
        · exact absurd h hc.1
        · exact absurd h hc.2.1
        · exact absurd h hc.2.2
    · rw [hlen, if_neg hc]
      constructor
      · intro _
        by_contra hn
        apply hc
        refine ⟨fun h => hn (Or.inl h), fun h => hn (Or.inr (Or.inl h)),
          fun h => hn (Or.inr (Or.inr h))⟩
      · intro _; omega
  · unfold full_path
    rw [hfp]
    by_cases hc : d.length + f.length + 1 < (combine_path d f).length + 1
    · rw [if_pos hc]
      constructor
      · intro h; simp at h
      · intro h; omega
    · rw [if_neg hc]
      constructor
      · intro _; omega
      · intro _; rfl
  · intro hd hf hs
    have hl : (combine_path d f).length = d.length + f.length + 1 := by
      rw [hlen, if_pos ⟨hd, hf, hs⟩]
    refine ⟨?_, by rw [hl], ?_⟩
    · unfold combine_path
      have h1 : d.length ≠ 0 := fun h => hd (List.length_eq_zero.mp h)
      have h2 : f.length ≠ 0 := fun h => hf (List.length_eq_zero.mp h)
      rw [if_neg (fun h => h1 h.1), if_neg h2, if_neg h1, if_neg hs]
    · unfold full_path
      rw [hfp, if_pos (by omega)]

/-- C22, at the directory `/bin` and the file `ls`: the path `/bin/ls` and its terminator
take 8 bytes, the array `full_path` has 7, and `combine_path` writes past its end; at the
directory `/bin/` the path fits. -/
theorem C22_full_path_overflow_witness :
    combine_path "/bin".toList "ls".toList = "/bin/ls".toList ∧
    "/bin".toList.length + "ls".toList.length + 1 = 7 ∧
    (combine_path "/bin".toList "ls".toList).length + 1 = 8 ∧
    full_path "/bin".toList "ls".toList = .error .buffer_overflow ∧
    full_path "/bin/".toList "ls".toList = .ok "/bin/ls".toList :=
  ⟨((C22_full_path_overflow "/bin".toList "ls".toList).2.2
      (by decide) (by decide) (by decide)).1,
    rfl,
    ((C22_full_path_overflow "/bin".toList "ls".toList).2.2
      (by decide) (by decide) (by decide)).2.1,
    ((C22_full_path_overflow "/bin".toList "ls".toList).2.2
      (by decide) (by decide) (by decide)).2.2,
    (C22_full_path_overflow "/bin/".toList "ls".toList).2.1.mpr (by decide)⟩

end Shellgibi
